import Mathlib

/-!
# Verification of the async-snmp core against its specification

Shallow embedding of the async-snmp library (Rust) in Lean 4, together with
theorems settling the specification claims.  Rust `Vec<T>` is modelled as
`List T`, `u32` arcs as `Nat`, byte strings as `List Nat` (each element a
byte value), `i32` as `Int`, and `Option`/`Result` as `Option`/`Except`.
-/

namespace AsyncSnmp

/-- OID: an ordered sequence of unsigned 32-bit arcs (spec §3; `src/oid.rs`
is not part of the provided sources, so the data structure follows the
spec's data model: arcs compared as unsigned integers, immutable). -/
structure Oid where
  arcs : List Nat
deriving DecidableEq

/-- Validity of an OID per spec §3: length between 2 and 128, the first arc
is 0, 1 or 2, and when it is 0 or 1 the second arc is ≤ 39; arcs are 32-bit. -/
def Oid.valid (o : Oid) : Prop :=
  2 ≤ o.arcs.length ∧ o.arcs.length ≤ 128 ∧
  (∀ a ∈ o.arcs, a < 2 ^ 32) ∧
  o.arcs.headD 0 ≤ 2 ∧
  (o.arcs.headD 0 ≤ 1 → o.arcs.getD 1 0 ≤ 39)

/-- Lexicographic strict order on arc vectors: arcs compared as unsigned
integers, a shorter prefix strictly less than any longer extension
(the derived `Ord` of the Rust arc vector). -/
def arcsLt : List Nat → List Nat → Bool
  | [], [] => false
  | [], _ :: _ => true
  | _ :: _, [] => false
  | a :: as, b :: bs => if a < b then true else if b < a then false else arcsLt as bs

/-- Three-way comparison on arc vectors (Rust `Ord::cmp`). -/
def arcsCmp : List Nat → List Nat → Ordering
  | [], [] => .eq
  | [], _ :: _ => .lt
  | _ :: _, [] => .gt
  | a :: as, b :: bs => if a < b then .lt else if b < a then .gt else arcsCmp as bs

/-- `x < y` on OIDs. -/
def Oid.lt (x y : Oid) : Bool := arcsLt x.arcs y.arcs

/-- `x <= y` on OIDs (total order: `x <= y ↔ ¬ y < x`). -/
def Oid.le (x y : Oid) : Bool := !(arcsLt y.arcs x.arcs)

/-- `Oid::starts_with`: `base` is a prefix of the arcs of `x`. -/
def Oid.startsWith (x base : Oid) : Bool := base.arcs.isPrefixOf x.arcs

theorem arcsLt_irrefl (l : List Nat) : arcsLt l l = false := by
  induction l with
  | nil => rfl
  | cons a as ih => simp [arcsLt, ih]

theorem arcsLt_asymm {a b : List Nat} (h : arcsLt a b = true) : arcsLt b a = false := by
  induction a generalizing b with
  | nil =>
    cases b with
    | nil => rfl
    | cons x xs => rfl
  | cons x xs ih =>
    cases b with
    | nil => simp [arcsLt] at h
    | cons y ys =>
      by_cases hxy : x < y
      · have : ¬ y < x := by omega
        simp [arcsLt, hxy, this, Nat.lt_asymm hxy]
      · by_cases hyx : y < x
        · simp [arcsLt, hxy, hyx] at h
        · have hxy' : ¬ x < y := hxy
          simp [arcsLt, hxy', hyx] at h ⊢
          exact ih h

theorem arcsLt_or_eq {a b : List Nat} (h1 : arcsLt a b = false) (h2 : arcsLt b a = false) :
    a = b := by
  induction a generalizing b with
  | nil =>
    cases b with
    | nil => rfl
    | cons y ys => simp [arcsLt] at h1
  | cons x xs ih =>
    cases b with
    | nil => simp [arcsLt] at h2
    | cons y ys =>
      by_cases hxy : x < y
      · simp [arcsLt, hxy] at h1
      · by_cases hyx : y < x
        · simp [arcsLt, hyx] at h2
        · have hxy' : ¬ x < y := hxy
          have hyx' : ¬ y < x := hyx
          simp [arcsLt, hxy', hyx'] at h1 h2
          have : x = y := by omega
          rw [this, ih h1 h2]

theorem arcsLt_trans {a b c : List Nat} (h1 : arcsLt a b = true) (h2 : arcsLt b c = true) :
    arcsLt a c = true := by
  induction a generalizing b c with
  | nil =>
    cases c with
    | nil =>
      cases b with
      | nil => simp [arcsLt] at h1
      | cons y ys => simp [arcsLt] at h2
    | cons z zs => rfl
  | cons x xs ih =>
    cases b with
    | nil => simp [arcsLt] at h1
    | cons y ys =>
      cases c with
      | nil => simp [arcsLt] at h2
      | cons z zs =>
        by_cases hxy : x < y <;> by_cases hyz : y < z
        · have hxz : x < z := Nat.lt_trans hxy hyz
          simp [arcsLt, hxz]
        · by_cases hzy : z < y
          · simp [arcsLt, hyz, hzy] at h2
          · have : y = z := by omega
            subst this
            simp [arcsLt, hxy]
        · by_cases hyx : y < x
          · simp [arcsLt, hxy, hyx] at h1
          · have : x = y := by omega
            subst this
            simp [arcsLt, hyz]
        · by_cases hyx : y < x
          · simp [arcsLt, hxy, hyx] at h1
          · by_cases hzy : z < y
            · simp [arcsLt, hyz, hzy] at h2
            · have hx : x = y := by omega
              have hy : y = z := by omega
              subst hx; subst hy
              have hxx : ¬ x < x := by omega
              simp [arcsLt, hxx] at h1 h2 ⊢
              exact ih h1 h2

theorem arcsCmp_eq_iff (a b : List Nat) : arcsCmp a b = .eq ↔ a = b := by
  induction a generalizing b with
  | nil =>
    cases b with
    | nil => simp [arcsCmp]
    | cons y ys => simp [arcsCmp]
  | cons x xs ih =>
    cases b with
    | nil => simp [arcsCmp]
    | cons y ys =>
      by_cases hxy : x < y
      · simp [arcsCmp, hxy]
        omega
      · by_cases hyx : y < x
        · simp [arcsCmp, hxy, hyx]
          omega
        · have : x = y := by omega
          subst this
          simp [arcsCmp, hxy, hyx, ih]

theorem arcsCmp_lt_iff (a b : List Nat) : arcsCmp a b = .lt ↔ arcsLt a b = true := by
  induction a generalizing b with
  | nil =>
    cases b with
    | nil => simp [arcsCmp, arcsLt]
    | cons y ys => simp [arcsCmp, arcsLt]
  | cons x xs ih =>
    cases b with
    | nil => simp [arcsCmp, arcsLt]
    | cons y ys =>
      by_cases hxy : x < y
      · simp [arcsCmp, arcsLt, hxy]
      · by_cases hyx : y < x
        · simp [arcsCmp, arcsLt, hxy, hyx]
        · simp [arcsCmp, arcsLt, hxy, hyx, ih]

theorem arcsCmp_gt_iff (a b : List Nat) : arcsCmp a b = .gt ↔ arcsLt b a = true := by
  rcases h : arcsCmp a b with _ | _ | _
  · constructor
    · intro h'; cases h'
    · intro h'
      rw [arcsCmp_lt_iff] at h
      rw [arcsLt_asymm h'] at h
      exact Bool.noConfusion h
  · constructor
    · intro h'; cases h'
    · intro h'
      rw [arcsCmp_eq_iff] at h
      subst h
      rw [arcsLt_irrefl] at h'
      cases h'
  · constructor
    · intro _
      by_cases hba : arcsLt b a = true
      · exact hba
      · exfalso
        by_cases hab : arcsLt a b = true
        · have h2 := (arcsCmp_lt_iff a b).2 hab
          rw [h2] at h
          cases h
        · have := arcsLt_or_eq (by simpa using hab) (by simpa using hba)
          subst this
          rw [(arcsCmp_eq_iff a a).2 rfl] at h
          cases h
    · intro _; rfl

/-! ## VACM views (src/agent/vacm.rs) -/

/-- A subtree in a view with optional mask (`ViewSubtree`, src/agent/vacm.rs). -/
structure ViewSubtree where
  oid : Oid
  mask : List Nat
  included : Bool
deriving DecidableEq

/-- The mask bit consulted for arc position `i` in `ViewSubtree::matches`:
bit `7 - (i % 8)` of mask byte `i / 8`, defaulting to 1 (exact match
required) beyond the end of the mask. -/
def ViewSubtree.maskBit (s : ViewSubtree) (i : Nat) : Nat :=
  if i / 8 < s.mask.length then (s.mask.getD (i / 8) 0 >>> (7 - i % 8)) &&& 1 else 1

/-- `ViewSubtree::matches` (src/agent/vacm.rs): the OID must be at least as
long as the subtree, and each subtree arc whose mask bit is 1 must equal the
OID's arc at that position.  The indexed `for` loop over the subtree arcs is
rendered as `List.all` over `List.range`. -/
def ViewSubtree.matches (s : ViewSubtree) (o : Oid) : Bool :=
  if o.arcs.length < s.oid.arcs.length then false
  else (List.range s.oid.arcs.length).all fun i =>
    !(s.maskBit i == 1 && !(o.arcs.getD i 0 == s.oid.arcs.getD i 0))

/-- A view: a collection of included/excluded subtrees (`View`, src/agent/vacm.rs). -/
structure View where
  subtrees : List ViewSubtree
deriving DecidableEq

/-- `View::contains` (src/agent/vacm.rs): single pass over the subtrees
accumulating the `dominated_by_include` / `dominated_by_exclude` flags,
then `include && !exclude`. -/
def View.contains (v : View) (o : Oid) : Bool :=
  let flags := v.subtrees.foldl
    (fun (fl : Bool × Bool) s =>
      if s.matches o then
        if s.included then (true, fl.2) else (fl.1, true)
      else fl)
    (false, false)
  flags.1 && !flags.2

/-- Statement-side rendering of claim C5's matching condition: the OID has at
least as many arcs as the subtree and each subtree position is either
wildcarded by a mask bit 0 or agrees with the OID's arc. -/
def ViewSubtree.matchSpec (s : ViewSubtree) (o : Oid) : Prop :=
  s.oid.arcs.length ≤ o.arcs.length ∧
  ∀ i < s.oid.arcs.length,
    (i / 8 < s.mask.length ∧ (s.mask.getD (i / 8) 0 >>> (7 - i % 8)) &&& 1 = 0) ∨
    o.arcs.getD i 0 = s.oid.arcs.getD i 0

theorem maskBit_zero_or_one (s : ViewSubtree) (i : Nat) :
    s.maskBit i = 0 ∨ s.maskBit i = 1 := by
  unfold ViewSubtree.maskBit
  split
  · rw [Nat.and_one_is_mod]
    omega
  · right; rfl

theorem maskBit_eq_zero_iff (s : ViewSubtree) (i : Nat) :
    s.maskBit i = 0 ↔
      (i / 8 < s.mask.length ∧ (s.mask.getD (i / 8) 0 >>> (7 - i % 8)) &&& 1 = 0) := by
  unfold ViewSubtree.maskBit
  split
  · next hm => simp [hm]
  · next hm => simp [hm]

theorem matches_iff_matchSpec (s : ViewSubtree) (o : Oid) :
    s.matches o = true ↔ s.matchSpec o := by
  unfold ViewSubtree.matches ViewSubtree.matchSpec
  by_cases hlen : o.arcs.length < s.oid.arcs.length
  · simp only [hlen, if_true]
    exact ⟨fun h => Bool.noConfusion h, fun h => absurd h.1 (by omega)⟩
  · simp only [hlen, if_false, List.all_eq_true, List.mem_range]
    constructor
    · intro h
      refine ⟨by omega, fun i hi => ?_⟩
      have hb := h i hi
      rcases maskBit_zero_or_one s i with h0 | h1
      · exact Or.inl ((maskBit_eq_zero_iff s i).1 h0)
      · rw [h1] at hb
        refine Or.inr ?_
        simpa using hb
    · intro ⟨_, h⟩ i hi
      rcases h i hi with hz | heq
      · have h0 : s.maskBit i = 0 := (maskBit_eq_zero_iff s i).2 hz
        simp [h0]
      · have hb : (o.arcs.getD i 0 == s.oid.arcs.getD i 0) = true := beq_iff_eq.2 heq
        rw [hb]
        simp

theorem contains_foldl_eq (o : Oid) (l : List ViewSubtree) (b1 b2 : Bool) :
    l.foldl
      (fun (fl : Bool × Bool) s =>
        if s.matches o then
          if s.included then (true, fl.2) else (fl.1, true)
        else fl)
      (b1, b2)
    = (b1 || l.any (fun s => s.matches o && s.included),
       b2 || l.any (fun s => s.matches o && !s.included)) := by
  induction l generalizing b1 b2 with
  | nil => simp
  | cons s rest ih =>
    by_cases hm : s.matches o = true
    · by_cases hi : s.included = true
      · simp [List.foldl_cons, hm, hi, ih, List.any_cons]
      · have hi' : s.included = false := by
          cases h : s.included
          · rfl
          · exact absurd h hi
        simp [List.foldl_cons, hm, hi', ih, List.any_cons]
    · have hm' : s.matches o = false := by
        cases h : s.matches o
        · rfl
        · exact absurd h hm
      simp [List.foldl_cons, hm', ih, List.any_cons]

/-- C5: `View::contains` returns true iff at least one included subtree
matches the OID and no excluded subtree matches it, where a subtree matches
iff the OID is at least as long as the subtree's OID and every subtree
position either has mask bit `7 - (i % 8)` of mask byte `i / 8` equal to 0
or agrees exactly with the OID's arc; positions beyond the end of the mask
(including all positions for an empty mask) require exact agreement. -/
theorem C5_view_contains (v : View) (o : Oid) :
    View.contains v o = true ↔
      ((∃ s ∈ v.subtrees, s.included = true ∧ s.matchSpec o) ∧
       ∀ s ∈ v.subtrees, s.included = false → ¬ s.matchSpec o) := by
  unfold View.contains
  rw [contains_foldl_eq]
  simp only [Bool.false_or, Bool.and_eq_true, Bool.not_eq_true', List.any_eq_true,
    List.any_eq_false]
  constructor
  · intro ⟨⟨s, hs, hm⟩, hex⟩
    obtain ⟨hm1, hm2⟩ := hm
    refine ⟨⟨s, hs, hm2, (matches_iff_matchSpec s o).1 hm1⟩, ?_⟩
    intro t ht htinc hspec
    exact hex t ht ⟨(matches_iff_matchSpec t o).2 hspec, htinc⟩
  · intro ⟨⟨s, hs, hinc, hspec⟩, hex⟩
    refine ⟨⟨s, hs, (matches_iff_matchSpec s o).2 hspec, hinc⟩, ?_⟩
    intro t ht hconj
    exact hex t ht hconj.2 ((matches_iff_matchSpec t o).1 hconj.1)

/-! ## VACM configuration (src/agent/vacm.rs) -/

/-- Security model identifiers (RFC 3411; `SecurityModel`, src/agent/vacm.rs). -/
inductive SecurityModel
  | Any
  | V1
  | V2c
  | Usm
deriving DecidableEq

/-- Security level, ordered `noAuthNoPriv < authNoPriv < authPriv`.
Modelled from the spec: `SecurityLevel` lives in the message module, which is
not among the provided sources; §4.8 uses only its total order. -/
inductive SecurityLevel
  | noAuthNoPriv
  | authNoPriv
  | authPriv
deriving DecidableEq

/-- Numeric discriminant of the security level (the Rust `as u8` cast). -/
def SecurityLevel.toNat : SecurityLevel → Nat
  | .noAuthNoPriv => 0
  | .authNoPriv => 1
  | .authPriv => 2

/-- Derived order on security levels (`a <= b`). -/
def SecurityLevel.le (a b : SecurityLevel) : Bool := Nat.ble a.toNat b.toNat

/-- Context matching mode (`ContextMatch`, src/agent/vacm.rs). -/
inductive ContextMatch
  | Exact
  | Prefix
deriving DecidableEq

/-- Access table entry (`VacmAccessEntry`, src/agent/vacm.rs); byte strings
are `List Nat`. -/
structure VacmAccessEntry where
  groupName : List Nat
  contextPrefix : List Nat
  securityModel : SecurityModel
  securityLevel : SecurityLevel
  contextMatch : ContextMatch
  readView : List Nat
  writeView : List Nat
  notifyView : List Nat
deriving DecidableEq

/-- VACM configuration (`VacmConfig`, src/agent/vacm.rs).  The
`security_to_group` table is not consulted by any claim and is omitted; the
view `HashMap` is modelled as an association list with key lookup. -/
structure VacmConfig where
  accessEntries : List VacmAccessEntry
  views : List (List Nat × View)

/-- View lookup (`self.views.get(view_name)`). -/
def VacmConfig.getView (c : VacmConfig) (name : List Nat) : Option View :=
  (c.views.find? (fun p => p.1 == name)).map (fun p => p.2)

/-- `VacmConfig::check_access` (src/agent/vacm.rs): `None`, the empty view
name, and an undefined view name all deny; otherwise the named view decides. -/
def VacmConfig.checkAccess (c : VacmConfig) (viewName : Option (List Nat)) (o : Oid) : Bool :=
  match viewName with
  | none => false
  | some name =>
    if name.isEmpty then false
    else
      match c.getView name with
      | none => false
      | some view => view.contains o

/-- `VacmConfig::context_matches` (src/agent/vacm.rs). -/
def contextMatches (pfx context : List Nat) (mode : ContextMatch) : Bool :=
  match mode with
  | .Exact => pfx == context
  | .Prefix => pfx.isPrefixOf context

/-- The eligibility filter of `VacmConfig::get_access` (src/agent/vacm.rs):
group name equal, context matched under the entry's mode, security model
equal or `Any`, and required level at most the request's level. -/
def accessEligible (group context : List Nat) (model : SecurityModel)
    (level : SecurityLevel) (e : VacmAccessEntry) : Bool :=
  e.groupName == group
    && contextMatches e.contextPrefix context e.contextMatch
    && (e.securityModel == model || e.securityModel == SecurityModel.Any)
    && SecurityLevel.le e.securityLevel level

/-- The RFC 3415 preference key of `VacmConfig::get_access`
(`(model_score, match_score, prefix_len, level_score)`). -/
def accessKey (model : SecurityModel) (e : VacmAccessEntry) : Nat × Nat × Nat × Nat :=
  ((if e.securityModel == model then 1 else 0),
   (if e.contextMatch == ContextMatch.Exact then 1 else 0),
   e.contextPrefix.length,
   e.securityLevel.toNat)

/-- Lexicographic `<=` on the 4-tuple key (the derived tuple `Ord` used by
`max_by_key`). -/
def key4Le : Nat × Nat × Nat × Nat → Nat × Nat × Nat × Nat → Bool
  | (a1, a2, a3, a4), (b1, b2, b3, b4) =>
    decide (a1 < b1 ∨ (a1 = b1 ∧ (a2 < b2 ∨ (a2 = b2 ∧
      (a3 < b3 ∨ (a3 = b3 ∧ a4 ≤ b4))))))

theorem key4Le_refl (a : Nat × Nat × Nat × Nat) : key4Le a a = true := by
  rcases a with ⟨a1, a2, a3, a4⟩
  simp [key4Le]

theorem key4Le_total (a b : Nat × Nat × Nat × Nat) :
    key4Le a b = true ∨ key4Le b a = true := by
  rcases a with ⟨a1, a2, a3, a4⟩
  rcases b with ⟨b1, b2, b3, b4⟩
  simp only [key4Le, decide_eq_true_eq]
  omega

theorem key4Le_trans {a b c : Nat × Nat × Nat × Nat}
    (h1 : key4Le a b = true) (h2 : key4Le b c = true) : key4Le a c = true := by
  rcases a with ⟨a1, a2, a3, a4⟩
  rcases b with ⟨b1, b2, b3, b4⟩
  rcases c with ⟨c1, c2, c3, c4⟩
  simp only [key4Le, decide_eq_true_eq] at *
  omega

/-- Rust `Iterator::max_by_key`: folds the list keeping the element with the
greatest key, preferring the later element on ties. -/
def maxByKeyLast (key : VacmAccessEntry → Nat × Nat × Nat × Nat)
    (l : List VacmAccessEntry) : Option VacmAccessEntry :=
  l.foldl
    (fun acc x =>
      match acc with
      | none => some x
      | some a => if key4Le (key a) (key x) then some x else some a)
    none

/-- `VacmConfig::get_access` (src/agent/vacm.rs): filter the access entries
for eligibility, then take the maximum under the RFC 3415 preference key. -/
def VacmConfig.getAccess (c : VacmConfig) (group context : List Nat)
    (model : SecurityModel) (level : SecurityLevel) : Option VacmAccessEntry :=
  maxByKeyLast (accessKey model)
    (c.accessEntries.filter (accessEligible group context model level))

theorem maxByKeyLast_go (key : VacmAccessEntry → Nat × Nat × Nat × Nat)
    (l : List VacmAccessEntry) (a : VacmAccessEntry) :
    ∃ e, l.foldl
        (fun acc x =>
          match acc with
          | none => some x
          | some a => if key4Le (key a) (key x) then some x else some a)
        (some a) = some e ∧
      (e = a ∨ e ∈ l) ∧ key4Le (key a) (key e) = true ∧
      ∀ x ∈ l, key4Le (key x) (key e) = true := by
  induction l generalizing a with
  | nil =>
    exact ⟨a, rfl, Or.inl rfl, key4Le_refl _, by simp⟩
  | cons x xs ih =>
    by_cases hax : key4Le (key a) (key x) = true
    · obtain ⟨e, he, hmem, hle, hall⟩ := ih x
      refine ⟨e, ?_, ?_, key4Le_trans hax hle, ?_⟩
      · simpa [List.foldl_cons, hax] using he
      · rcases hmem with rfl | hm
        · exact Or.inr (List.mem_cons_self _ _)
        · exact Or.inr (List.mem_cons_of_mem _ hm)
      · intro y hy
        rcases List.mem_cons.1 hy with rfl | hm
        · exact hle
        · exact hall y hm
    · have hax' : key4Le (key a) (key x) = false := by
        cases h : key4Le (key a) (key x)
        · rfl
        · exact absurd h hax
      have hxa : key4Le (key x) (key a) = true := by
        rcases key4Le_total (key a) (key x) with h | h
        · exact absurd h hax
        · exact h
      obtain ⟨e, he, hmem, hle, hall⟩ := ih a
      refine ⟨e, ?_, ?_, hle, ?_⟩
      · simpa [List.foldl_cons, hax'] using he
      · rcases hmem with rfl | hm
        · exact Or.inl rfl
        · exact Or.inr (List.mem_cons_of_mem _ hm)
      · intro y hy
        rcases List.mem_cons.1 hy with rfl | hm
        · exact key4Le_trans hxa hle
        · exact hall y hm

theorem maxByKeyLast_none_iff (key : VacmAccessEntry → Nat × Nat × Nat × Nat)
    (l : List VacmAccessEntry) :
    maxByKeyLast key l = none ↔ l = [] := by
  cases l with
  | nil => simp [maxByKeyLast]
  | cons x xs =>
    simp only [maxByKeyLast, List.foldl_cons]
    obtain ⟨e, he, _, _, _⟩ := maxByKeyLast_go key xs x
    rw [he]
    simp

theorem maxByKeyLast_spec (key : VacmAccessEntry → Nat × Nat × Nat × Nat)
    (l : List VacmAccessEntry) (e : VacmAccessEntry)
    (h : maxByKeyLast key l = some e) :
    e ∈ l ∧ ∀ x ∈ l, key4Le (key x) (key e) = true := by
  cases l with
  | nil => cases h
  | cons x xs =>
    simp only [maxByKeyLast, List.foldl_cons] at h
    obtain ⟨e', he', hmem, hle, hall⟩ := maxByKeyLast_go key xs x
    rw [he'] at h
    cases h
    constructor
    · rcases hmem with rfl | hm
      · exact List.mem_cons_self _ _
      · exact List.mem_cons_of_mem _ hm
    · intro y hy
      rcases List.mem_cons.1 hy with rfl | hm
      · exact hle
      · exact hall y hm

/-- C10: `VacmConfig::check_access` is deny-by-default at the view-check
boundary: it returns false whenever the view name is `None`, the empty byte
string, or does not name a view defined in the configuration, and returns
true exactly when an explicitly defined, non-empty-named view contains the
OID. -/
theorem C10_check_access_deny_by_default (c : VacmConfig)
    (viewName : Option (List Nat)) (o : Oid) :
    (c.checkAccess viewName o = true ↔
      ∃ name view, viewName = some name ∧ name ≠ [] ∧
        c.getView name = some view ∧ view.contains o = true) ∧
    (viewName = none → c.checkAccess viewName o = false) ∧
    (viewName = some [] → c.checkAccess viewName o = false) ∧
    (∀ name, viewName = some name → c.getView name = none →
      c.checkAccess viewName o = false) := by
  refine ⟨?_, ?_, ?_, ?_⟩
  · cases viewName with
    | none => simp [VacmConfig.checkAccess]
    | some name =>
      by_cases hne : name = []
      · subst hne
        simp [VacmConfig.checkAccess]
      · cases hv : c.getView name with
        | none => simp [VacmConfig.checkAccess, hne, hv]
        | some view => simp [VacmConfig.checkAccess, hne, hv]
  · rintro rfl
    rfl
  · rintro rfl
    rfl
  · intro name hv hnone
    subst hv
    simp [VacmConfig.checkAccess, hnone]

/-- Witness for C10 at a concrete input. -/
theorem C10_check_access_witness :
    (VacmConfig.mk [] []).checkAccess none (Oid.mk [1, 3]) = false :=
  (C10_check_access_deny_by_default (VacmConfig.mk [] []) none (Oid.mk [1, 3])).2.1 rfl

/-- C4: `VacmConfig::get_access` considers exactly the eligible entries
(matching group, context under the entry's mode, model equal or `Any`,
minimum level at most the request's) and returns an entry maximal under the
lexicographic key `(model_is_specific, context_is_exact,
context_prefix_length, security_level)`; it returns `None` iff no entry is
eligible; and when two eligible entries differ only in `Any` versus the
specific queried model, the specific entry is returned for either insertion
order. -/
theorem C4_get_access (c : VacmConfig) (group context : List Nat)
    (model : SecurityModel) (level : SecurityLevel) :
    (∀ e, c.getAccess group context model level = some e →
       e ∈ c.accessEntries ∧ accessEligible group context model level e = true ∧
       ∀ x ∈ c.accessEntries, accessEligible group context model level x = true →
         key4Le (accessKey model x) (accessKey model e) = true) ∧
    (c.getAccess group context model level = none ↔
       ∀ x ∈ c.accessEntries, accessEligible group context model level x = false) ∧
    (∀ ea es : VacmAccessEntry, ea.securityModel = SecurityModel.Any →
       es = { ea with securityModel := model } → model ≠ SecurityModel.Any →
       accessEligible group context model level ea = true →
       ∀ c' : VacmConfig,
         c'.accessEntries = [ea, es] ∨ c'.accessEntries = [es, ea] →
         c'.getAccess group context model level = some es) := by
  refine ⟨?_, ?_, ?_⟩
  · intro e he
    unfold VacmConfig.getAccess at he
    obtain ⟨hmem, hmax⟩ := maxByKeyLast_spec _ _ _ he
    have hmem' := List.mem_filter.1 hmem
    refine ⟨hmem'.1, hmem'.2, ?_⟩
    intro x hx helig
    exact hmax x (List.mem_filter.2 ⟨hx, helig⟩)
  · unfold VacmConfig.getAccess
    rw [maxByKeyLast_none_iff]
    constructor
    · intro h x hx
      cases he : accessEligible group context model level x with
      | false => rfl
      | true =>
        have hmem : x ∈ c.accessEntries.filter (accessEligible group context model level) :=
          List.mem_filter.2 ⟨hx, he⟩
        rw [h] at hmem
        cases hmem
    · intro h
      rw [List.filter_eq_nil_iff]
      intro x hx
      rw [h x hx]
      exact Bool.false_ne_true
  · intro ea es hAny hes hmodel helig c' hc
    have hAnyBeq : (SecurityModel.Any == model) = false := by
      cases model with
      | Any => exact absurd rfl hmodel
      | V1 => rfl
      | V2c => rfl
      | Usm => rfl
    subst hes
    have heligS :
        accessEligible group context model level { ea with securityModel := model } = true := by
      unfold accessEligible at helig ⊢
      simp only [Bool.and_eq_true, Bool.or_eq_true] at helig ⊢
      obtain ⟨⟨⟨hg, hm⟩, _⟩, hl⟩ := helig
      exact ⟨⟨⟨hg, hm⟩, Or.inl (by simp)⟩, hl⟩
    have hkA : accessKey model ea =
        (0, (if ea.contextMatch == ContextMatch.Exact then 1 else 0),
         ea.contextPrefix.length, ea.securityLevel.toNat) := by
      unfold accessKey
      rw [hAny, hAnyBeq]
      simp
    have hkS : accessKey model { ea with securityModel := model } =
        (1, (if ea.contextMatch == ContextMatch.Exact then 1 else 0),
         ea.contextPrefix.length, ea.securityLevel.toNat) := by
      unfold accessKey
      simp
    have hle : key4Le (accessKey model ea)
        (accessKey model { ea with securityModel := model }) = true := by
      rw [hkA, hkS]
      simp [key4Le]
    have hgt : key4Le (accessKey model { ea with securityModel := model })
        (accessKey model ea) = false := by
      rw [hkA, hkS]
      simp [key4Le]
    rcases hc with hc | hc
    · unfold VacmConfig.getAccess
      rw [hc]
      have hfil : List.filter (accessEligible group context model level)
          [ea, { ea with securityModel := model }] =
          [ea, { ea with securityModel := model }] := by
        simp [List.filter, helig, heligS]
      rw [hfil]
      simp [maxByKeyLast, List.foldl, hle]
    · unfold VacmConfig.getAccess
      rw [hc]
      have hfil : List.filter (accessEligible group context model level)
          [{ ea with securityModel := model }, ea] =
          [{ ea with securityModel := model }, ea] := by
        simp [List.filter, helig, heligS]
      rw [hfil]
      simp [maxByKeyLast, List.foldl, hgt]

/-- Witness for C4 at a concrete configuration: two entries for group `g`
with empty context, model `Any` and `V2c` respectively; the query with model
`V2c` selects the `V2c` entry. -/
theorem C4_get_access_witness :
    (VacmConfig.mk
      [VacmAccessEntry.mk [103] [] SecurityModel.Any SecurityLevel.noAuthNoPriv
        ContextMatch.Exact [118] [] [],
       VacmAccessEntry.mk [103] [] SecurityModel.V2c SecurityLevel.noAuthNoPriv
        ContextMatch.Exact [118] [] []] []).getAccess
      [103] [] SecurityModel.V2c SecurityLevel.noAuthNoPriv =
    some (VacmAccessEntry.mk [103] [] SecurityModel.V2c SecurityLevel.noAuthNoPriv
        ContextMatch.Exact [118] [] []) :=
  (C4_get_access
    (VacmConfig.mk
      [VacmAccessEntry.mk [103] [] SecurityModel.Any SecurityLevel.noAuthNoPriv
        ContextMatch.Exact [118] [] [],
       VacmAccessEntry.mk [103] [] SecurityModel.V2c SecurityLevel.noAuthNoPriv
        ContextMatch.Exact [118] [] []] [])
    [103] [] SecurityModel.V2c SecurityLevel.noAuthNoPriv).2.2
    (VacmAccessEntry.mk [103] [] SecurityModel.Any SecurityLevel.noAuthNoPriv
      ContextMatch.Exact [118] [] [])
    (VacmAccessEntry.mk [103] [] SecurityModel.V2c SecurityLevel.noAuthNoPriv
      ContextMatch.Exact [118] [] [])
    rfl rfl (by decide) (by decide) _ (Or.inl rfl)

/-! ## Values, varbinds, PDUs -/

/-- SNMP value.  Modelled from the spec: `src/value.rs` is not among the
provided sources; the tagged union follows the spec §3 data model.  Byte
strings are `List Nat`. -/
inductive Value
  | Integer (v : Int)
  | OctetString (bytes : List Nat)
  | Null
  | ObjectIdentifier (oid : Oid)
  | IpAddress (b0 b1 b2 b3 : Nat)
  | Counter32 (v : Nat)
  | Gauge32 (v : Nat)
  | TimeTicks (v : Nat)
  | Opaque (bytes : List Nat)
  | Counter64 (v : Nat)
  | NoSuchObject
  | NoSuchInstance
  | EndOfMibView
  | Unknown (tag : Nat) (bytes : List Nat)
deriving DecidableEq

/-- Variable binding (`VarBind`, src/varbind.rs). -/
structure VarBind where
  oid : Oid
  value : Value
deriving DecidableEq

/-- PDU type (spec §3/§6; `src/pdu.rs` is not among the provided sources). -/
inductive PduType
  | Get
  | GetNext
  | Response
  | Set
  | TrapV1
  | GetBulk
  | Inform
  | TrapV2
  | Report
deriving DecidableEq

/-- PDU envelope.  Modelled from the spec §3 (`src/pdu.rs` is not among the
provided sources); exactly the fields `Agent::handle_set` constructs. -/
structure Pdu where
  pduType : PduType
  requestId : Int
  errorStatus : Int
  errorIndex : Int
  varbinds : List VarBind
deriving DecidableEq

/-- SNMP protocol version (`Version`, src/version.rs). -/
inductive Version
  | V1
  | V2c
  | V3
deriving DecidableEq

/-- RFC 3416 error status (`ErrorStatus`, src/error.rs). -/
inductive ErrorStatus
  | NoError
  | TooBig
  | NoSuchName
  | BadValue
  | ReadOnly
  | GenErr
  | NoAccess
  | WrongType
  | WrongLength
  | WrongEncoding
  | WrongValue
  | NoCreation
  | InconsistentValue
  | ResourceUnavailable
  | CommitFailed
  | UndoFailed
  | AuthorizationError
  | NotWritable
  | InconsistentName
  | Unknown (code : Int)
deriving DecidableEq

/-- `ErrorStatus::as_i32` (src/error.rs). -/
def ErrorStatus.asI32 : ErrorStatus → Int
  | .NoError => 0
  | .TooBig => 1
  | .NoSuchName => 2
  | .BadValue => 3
  | .ReadOnly => 4
  | .GenErr => 5
  | .NoAccess => 6
  | .WrongType => 7
  | .WrongLength => 8
  | .WrongEncoding => 9
  | .WrongValue => 10
  | .NoCreation => 11
  | .InconsistentValue => 12
  | .ResourceUnavailable => 13
  | .CommitFailed => 14
  | .UndoFailed => 15
  | .AuthorizationError => 16
  | .NotWritable => 17
  | .InconsistentName => 18
  | .Unknown c => c

/-! ## Two-phase SET (src/agent/set_handler.rs) -/

/-- Result of a SET phase (`SetResult`, src/handler/results.rs). -/
inductive SetResult
  | Ok
  | NoAccess
  | NotWritable
  | WrongType
  | WrongLength
  | WrongEncoding
  | WrongValue
  | NoCreation
  | InconsistentValue
  | ResourceUnavailable
  | CommitFailed
  | UndoFailed
  | InconsistentName
deriving DecidableEq

/-- `SetResult::is_ok` (src/handler/results.rs). -/
def SetResult.isOk : SetResult → Bool
  | .Ok => true
  | _ => false

/-- `SetResult::to_error_status` (src/handler/results.rs). -/
def SetResult.toErrorStatus : SetResult → ErrorStatus
  | .Ok => .NoError
  | .NoAccess => .NoAccess
  | .NotWritable => .NotWritable
  | .WrongType => .WrongType
  | .WrongLength => .WrongLength
  | .WrongEncoding => .WrongEncoding
  | .WrongValue => .WrongValue
  | .NoCreation => .NoCreation
  | .InconsistentValue => .InconsistentValue
  | .ResourceUnavailable => .ResourceUnavailable
  | .CommitFailed => .CommitFailed
  | .UndoFailed => .UndoFailed
  | .InconsistentName => .InconsistentName

/-- The SET-relevant behaviour of a registered MIB handler (trait object in
`src/handler/traits.rs`): its `test_set` and `commit_set` result functions.
`undo_set` returns nothing and is only recorded in the event log. -/
structure SetHandlerBehavior where
  testSet : Oid → Value → SetResult
  commitSet : Oid → Value → SetResult

/-- The request context fields consulted by `Agent::handle_set`
(`RequestContext`, src/handler/context.rs): the protocol version and the
resolved write view name. -/
structure RequestContext where
  version : Version
  writeView : Option (List Nat)

/-- The agent state consulted by `Agent::handle_set`: the optional VACM
configuration (`self.inner.vacm`) and the handler registry lookup
`Agent::find_handler`, modelled as an abstract lookup (its definition is in
the agent module, not among the provided sources). -/
structure AgentModel where
  vacm : Option VacmConfig
  findHandler : Oid → Option SetHandlerBehavior

/-- A logged handler invocation of `handle_set`, identified by the 0-based
position of the varbind it was made for. -/
inductive SetEvent
  | testCall (i : Nat)
  | commitCall (i : Nat)
  | undoCall (i : Nat)
deriving DecidableEq

/-- The VACM write-access check guarding each varbind in phase 1:
`vacm.check_access(ctx.write_view.as_ref(), &vb.oid)` is required when a
VACM configuration is present. -/
def vacmDenies (a : AgentModel) (ctx : RequestContext) (o : Oid) : Bool :=
  match a.vacm with
  | none => false
  | some v => !(v.checkAccess ctx.writeView o)

/-- The error-response constructor used throughout `Agent::handle_set`:
a Response PDU echoing `request_id` and the request varbinds, carrying the
given status and 1-based error index. -/
def errResponse (pdu : Pdu) (status : ErrorStatus) (idx : Nat) : Pdu :=
  { pduType := .Response, requestId := pdu.requestId,
    errorStatus := status.asI32, errorIndex := Int.ofNat idx,
    varbinds := pdu.varbinds }

/-- An entry of the `pending` vector of `Agent::handle_set`. -/
structure PendingSet where
  handler : SetHandlerBehavior
  oid : Oid
  value : Value

/-- Phase 1 of `Agent::handle_set` (test): for each varbind in order, check
VACM write access, handler existence and `test_set`; on the first failure
return the error response, otherwise accumulate the pending commits.
`index` is the enumeration index of the first varbind of the list. -/
def testPhase (a : AgentModel) (ctx : RequestContext) (pdu : Pdu) :
    Nat → List VarBind → List SetEvent × Sum Pdu (List PendingSet)
  | _, [] => ([], Sum.inr [])
  | index, vb :: rest =>
    if vacmDenies a ctx vb.oid then
      ([], Sum.inl (errResponse pdu
        (if ctx.version = Version.V1 then ErrorStatus.NoSuchName else ErrorStatus.NoAccess)
        (index + 1)))
    else
      match a.findHandler vb.oid with
      | none =>
        ([], Sum.inl (errResponse pdu
          (if ctx.version = Version.V1 then ErrorStatus.NoSuchName else ErrorStatus.NotWritable)
          (index + 1)))
      | some h =>
        if (h.testSet vb.oid vb.value).isOk then
          match testPhase a ctx pdu (index + 1) rest with
          | (evs, Sum.inl p) => (SetEvent.testCall index :: evs, Sum.inl p)
          | (evs, Sum.inr pending) =>
            (SetEvent.testCall index :: evs,
             Sum.inr ({ handler := h, oid := vb.oid, value := vb.value } :: pending))
        else
          ([SetEvent.testCall index],
           Sum.inl (errResponse pdu (h.testSet vb.oid vb.value).toErrorStatus (index + 1)))

/-- Phase 2 of `Agent::handle_set` (commit): invoke `commit_set` for each
pending varbind in order; on the first failure invoke `undo_set` on all
already-committed entries in reverse order and respond `commitFailed` at the
failing 1-based index; on full success respond `noError`/index 0 with the
original varbinds.  `committed` collects the 0-based positions already
committed, in commit order. -/
def commitPhase (pdu : Pdu) :
    Nat → List Nat → List PendingSet → List SetEvent × Pdu
  | _, _, [] =>
    ([], { pduType := .Response, requestId := pdu.requestId,
           errorStatus := 0, errorIndex := 0, varbinds := pdu.varbinds })
  | index, committed, p :: rest =>
    if (p.handler.commitSet p.oid p.value).isOk then
      match commitPhase pdu (index + 1) (committed ++ [index]) rest with
      | (evs, resp) => (SetEvent.commitCall index :: evs, resp)
    else
      (SetEvent.commitCall index :: committed.reverse.map SetEvent.undoCall,
       errResponse pdu ErrorStatus.CommitFailed (index + 1))

/-- `Agent::handle_set` (src/agent/set_handler.rs): phase 1 then phase 2,
returning the response PDU and the log of handler invocations. -/
def handleSet (a : AgentModel) (ctx : RequestContext) (pdu : Pdu) : Pdu × List SetEvent :=
  match testPhase a ctx pdu 0 pdu.varbinds with
  | (evs, Sum.inl resp) => (resp, evs)
  | (evs, Sum.inr pending) =>
    match commitPhase pdu 0 [] pending with
    | (evs2, resp) => (resp, evs ++ evs2)

/-- The `test_set` result the handler registry yields for a varbind. -/
def vbTestResult (a : AgentModel) (vb : VarBind) : Option SetResult :=
  (a.findHandler vb.oid).map (fun h => h.testSet vb.oid vb.value)

/-- The `commit_set` result the handler registry yields for a varbind. -/
def vbCommitResult (a : AgentModel) (vb : VarBind) : Option SetResult :=
  (a.findHandler vb.oid).map (fun h => h.commitSet vb.oid vb.value)

/-- The pending list produced by a fully successful test phase. -/
def pendingOf (a : AgentModel) (l : List VarBind) : List PendingSet :=
  l.filterMap (fun vb =>
    (a.findHandler vb.oid).map (fun h => { handler := h, oid := vb.oid, value := vb.value }))

/-- The 0-based positions of the `undo_set` invocations in an event log, in
invocation order. -/
def undoCalls (evs : List SetEvent) : List Nat :=
  evs.filterMap (fun e =>
    match e with
    | .undoCall i => some i
    | _ => none)

/-- The 0-based positions of the `commit_set` invocations in an event log. -/
def commitCalls (evs : List SetEvent) : List Nat :=
  evs.filterMap (fun e =>
    match e with
    | .commitCall i => some i
    | _ => none)

theorem testPhase_events (a : AgentModel) (ctx : RequestContext) (pdu : Pdu) :
    ∀ (l : List VarBind) (idx : Nat) (e : SetEvent),
      e ∈ (testPhase a ctx pdu idx l).1 → ∃ i, e = SetEvent.testCall i := by
  intro l
  induction l with
  | nil => intro idx e he; cases he
  | cons vb rest ih =>
    intro idx e he
    unfold testPhase at he
    by_cases hv : vacmDenies a ctx vb.oid
    · simp [hv] at he
    · simp only [hv, if_false, Bool.false_eq_true] at he
      cases hf : a.findHandler vb.oid with
      | none => rw [hf] at he; cases he
      | some h =>
        rw [hf] at he
        by_cases ht : (h.testSet vb.oid vb.value).isOk
        · simp only [ht, if_true] at he
          rcases htp : testPhase a ctx pdu (idx + 1) rest with ⟨evs, res⟩
          rw [htp] at he
          cases res with
          | inl p =>
            rcases List.mem_cons.1 he with rfl | hm
            · exact ⟨idx, rfl⟩
            · exact ih (idx + 1) e (by rw [htp]; exact hm)
          | inr pending =>
            rcases List.mem_cons.1 he with rfl | hm
            · exact ⟨idx, rfl⟩
            · exact ih (idx + 1) e (by rw [htp]; exact hm)
        · simp only [ht, if_false, Bool.false_eq_true] at he
          rcases List.mem_cons.1 he with rfl | hm
          · exact ⟨idx, rfl⟩
          · cases hm

theorem testPhase_fail (a : AgentModel) (ctx : RequestContext) (pdu : Pdu) :
    ∀ (l : List VarBind) (k idx : Nat) (vbk : VarBind) (r : SetResult),
      (∀ i < k, ∀ vb, l.get? i = some vb →
        vacmDenies a ctx vb.oid = false ∧
        ∃ r', vbTestResult a vb = some r' ∧ r'.isOk = true) →
      l.get? k = some vbk →
      vacmDenies a ctx vbk.oid = false →
      vbTestResult a vbk = some r →
      r.isOk = false →
      (testPhase a ctx pdu idx l).2 =
        Sum.inl (errResponse pdu r.toErrorStatus (idx + k + 1)) := by
  intro l
  induction l with
  | nil => intro k idx vbk r _ hk; cases hk
  | cons vb rest ih =>
    intro k idx vbk r hprev hk hvacm hres hfail
    cases k with
    | zero =>
      rw [List.get?_cons_zero] at hk
      injection hk with hk
      subst hk
      unfold vbTestResult at hres
      cases hf : a.findHandler vb.oid with
      | none => rw [hf] at hres; cases hres
      | some h =>
        rw [hf, Option.map_some'] at hres
        injection hres with hres
        unfold testPhase
        rw [hvacm, hf]
        simp [hres, hfail]
    | succ k' =>
      rw [List.get?_cons_succ] at hk
      obtain ⟨hv0, r0, hr0, hok0⟩ := hprev 0 (Nat.succ_pos k') vb List.get?_cons_zero
      unfold vbTestResult at hr0
      cases hf : a.findHandler vb.oid with
      | none => rw [hf] at hr0; cases hr0
      | some h =>
        rw [hf, Option.map_some'] at hr0
        injection hr0 with hr0
        subst hr0
        have hrec := ih k' (idx + 1) vbk r
          (fun i hi vb' hvb' => hprev (i + 1) (Nat.succ_lt_succ hi) vb'
            (by rwa [List.get?_cons_succ]))
          hk hvacm hres hfail
        unfold testPhase
        rw [hv0, hf]
        rcases htp : testPhase a ctx pdu (idx + 1) rest with ⟨evs, res⟩
        rw [htp] at hrec
        simp only at hrec
        subst hrec
        have heq : idx + 1 + k' + 1 = idx + (k' + 1) + 1 := by omega
        rw [heq]
        simp [hok0]

theorem testPhase_success (a : AgentModel) (ctx : RequestContext) (pdu : Pdu) :
    ∀ (l : List VarBind) (idx : Nat),
      (∀ vb ∈ l, vacmDenies a ctx vb.oid = false ∧
        ∃ r, vbTestResult a vb = some r ∧ r.isOk = true) →
      (testPhase a ctx pdu idx l).2 = Sum.inr (pendingOf a l) := by
  intro l
  induction l with
  | nil => intro idx _; rfl
  | cons vb rest ih =>
    intro idx hall
    obtain ⟨hv0, r0, hr0, hok0⟩ := hall vb (List.mem_cons_self _ _)
    unfold vbTestResult at hr0
    cases hf : a.findHandler vb.oid with
    | none => rw [hf] at hr0; cases hr0
    | some h =>
      rw [hf, Option.map_some'] at hr0
      injection hr0 with hr0
      subst hr0
      have hrec := ih (idx + 1) (fun vb' hvb' => hall vb' (List.mem_cons_of_mem _ hvb'))
      unfold testPhase
      rw [hv0, hf]
      rcases htp : testPhase a ctx pdu (idx + 1) rest with ⟨evs, res⟩
      rw [htp] at hrec
      simp only at hrec
      subst hrec
      simp [hok0, pendingOf, List.filterMap_cons, hf]

theorem pendingOf_get? (a : AgentModel) :
    ∀ (l : List VarBind),
      (∀ x ∈ l, (a.findHandler x.oid).isSome = true) →
      ∀ i, (pendingOf a l).get? i = (l.get? i).bind (fun vb =>
        (a.findHandler vb.oid).map
          (fun h => { handler := h, oid := vb.oid, value := vb.value })) := by
  intro l
  induction l with
  | nil => intro _ i; cases i <;> rfl
  | cons vb rest ih =>
    intro hall i
    have h0 : (a.findHandler vb.oid).isSome = true := hall vb (List.mem_cons_self _ _)
    cases hf : a.findHandler vb.oid with
    | none => rw [hf] at h0; cases h0
    | some h =>
      have hrest := ih (fun x hx => hall x (List.mem_cons_of_mem _ hx))
      have hcons : pendingOf a (vb :: rest) =
          { handler := h, oid := vb.oid, value := vb.value } :: pendingOf a rest := by
        simp [pendingOf, hf]
      cases i with
      | zero =>
        rw [hcons, List.get?_cons_zero, List.get?_cons_zero]
        simp [hf]
      | succ i' =>
        rw [hcons, List.get?_cons_succ, List.get?_cons_succ]
        exact hrest i'

theorem commitPhase_success (pdu : Pdu) :
    ∀ (pending : List PendingSet) (idx : Nat) (committed : List Nat),
      (∀ p ∈ pending, (p.handler.commitSet p.oid p.value).isOk = true) →
      commitPhase pdu idx committed pending =
        ((List.range pending.length).map (fun j => SetEvent.commitCall (idx + j)),
         { pduType := .Response, requestId := pdu.requestId,
           errorStatus := 0, errorIndex := 0, varbinds := pdu.varbinds }) := by
  intro pending
  induction pending with
  | nil => intro idx committed _; rfl
  | cons p rest ih =>
    intro idx committed hall
    have h0 := hall p (List.mem_cons_self _ _)
    unfold commitPhase
    simp only [h0, eq_self_iff_true, if_true]
    rw [ih (idx + 1) (committed ++ [idx]) (fun q hq => hall q (List.mem_cons_of_mem _ hq))]
    simp only [List.length_cons]
    rw [List.range_succ_eq_map, List.map_cons, List.map_map]
    refine congrArg (fun l => (l, _)) ?_
    refine congrArg₂ _ rfl ?_
    apply List.map_congr_left
    intro j _
    simp only [Function.comp_apply]
    refine congrArg _ ?_
    omega

theorem commitPhase_fail (pdu : Pdu) :
    ∀ (pending : List PendingSet) (k : Nat) (p : PendingSet) (idx : Nat)
      (committed : List Nat),
      pending.get? k = some p →
      (p.handler.commitSet p.oid p.value).isOk = false →
      (∀ i < k, ∀ q, pending.get? i = some q →
        (q.handler.commitSet q.oid q.value).isOk = true) →
      commitPhase pdu idx committed pending =
        ((List.range (k + 1)).map (fun j => SetEvent.commitCall (idx + j)) ++
          (committed ++ (List.range k).map (fun j => idx + j)).reverse.map
            SetEvent.undoCall,
         errResponse pdu ErrorStatus.CommitFailed (idx + k + 1)) := by
  intro pending
  induction pending with
  | nil => intro k p idx committed hk; cases hk
  | cons q rest ih =>
    intro k p idx committed hk hfail hprev
    cases k with
    | zero =>
      rw [List.get?_cons_zero] at hk
      injection hk with hk
      subst hk
      unfold commitPhase
      rw [hfail]
      simp only [Bool.false_eq_true, if_false,
        show List.range 1 = [0] from rfl, List.map_cons, List.map_nil,
        List.range_zero, List.append_nil, List.singleton_append, Nat.add_zero]
    | succ k' =>
      rw [List.get?_cons_succ] at hk
      have h0 := hprev 0 (Nat.succ_pos k') q List.get?_cons_zero
      unfold commitPhase
      simp only [h0, eq_self_iff_true, if_true]
      rw [ih k' p (idx + 1) (committed ++ [idx]) hk hfail
        (fun i hi q' hq' => hprev (i + 1) (Nat.succ_lt_succ hi) q'
          (by rwa [List.get?_cons_succ]))]
      refine congrArg₂ _ ?_ ?_
      · rw [List.range_succ_eq_map (k' + 1), List.map_cons, List.map_map,
          List.cons_append]
        refine congrArg₂ _ rfl ?_
        refine congrArg₂ _ ?_ ?_
        · apply List.map_congr_left
          intro j _
          simp only [Function.comp_apply]
          refine congrArg _ ?_
          omega
        · refine congrArg _ (congrArg _ ?_)
          rw [List.append_assoc]
          refine congrArg _ ?_
          rw [List.range_succ_eq_map k', List.map_cons, List.map_map,
            List.singleton_append]
          refine congrArg₂ _ rfl ?_
          apply List.map_congr_left
          intro j _
          simp only [Function.comp_apply]
          omega
      · unfold errResponse
        simp only
        refine congrArg (fun n => Pdu.mk PduType.Response pdu.requestId
          (ErrorStatus.asI32 ErrorStatus.CommitFailed) n pdu.varbinds) ?_
        refine congrArg _ ?_
        omega

theorem undoCalls_append (xs ys : List SetEvent) :
    undoCalls (xs ++ ys) = undoCalls xs ++ undoCalls ys :=
  List.filterMap_append _ _ _

theorem commitCalls_append (xs ys : List SetEvent) :
    commitCalls (xs ++ ys) = commitCalls xs ++ commitCalls ys :=
  List.filterMap_append _ _ _

theorem undoCalls_all_test (evs : List SetEvent)
    (h : ∀ e ∈ evs, ∃ i, e = SetEvent.testCall i) : undoCalls evs = [] := by
  induction evs with
  | nil => rfl
  | cons e rest ih =>
    obtain ⟨i, rfl⟩ := h e (List.mem_cons_self _ _)
    show undoCalls rest = []
    exact ih (fun e' he' => h e' (List.mem_cons_of_mem _ he'))

theorem commitCalls_all_test (evs : List SetEvent)
    (h : ∀ e ∈ evs, ∃ i, e = SetEvent.testCall i) : commitCalls evs = [] := by
  induction evs with
  | nil => rfl
  | cons e rest ih =>
    obtain ⟨i, rfl⟩ := h e (List.mem_cons_self _ _)
    show commitCalls rest = []
    exact ih (fun e' he' => h e' (List.mem_cons_of_mem _ he'))

theorem undoCalls_map_commit (xs : List Nat) :
    undoCalls (xs.map SetEvent.commitCall) = [] := by
  induction xs with
  | nil => rfl
  | cons x rest ih =>
    show undoCalls (rest.map SetEvent.commitCall) = []
    exact ih

theorem undoCalls_map_undo (xs : List Nat) :
    undoCalls (xs.map SetEvent.undoCall) = xs := by
  induction xs with
  | nil => rfl
  | cons x rest ih =>
    show x :: undoCalls (rest.map SetEvent.undoCall) = x :: rest
    rw [ih]

theorem map_zero_add_range (n : Nat) :
    (List.range n).map (fun j => 0 + j) = List.range n := by
  rw [show (fun j => 0 + j) = fun j : Nat => j by funext j; omega]
  exact List.map_id _

theorem undoCalls_map_commitF (f : Nat → Nat) (xs : List Nat) :
    undoCalls (xs.map (fun j => SetEvent.commitCall (f j))) = [] := by
  induction xs with
  | nil => rfl
  | cons x rest ih =>
    show undoCalls (rest.map (fun j => SetEvent.commitCall (f j))) = []
    exact ih

/-- C2: the agent's two-phase SET.  (a) If every varbind up to the first
failing `test_set` passes the VACM write check and has a handler, and the
`test_set` at 0-based position `k` is the first to return non-Ok, then no
`commit_set` (and no `undo_set`) is ever invoked and the response carries
that result's error status at 1-based index `k + 1`.  (b) If all tests pass
and `commit_set` first fails at 0-based position `k`, then `undo_set` is
invoked exactly on positions `[0, k)` in reverse order and the response
carries `commitFailed` at index `k + 1`.  (c) On full success the response
carries `noError`, index 0, the original request varbinds, and no `undo_set`
is invoked. -/
theorem C2_handle_set (a : AgentModel) (ctx : RequestContext) (pdu : Pdu) :
    (∀ k vbk r,
       (∀ i < k, ∀ vb, pdu.varbinds.get? i = some vb →
          vacmDenies a ctx vb.oid = false ∧
          ∃ r', vbTestResult a vb = some r' ∧ r'.isOk = true) →
       pdu.varbinds.get? k = some vbk →
       vacmDenies a ctx vbk.oid = false →
       vbTestResult a vbk = some r →
       r.isOk = false →
       (handleSet a ctx pdu).1 = errResponse pdu r.toErrorStatus (k + 1) ∧
       commitCalls (handleSet a ctx pdu).2 = [] ∧
       undoCalls (handleSet a ctx pdu).2 = []) ∧
    (∀ k vbk rc,
       (∀ vb ∈ pdu.varbinds, vacmDenies a ctx vb.oid = false ∧
          ∃ r', vbTestResult a vb = some r' ∧ r'.isOk = true) →
       pdu.varbinds.get? k = some vbk →
       vbCommitResult a vbk = some rc →
       rc.isOk = false →
       (∀ i < k, ∀ vb, pdu.varbinds.get? i = some vb →
          ∃ r', vbCommitResult a vb = some r' ∧ r'.isOk = true) →
       (handleSet a ctx pdu).1 = errResponse pdu ErrorStatus.CommitFailed (k + 1) ∧
       undoCalls (handleSet a ctx pdu).2 = (List.range k).reverse) ∧
    ((∀ vb ∈ pdu.varbinds, vacmDenies a ctx vb.oid = false ∧
        ∃ r', vbTestResult a vb = some r' ∧ r'.isOk = true) →
     (∀ vb ∈ pdu.varbinds, ∃ r', vbCommitResult a vb = some r' ∧ r'.isOk = true) →
     (handleSet a ctx pdu).1 =
       { pduType := .Response, requestId := pdu.requestId,
         errorStatus := 0, errorIndex := 0, varbinds := pdu.varbinds } ∧
     undoCalls (handleSet a ctx pdu).2 = []) := by
  refine ⟨?_, ?_, ?_⟩
  · -- part (a): first failing test_set aborts with its status, no commits
    intro k vbk r hprev hk hvacm hres hfail
    have h2 := testPhase_fail a ctx pdu pdu.varbinds k 0 vbk r hprev hk hvacm hres hfail
    rcases htp : testPhase a ctx pdu 0 pdu.varbinds with ⟨evs, res⟩
    rw [htp] at h2
    simp only at h2
    rw [Nat.zero_add] at h2
    subst h2
    have hevents : ∀ e ∈ evs, ∃ i, e = SetEvent.testCall i := fun e he =>
      testPhase_events a ctx pdu pdu.varbinds 0 e (by rw [htp]; exact he)
    unfold handleSet
    rw [htp]
    exact ⟨rfl, commitCalls_all_test evs hevents, undoCalls_all_test evs hevents⟩
  · -- part (b): first failing commit_set rolls back [0, k) in reverse
    intro k vbk rc hall hk hrc hfailC hprevC
    have hsome : ∀ x ∈ pdu.varbinds, (a.findHandler x.oid).isSome = true := by
      intro x hx
      obtain ⟨_, r', hr', _⟩ := hall x hx
      unfold vbTestResult at hr'
      cases hfx : a.findHandler x.oid with
      | none => rw [hfx] at hr'; cases hr'
      | some hh => rfl
    have htps := testPhase_success a ctx pdu pdu.varbinds 0 hall
    rcases htp : testPhase a ctx pdu 0 pdu.varbinds with ⟨evs, res⟩
    rw [htp] at htps
    simp only at htps
    subst htps
    have hevents : ∀ e ∈ evs, ∃ i, e = SetEvent.testCall i := fun e he =>
      testPhase_events a ctx pdu pdu.varbinds 0 e (by rw [htp]; exact he)
    unfold vbCommitResult at hrc
    cases hfk : a.findHandler vbk.oid with
    | none => rw [hfk] at hrc; cases hrc
    | some hh =>
      rw [hfk, Option.map_some'] at hrc
      injection hrc with hrc
      have hpk : (pendingOf a pdu.varbinds).get? k =
          some { handler := hh, oid := vbk.oid, value := vbk.value } := by
        rw [pendingOf_get? a pdu.varbinds hsome k, hk]
        simp [hfk]
      have hprevP : ∀ i < k, ∀ q, (pendingOf a pdu.varbinds).get? i = some q →
          (q.handler.commitSet q.oid q.value).isOk = true := by
        intro i hi q hq
        rw [pendingOf_get? a pdu.varbinds hsome i] at hq
        cases hvi : pdu.varbinds.get? i with
        | none => rw [hvi] at hq; cases hq
        | some vbi =>
          rw [hvi] at hq
          simp only [Option.some_bind] at hq
          cases hfi : a.findHandler vbi.oid with
          | none => rw [hfi] at hq; cases hq
          | some hhi =>
            rw [hfi, Option.map_some'] at hq
            injection hq with hq
            subst hq
            obtain ⟨rci, hrci, hoki⟩ := hprevC i hi vbi hvi
            unfold vbCommitResult at hrci
            rw [hfi, Option.map_some'] at hrci
            injection hrci with hrci
            show (hhi.commitSet vbi.oid vbi.value).isOk = true
            rw [hrci]
            exact hoki
      have hcf := commitPhase_fail pdu (pendingOf a pdu.varbinds) k
        { handler := hh, oid := vbk.oid, value := vbk.value } 0 [] hpk
        (by show (hh.commitSet vbk.oid vbk.value).isOk = false; rw [hrc]; exact hfailC)
        hprevP
      unfold handleSet
      rw [htp]
      simp only
      rw [hcf]
      constructor
      · show errResponse pdu ErrorStatus.CommitFailed (0 + k + 1) =
          errResponse pdu ErrorStatus.CommitFailed (k + 1)
        rw [Nat.zero_add]
      · simp only [undoCalls_append, undoCalls_all_test evs hevents,
          undoCalls_map_commitF, List.nil_append, map_zero_add_range,
          undoCalls_map_undo]
  · -- part (c): full success
    intro hall hcall
    have hsome : ∀ x ∈ pdu.varbinds, (a.findHandler x.oid).isSome = true := by
      intro x hx
      obtain ⟨_, r', hr', _⟩ := hall x hx
      unfold vbTestResult at hr'
      cases hfx : a.findHandler x.oid with
      | none => rw [hfx] at hr'; cases hr'
      | some hh => rfl
    have htps := testPhase_success a ctx pdu pdu.varbinds 0 hall
    rcases htp : testPhase a ctx pdu 0 pdu.varbinds with ⟨evs, res⟩
    rw [htp] at htps
    simp only at htps
    subst htps
    have hevents : ∀ e ∈ evs, ∃ i, e = SetEvent.testCall i := fun e he =>
      testPhase_events a ctx pdu pdu.varbinds 0 e (by rw [htp]; exact he)
    have hpall : ∀ p ∈ pendingOf a pdu.varbinds,
        (p.handler.commitSet p.oid p.value).isOk = true := by
      intro p hp
      unfold pendingOf at hp
      rw [List.mem_filterMap] at hp
      obtain ⟨vb, hvb, hmap⟩ := hp
      cases hfv : a.findHandler vb.oid with
      | none => rw [hfv] at hmap; cases hmap
      | some hh =>
        rw [hfv, Option.map_some'] at hmap
        injection hmap with hmap
        subst hmap
        obtain ⟨rc, hrc, hok⟩ := hcall vb hvb
        unfold vbCommitResult at hrc
        rw [hfv, Option.map_some'] at hrc
        injection hrc with hrc
        show (hh.commitSet vb.oid vb.value).isOk = true
        rw [hrc]
        exact hok
    have hcs := commitPhase_success pdu (pendingOf a pdu.varbinds) 0 [] hpall
    unfold handleSet
    rw [htp]
    simp only
    rw [hcs]
    refine ⟨rfl, ?_⟩
    simp only [undoCalls_append, undoCalls_all_test evs hevents,
      undoCalls_map_commitF, List.nil_append]

/-- Witness for C2 at a concrete agent: a single-varbind SET whose
`commit_set` fails; the response carries `commitFailed` at index 1 and no
`undo_set` is invoked (nothing was committed before the failure). -/
theorem C2_handle_set_witness :
    (handleSet
      (AgentModel.mk none
        (fun _ => some (SetHandlerBehavior.mk (fun _ _ => SetResult.Ok)
          (fun _ _ => SetResult.CommitFailed))))
      (RequestContext.mk Version.V2c none)
      (Pdu.mk PduType.Set 7 0 0 [VarBind.mk (Oid.mk [1, 3]) Value.Null])).1 =
      errResponse (Pdu.mk PduType.Set 7 0 0 [VarBind.mk (Oid.mk [1, 3]) Value.Null])
        ErrorStatus.CommitFailed 1 ∧
    undoCalls (handleSet
      (AgentModel.mk none
        (fun _ => some (SetHandlerBehavior.mk (fun _ _ => SetResult.Ok)
          (fun _ _ => SetResult.CommitFailed))))
      (RequestContext.mk Version.V2c none)
      (Pdu.mk PduType.Set 7 0 0 [VarBind.mk (Oid.mk [1, 3]) Value.Null])).2 =
      (List.range 0).reverse :=
  (C2_handle_set
    (AgentModel.mk none
      (fun _ => some (SetHandlerBehavior.mk (fun _ _ => SetResult.Ok)
        (fun _ _ => SetResult.CommitFailed))))
    (RequestContext.mk Version.V2c none)
    (Pdu.mk PduType.Set 7 0 0 [VarBind.mk (Oid.mk [1, 3]) Value.Null])).2.1
    0 (VarBind.mk (Oid.mk [1, 3]) Value.Null) SetResult.CommitFailed
    (fun _ _ => ⟨rfl, SetResult.Ok, rfl, rfl⟩)
    rfl rfl rfl
    (fun i hi => absurd hi (Nat.not_lt_zero i))

/-! ## Walk streams (src/client/walk.rs) -/

/-- The walk-relevant view of the library error type (`Error`, src/error.rs):
the walk constructs only `NonIncreasingOid`; every other variant (Io,
Timeout, Snmp, ...) flows through opaquely and is collapsed to `otherError`
with a tag. -/
inductive SnmpError
  | NonIncreasingOid (previous current : Oid)
  | otherError (tag : Nat)
deriving DecidableEq

/-- The iteration state shared by `Walk` and `BulkWalk`
(src/client/walk.rs): `base_oid`, `current_oid`, `last_returned_oid`,
`done`.  The transport client and the pending future are not part of the
pure iteration state. -/
structure WalkState where
  base : Oid
  current : Oid
  lastReturned : Option Oid
  done : Bool
deriving DecidableEq

/-- `Walk::new` / `BulkWalk::new`: iteration starts at the base OID with no
last-returned OID. -/
def Walk.init (oid : Oid) : WalkState :=
  { base := oid, current := oid, lastReturned := none, done := false }

/-- Outcome of processing one received varbind. -/
inductive VbOut
  | emit (vb : VarBind)
  | finish
  | nonIncreasing (previous current : Oid)
deriving DecidableEq

/-- The four termination rules, applied in this order, shared verbatim by
`Walk::poll_next` and the buffer drain of `BulkWalk::poll_next`
(src/client/walk.rs): (1) an `EndOfMibView` value finishes, (2) an OID
outside the base subtree finishes, (3) a non-increasing OID (only when a
last-returned OID exists — `last_returned_oid.take()`) fails with
`NonIncreasingOid{previous, current}`, (4) otherwise the varbind is emitted
and `current_oid`/`last_returned_oid` are updated to its OID. -/
def processVb (s : WalkState) (vb : VarBind) : VbOut × WalkState :=
  if vb.value = Value.EndOfMibView then
    (VbOut.finish, { s with done := true })
  else if !(vb.oid.startsWith s.base) then
    (VbOut.finish, { s with done := true })
  else
    match s.lastReturned with
    | some last =>
      if vb.oid.le last then
        (VbOut.nonIncreasing last vb.oid,
         { s with lastReturned := none, done := true })
      else
        (VbOut.emit vb, { s with current := vb.oid, lastReturned := some vb.oid })
    | none =>
      (VbOut.emit vb, { s with current := vb.oid, lastReturned := some vb.oid })

/-- How a finite run of `Walk::poll_next` over a list of replies ends. -/
inductive RunEnd
  | finished (cause : Except SnmpError VarBind)
  | failed (cause : Except SnmpError VarBind) (e : SnmpError)
  | exhausted

/-- `Walk::poll_next` (src/client/walk.rs) iterated over a list of GETNEXT
reply results (one per request): an `Err` reply is emitted and ends the
stream; an `Ok` varbind goes through the four termination rules. -/
def walkRun (s : WalkState) : List (Except SnmpError VarBind) → List VarBind × RunEnd
  | [] => ([], RunEnd.exhausted)
  | r :: rs =>
    match r with
    | .error e => ([], RunEnd.failed r e)
    | .ok vb =>
      match processVb s vb with
      | (VbOut.finish, _) => ([], RunEnd.finished r)
      | (VbOut.nonIncreasing p c, _) => ([], RunEnd.failed r (SnmpError.NonIncreasingOid p c))
      | (VbOut.emit v, s') =>
        let rec' := walkRun s' rs
        (v :: rec'.1, rec'.2)

/-- How draining one GETBULK buffer ends. -/
inductive DrainEnd
  | consumedAll (s' : WalkState)
  | finished (vb : VarBind)
  | failed (previous current : Oid)
deriving DecidableEq

/-- The buffered-varbind drain loop of `BulkWalk::poll_next`: each buffered
varbind goes through the same four termination rules. -/
def bulkDrain (s : WalkState) : List VarBind → List VarBind × DrainEnd
  | [] => ([], DrainEnd.consumedAll s)
  | vb :: rest =>
    match processVb s vb with
    | (VbOut.finish, _) => ([], DrainEnd.finished vb)
    | (VbOut.nonIncreasing p c, _) => ([], DrainEnd.failed p c)
    | (VbOut.emit v, s') =>
      let rec' := bulkDrain s' rest
      (v :: rec'.1, rec'.2)

/-- How a finite run of `BulkWalk::poll_next` over a list of GETBULK reply
results ends. -/
inductive BulkEnd
  | finished (vb : VarBind)
  | failed (cause : Except SnmpError (List VarBind)) (e : SnmpError)
  | emptyResponse
  | exhausted

/-- `BulkWalk::poll_next` (src/client/walk.rs) iterated over a list of
GETBULK reply results: an `Err` reply is emitted and ends the stream; an
empty varbind list ends the stream; otherwise the buffer is drained through
the four termination rules before the next fetch. -/
def bulkRun (s : WalkState) : List (Except SnmpError (List VarBind)) → List VarBind × BulkEnd
  | [] => ([], BulkEnd.exhausted)
  | r :: rs =>
    match r with
    | .error e => ([], BulkEnd.failed r e)
    | .ok varbinds =>
      if varbinds.isEmpty then ([], BulkEnd.emptyResponse)
      else
        match bulkDrain s varbinds with
        | (emitted, DrainEnd.finished vb) => (emitted, BulkEnd.finished vb)
        | (emitted, DrainEnd.failed p c) =>
          (emitted, BulkEnd.failed r (SnmpError.NonIncreasingOid p c))
        | (emitted, DrainEnd.consumedAll s') =>
          let rec' := bulkRun s' rs
          (emitted ++ rec'.1, rec'.2)

theorem processVb_emit_inv {s : WalkState} {vb v : VarBind} {s' : WalkState}
    (h : processVb s vb = (VbOut.emit v, s')) :
    v = vb ∧ s'.base = s.base ∧ s'.lastReturned = some vb.oid ∧
    vb.value ≠ Value.EndOfMibView ∧ vb.oid.startsWith s.base = true ∧
    ∀ last, s.lastReturned = some last → Oid.lt last vb.oid = true := by
  unfold processVb at h
  split at h
  · injection h with hA _; cases hA
  · split at h
    · injection h with hA _; cases hA
    · next h1 h2 =>
      have hsw : vb.oid.startsWith s.base = true := by
        cases hb : vb.oid.startsWith s.base with
        | true => rfl
        | false => rw [hb] at h2; exact absurd rfl h2
      split at h
      · split at h
        · injection h with hA _; cases hA
        · next last heq hle =>
          injection h with hA hB
          injection hA with hA
          subst hA
          subst hB
          refine ⟨rfl, rfl, rfl, h1, hsw, ?_⟩
          intro last' hlast'
          rw [heq] at hlast'
          injection hlast' with hlast'
          rw [← hlast']
          unfold Oid.le at hle
          unfold Oid.lt
          cases harc : arcsLt last.arcs vb.oid.arcs with
          | true => rfl
          | false =>
            rw [harc] at hle
            simp at hle
      · next heq =>
        injection h with hA hB
        injection hA with hA
        subst hA
        subst hB
        refine ⟨rfl, rfl, rfl, h1, hsw, ?_⟩
        intro last' hlast'
        rw [heq] at hlast'
        cases hlast'

theorem processVb_finish_inv {s : WalkState} {vb : VarBind} {s' : WalkState}
    (h : processVb s vb = (VbOut.finish, s')) :
    vb.value = Value.EndOfMibView ∨ vb.oid.startsWith s.base = false := by
  unfold processVb at h
  split at h
  · next h1 => exact Or.inl h1
  · split at h
    · next h1 h2 =>
      refine Or.inr ?_
      cases hb : vb.oid.startsWith s.base with
      | false => rfl
      | true => rw [hb] at h2; cases h2
    · split at h
      · split at h
        · injection h with hA _; cases hA
        · injection h with hA _; cases hA
      · injection h with hA _; cases hA

theorem processVb_nonincr_inv {s : WalkState} {vb : VarBind} {p c : Oid} {s' : WalkState}
    (h : processVb s vb = (VbOut.nonIncreasing p c, s')) :
    c = vb.oid ∧ s.lastReturned = some p ∧ vb.oid.le p = true ∧
    vb.value ≠ Value.EndOfMibView ∧ vb.oid.startsWith s.base = true := by
  unfold processVb at h
  split at h
  · injection h with hA _; cases hA
  · split at h
    · injection h with hA _; cases hA
    · next h1 h2 =>
      have hsw : vb.oid.startsWith s.base = true := by
        cases hb : vb.oid.startsWith s.base with
        | true => rfl
        | false => rw [hb] at h2; exact absurd rfl h2
      split at h
      · split at h
        · next last heq hle =>
          injection h with hA _
          injection hA with hA1 hA2
          subst hA1
          subst hA2
          exact ⟨rfl, heq, hle, h1, hsw⟩
        · injection h with hA _; cases hA
      · injection h with hA _; cases hA

/-- C3: for every reply processed by a GETNEXT walk and every buffered
varbind drained by a bulk walk (both go through `processVb`), the four
termination rules are applied in this fixed order: an `EndOfMibView` value
ends the stream; then an OID outside the base subtree ends the stream; then
an OID less than or equal to the last returned OID fails with
`NonIncreasingOid` whose `previous` field is the last returned OID and
whose `current` field is the offending OID; otherwise the varbind is
emitted and becomes the new last-returned OID.  The non-increasing check is
not applied when there is no last-returned OID yet, and a GETNEXT walk from
the base never fails with `NonIncreasingOid` before emitting at least one
varbind (given that no underlying reply is itself a `NonIncreasingOid`
error). -/
theorem C3_four_rules_order (s : WalkState) (vb : VarBind) :
    (vb.value = Value.EndOfMibView →
      processVb s vb = (VbOut.finish, { s with done := true })) ∧
    (vb.value ≠ Value.EndOfMibView → vb.oid.startsWith s.base = false →
      processVb s vb = (VbOut.finish, { s with done := true })) ∧
    (∀ last, vb.value ≠ Value.EndOfMibView → vb.oid.startsWith s.base = true →
      s.lastReturned = some last → vb.oid.le last = true →
      processVb s vb = (VbOut.nonIncreasing last vb.oid,
        { s with lastReturned := none, done := true })) ∧
    (∀ last, vb.value ≠ Value.EndOfMibView → vb.oid.startsWith s.base = true →
      s.lastReturned = some last → vb.oid.le last = false →
      processVb s vb = (VbOut.emit vb,
        { s with current := vb.oid, lastReturned := some vb.oid })) ∧
    (vb.value ≠ Value.EndOfMibView → vb.oid.startsWith s.base = true →
      s.lastReturned = none →
      processVb s vb = (VbOut.emit vb,
        { s with current := vb.oid, lastReturned := some vb.oid })) ∧
    (∀ base replies cause p c,
      (∀ t, Except.error (SnmpError.NonIncreasingOid p t) ∉ replies) →
      (walkRun (Walk.init base) replies).2 =
        RunEnd.failed cause (SnmpError.NonIncreasingOid p c) →
      (walkRun (Walk.init base) replies).1 ≠ []) := by
  refine ⟨?_, ?_, ?_, ?_, ?_, ?_⟩
  · intro h1
    simp [processVb, h1]
  · intro h1 h2
    simp [processVb, h1, h2]
  · intro last h1 h2 h3 h4
    simp [processVb, h1, h2, h3, h4]
  · intro last h1 h2 h3 h4
    simp [processVb, h1, h2, h3, h4]
  · intro h1 h2 h3
    simp [processVb, h1, h2, h3]
  · intro base replies cause p c hnorep hend
    cases replies with
    | nil => cases hend
    | cons r rs =>
      cases r with
      | error e =>
        unfold walkRun at hend
        simp only at hend
        injection hend with hc he
        subst he
        exact absurd (List.mem_cons_self _ _) (hnorep c)
      | ok vb0 =>
        rcases hp : processVb (Walk.init base) vb0 with ⟨out, s'⟩
        cases out with
        | finish =>
          unfold walkRun at hend
          simp only at hend
          rw [hp] at hend
          cases hend
        | nonIncreasing p' c' =>
          obtain ⟨_, hlast, _, _, _⟩ := processVb_nonincr_inv hp
          cases hlast
        | emit v =>
          unfold walkRun
          simp only
          rw [hp]
          simp

theorem mem_of_getLast?_some {α : Type} {l : List α} {v : α} (h : l.getLast? = some v) :
    v ∈ l := by
  obtain ⟨hne, hv⟩ := List.mem_getLast?_eq_getLast
    (show v ∈ l.getLast? by rw [Option.mem_def]; exact h)
  rw [hv]
  exact List.getLast_mem hne

theorem walkRun_invariant (rs : List (Except SnmpError VarBind)) :
    ∀ s : WalkState,
    (∀ v ∈ (walkRun s rs).1, v.oid.startsWith s.base = true) ∧
    (∀ last, s.lastReturned = some last →
      ∀ v ∈ (walkRun s rs).1, Oid.lt last v.oid = true) ∧
    List.Chain' (fun x y => Oid.lt x.oid y.oid = true) (walkRun s rs).1 ∧
    (match (walkRun s rs).2 with
     | RunEnd.finished cause => ∃ vb, cause = Except.ok vb ∧
         (vb.value = Value.EndOfMibView ∨ vb.oid.startsWith s.base = false)
     | RunEnd.failed cause e =>
         cause = Except.error e ∨
         ∃ vb p, cause = Except.ok vb ∧ e = SnmpError.NonIncreasingOid p vb.oid
     | RunEnd.exhausted => True) := by
  induction rs with
  | nil =>
    intro s
    refine ⟨?_, ?_, ?_, ?_⟩
    · intro v hv; cases hv
    · intro last _ v hv; cases hv
    · exact List.chain'_nil
    · trivial
  | cons r rs ih =>
    intro s
    cases r with
    | error e =>
      refine ⟨?_, ?_, ?_, ?_⟩
      · intro v hv; cases hv
      · intro last _ v hv; cases hv
      · exact List.chain'_nil
      · exact Or.inl rfl
    | ok vb =>
      rcases hp : processVb s vb with ⟨out, s'⟩
      cases out with
      | finish =>
        have hrun : walkRun s (Except.ok vb :: rs) =
            ([], RunEnd.finished (Except.ok vb)) := by
          unfold walkRun
          simp only
          rw [hp]
        refine ⟨?_, ?_, ?_, ?_⟩
        · intro v hv; rw [hrun] at hv; cases hv
        · intro last _ v hv; rw [hrun] at hv; cases hv
        · rw [hrun]; exact List.chain'_nil
        · rw [hrun]
          exact ⟨vb, rfl, processVb_finish_inv hp⟩
      | nonIncreasing p c =>
        obtain ⟨hc, hlast, hle, hnev, hsw⟩ := processVb_nonincr_inv hp
        have hrun : walkRun s (Except.ok vb :: rs) =
            ([], RunEnd.failed (Except.ok vb) (SnmpError.NonIncreasingOid p c)) := by
          unfold walkRun
          simp only
          rw [hp]
        refine ⟨?_, ?_, ?_, ?_⟩
        · intro v hv; rw [hrun] at hv; cases hv
        · intro last _ v hv; rw [hrun] at hv; cases hv
        · rw [hrun]; exact List.chain'_nil
        · rw [hrun]
          exact Or.inr ⟨vb, p, rfl, by rw [hc]⟩
      | emit v =>
        obtain ⟨hv, hbase', hlast', hnev, hsw, hgt⟩ := processVb_emit_inv hp
        subst hv
        obtain ⟨ih1, ih2, ih3, ih4⟩ := ih s'
        have hrun : walkRun s (Except.ok v :: rs) =
            (v :: (walkRun s' rs).1, (walkRun s' rs).2) := by
          simp only [walkRun]
          rw [hp]
        refine ⟨?_, ?_, ?_, ?_⟩
        · intro w hw
          rw [hrun] at hw
          rcases List.mem_cons.1 hw with rfl | hm
          · exact hsw
          · rw [← hbase']
            exact ih1 w hm
        · intro last hlast w hw
          rw [hrun] at hw
          rcases List.mem_cons.1 hw with rfl | hm
          · exact hgt last hlast
          · have h2 := ih2 v.oid hlast' w hm
            have h1 := hgt last hlast
            unfold Oid.lt at h1 h2 ⊢
            exact arcsLt_trans h1 h2
        · rw [hrun]
          rw [List.chain'_cons']
          refine ⟨?_, ih3⟩
          intro y hy
          exact ih2 v.oid hlast' y (List.mem_of_mem_head? hy)
        · rw [hrun]
          revert ih4
          generalize (walkRun s' rs).2 = en
          intro ih4
          cases en with
          | finished cause =>
            obtain ⟨vb', hvb', hor⟩ := ih4
            refine ⟨vb', hvb', ?_⟩
            rw [← hbase']
            exact hor
          | failed cause e => exact ih4
          | exhausted => trivial

theorem bulkDrain_invariant (l : List VarBind) :
    ∀ s : WalkState,
    (∀ v ∈ (bulkDrain s l).1, v.oid.startsWith s.base = true) ∧
    (∀ last, s.lastReturned = some last →
      ∀ v ∈ (bulkDrain s l).1, Oid.lt last v.oid = true) ∧
    List.Chain' (fun x y => Oid.lt x.oid y.oid = true) (bulkDrain s l).1 ∧
    (match (bulkDrain s l).2 with
     | DrainEnd.consumedAll s' => s'.base = s.base ∧
         (((bulkDrain s l).1 = [] ∧ s'.lastReturned = s.lastReturned) ∨
          (∃ v, (bulkDrain s l).1.getLast? = some v ∧ s'.lastReturned = some v.oid))
     | DrainEnd.finished vb =>
         vb.value = Value.EndOfMibView ∨ vb.oid.startsWith s.base = false
     | DrainEnd.failed _ c => ∃ vb ∈ l, c = vb.oid) := by
  induction l with
  | nil =>
    intro s
    refine ⟨?_, ?_, ?_, ?_⟩
    · intro v hv; cases hv
    · intro last _ v hv; cases hv
    · exact List.chain'_nil
    · exact ⟨rfl, Or.inl ⟨rfl, rfl⟩⟩
  | cons vb rest ih =>
    intro s
    rcases hp : processVb s vb with ⟨out, s'⟩
    cases out with
    | finish =>
      have hrun : bulkDrain s (vb :: rest) = ([], DrainEnd.finished vb) := by
        unfold bulkDrain
        rw [hp]
      refine ⟨?_, ?_, ?_, ?_⟩
      · intro v hv; rw [hrun] at hv; cases hv
      · intro last _ v hv; rw [hrun] at hv; cases hv
      · rw [hrun]; exact List.chain'_nil
      · rw [hrun]
        exact processVb_finish_inv hp
    | nonIncreasing p c =>
      obtain ⟨hc, _, _, _, _⟩ := processVb_nonincr_inv hp
      have hrun : bulkDrain s (vb :: rest) = ([], DrainEnd.failed p c) := by
        unfold bulkDrain
        rw [hp]
      refine ⟨?_, ?_, ?_, ?_⟩
      · intro v hv; rw [hrun] at hv; cases hv
      · intro last _ v hv; rw [hrun] at hv; cases hv
      · rw [hrun]; exact List.chain'_nil
      · rw [hrun]
        exact ⟨vb, List.mem_cons_self _ _, hc⟩
    | emit v =>
      obtain ⟨hv, hbase', hlast', hnev, hsw, hgt⟩ := processVb_emit_inv hp
      subst hv
      obtain ⟨ih1, ih2, ih3, ih4⟩ := ih s'
      have hrun : bulkDrain s (v :: rest) =
          (v :: (bulkDrain s' rest).1, (bulkDrain s' rest).2) := by
        simp only [bulkDrain]
        rw [hp]
      refine ⟨?_, ?_, ?_, ?_⟩
      · intro w hw
        rw [hrun] at hw
        rcases List.mem_cons.1 hw with rfl | hm
        · exact hsw
        · rw [← hbase']
          exact ih1 w hm
      · intro last hlast w hw
        rw [hrun] at hw
        rcases List.mem_cons.1 hw with rfl | hm
        · exact hgt last hlast
        · have h2 := ih2 v.oid hlast' w hm
          have h1 := hgt last hlast
          unfold Oid.lt at h1 h2 ⊢
          exact arcsLt_trans h1 h2
      · rw [hrun]
        rw [List.chain'_cons']
        refine ⟨?_, ih3⟩
        intro y hy
        exact ih2 v.oid hlast' y (List.mem_of_mem_head? hy)
      · rw [hrun]
        revert ih4
        generalize hE : (bulkDrain s' rest).1 = E2
        generalize (bulkDrain s' rest).2 = en
        intro ih4
        cases en with
        | consumedAll s'' =>
          obtain ⟨hb'', hcase⟩ := ih4
          refine ⟨by rw [hb'', hbase'], ?_⟩
          rcases hcase with ⟨hE2, hl2⟩ | ⟨w, hwlast, hl2⟩
          · subst hE2
            exact Or.inr ⟨v, rfl, by rw [hl2, hlast']⟩
          · exact Or.inr ⟨w, List.mem_getLast?_cons hwlast, hl2⟩
        | finished vb' =>
          rcases ih4 with h | h
          · exact Or.inl h
          · exact Or.inr (by rw [← hbase']; exact h)
        | failed p c =>
          obtain ⟨w, hw, hc⟩ := ih4
          exact ⟨w, List.mem_cons_of_mem _ hw, hc⟩

theorem bulkRun_invariant (rs : List (Except SnmpError (List VarBind))) :
    ∀ s : WalkState,
    (∀ v ∈ (bulkRun s rs).1, v.oid.startsWith s.base = true) ∧
    (∀ last, s.lastReturned = some last →
      ∀ v ∈ (bulkRun s rs).1, Oid.lt last v.oid = true) ∧
    List.Chain' (fun x y => Oid.lt x.oid y.oid = true) (bulkRun s rs).1 ∧
    (match (bulkRun s rs).2 with
     | BulkEnd.finished vb =>
         vb.value = Value.EndOfMibView ∨ vb.oid.startsWith s.base = false
     | BulkEnd.failed cause e =>
         cause = Except.error e ∨
         ∃ l p c, cause = Except.ok l ∧ e = SnmpError.NonIncreasingOid p c ∧
           ∃ vb ∈ l, c = vb.oid
     | BulkEnd.emptyResponse => True
     | BulkEnd.exhausted => True) := by
  induction rs with
  | nil =>
    intro s
    refine ⟨?_, ?_, ?_, ?_⟩
    · intro v hv; cases hv
    · intro last _ v hv; cases hv
    · exact List.chain'_nil
    · trivial
  | cons r rs ih =>
    intro s
    cases r with
    | error e =>
      refine ⟨?_, ?_, ?_, ?_⟩
      · intro v hv; cases hv
      · intro last _ v hv; cases hv
      · exact List.chain'_nil
      · exact Or.inl rfl
    | ok varbinds =>
      by_cases hemp : varbinds.isEmpty
      · have hrun : bulkRun s (Except.ok varbinds :: rs) = ([], BulkEnd.emptyResponse) := by
          unfold bulkRun
          simp only [hemp, if_true]
        refine ⟨?_, ?_, ?_, ?_⟩
        · intro v hv; rw [hrun] at hv; cases hv
        · intro last _ v hv; rw [hrun] at hv; cases hv
        · rw [hrun]; exact List.chain'_nil
        · rw [hrun]; trivial
      · have hemp' : varbinds.isEmpty = false := by
          cases h : varbinds.isEmpty
          · rfl
          · exact absurd h hemp
        obtain ⟨d1, d2, d3, d4⟩ := bulkDrain_invariant varbinds s
        rcases hd : bulkDrain s varbinds with ⟨E1, den⟩
        rw [hd] at d1 d2 d3 d4
        simp only at d1 d2 d3 d4
        cases den with
        | finished vb' =>
          have hrun : bulkRun s (Except.ok varbinds :: rs) = (E1, BulkEnd.finished vb') := by
            unfold bulkRun
            simp only [hemp', Bool.false_eq_true, if_false]
            rw [hd]
          refine ⟨?_, ?_, ?_, ?_⟩
          · intro v hv; rw [hrun] at hv; exact d1 v hv
          · intro last hlast v hv; rw [hrun] at hv; exact d2 last hlast v hv
          · rw [hrun]; exact d3
          · rw [hrun]; exact d4
        | failed p c =>
          have hrun : bulkRun s (Except.ok varbinds :: rs) =
              (E1, BulkEnd.failed (Except.ok varbinds) (SnmpError.NonIncreasingOid p c)) := by
            unfold bulkRun
            simp only [hemp', Bool.false_eq_true, if_false]
            rw [hd]
          refine ⟨?_, ?_, ?_, ?_⟩
          · intro v hv; rw [hrun] at hv; exact d1 v hv
          · intro last hlast v hv; rw [hrun] at hv; exact d2 last hlast v hv
          · rw [hrun]; exact d3
          · rw [hrun]
            exact Or.inr ⟨varbinds, p, c, rfl, rfl, d4⟩
        | consumedAll s' =>
          obtain ⟨hb', hcase⟩ := d4
          obtain ⟨ih1, ih2, ih3, ih4⟩ := ih s'
          have hrun : bulkRun s (Except.ok varbinds :: rs) =
              (E1 ++ (bulkRun s' rs).1, (bulkRun s' rs).2) := by
            simp only [bulkRun, hemp', Bool.false_eq_true, if_false]
            rw [hd]
          refine ⟨?_, ?_, ?_, ?_⟩
          · intro w hw
            rw [hrun] at hw
            rcases List.mem_append.1 hw with hm | hm
            · exact d1 w hm
            · rw [← hb']
              exact ih1 w hm
          · intro last hlast w hw
            rw [hrun] at hw
            rcases List.mem_append.1 hw with hm | hm
            · exact d2 last hlast w hm
            · rcases hcase with ⟨hE1, hl'⟩ | ⟨v, hvlast, hl'⟩
              · exact ih2 last (by rw [hl', hlast]) w hm
              · have hlt1 := d2 last hlast v (mem_of_getLast?_some hvlast)
                have hlt2 := ih2 v.oid hl' w hm
                unfold Oid.lt at hlt1 hlt2 ⊢
                exact arcsLt_trans hlt1 hlt2
          · rw [hrun]
            rw [List.chain'_append]
            refine ⟨d3, ih3, ?_⟩
            intro x hx y hy
            rcases hcase with ⟨hE1, _⟩ | ⟨v, hvlast, hl'⟩
            · rw [hE1] at hx
              cases hx
            · rw [Option.mem_def] at hx
              rw [hvlast] at hx
              injection hx with hx
              subst hx
              exact ih2 v.oid hl' y (List.mem_of_mem_head? hy)
          · rw [hrun]
            revert ih4
            generalize (bulkRun s' rs).2 = en
            intro ih4
            cases en with
            | finished vb' =>
              rcases ih4 with h | h
              · exact Or.inl h
              · exact Or.inr (by rw [← hb']; exact h)
            | failed cause e => exact ih4
            | emptyResponse => trivial
            | exhausted => trivial

/-- Witness for C3 at a concrete state and varbind: an `EndOfMibView`
varbind finishes the stream regardless of its OID. -/
theorem C3_four_rules_witness :
    processVb (Walk.init (Oid.mk [1, 3]))
        (VarBind.mk (Oid.mk [1, 3, 1]) Value.EndOfMibView) =
      (VbOut.finish, { Walk.init (Oid.mk [1, 3]) with done := true }) :=
  (C3_four_rules_order (Walk.init (Oid.mk [1, 3]))
    (VarBind.mk (Oid.mk [1, 3, 1]) Value.EndOfMibView)).1 rfl

/-- C1 counterexample to the claim as stated (termination "in exactly one of
three ways"): a GETNEXT walk whose underlying request fails terminates by
emitting that error — which is neither an EndOfMibView reply, nor a subtree
exit, nor a `NonIncreasingOid` error — and a bulk walk receiving an empty
GETBULK response terminates with nothing emitted and no EndOfMibView,
subtree-exit or NonIncreasingOid involved. -/
theorem C1_counterexample :
    walkRun (Walk.init (Oid.mk [1, 3])) [Except.error (SnmpError.otherError 0)] =
      ([], RunEnd.failed (Except.error (SnmpError.otherError 0))
        (SnmpError.otherError 0)) ∧
    bulkRun (Walk.init (Oid.mk [1, 3])) [Except.ok []] =
      ([], BulkEnd.emptyResponse) :=
  ⟨rfl, rfl⟩

/-- C1 (amended): for every walk (GETNEXT or bulk) over a base OID, every
varbind the stream emits as Ok has an OID that starts with the base OID and
consecutive emitted OIDs are strictly increasing; when the stream
terminates, it does so in exactly one of: a reply whose value is
EndOfMibView (nothing emitted for that reply), a reply whose OID leaves the
base subtree (nothing emitted for that reply), a NonIncreasingOid error, an
error from the underlying request which is emitted as the final item, or —
for a bulk walk only — an empty GETBULK response (nothing emitted for it). -/
theorem C1_walk_stream_invariants (base : Oid)
    (replies : List (Except SnmpError VarBind))
    (bulkReplies : List (Except SnmpError (List VarBind))) :
    (∀ v ∈ (walkRun (Walk.init base) replies).1, v.oid.startsWith base = true) ∧
    List.Chain' (fun x y => Oid.lt x.oid y.oid = true)
      (walkRun (Walk.init base) replies).1 ∧
    (match (walkRun (Walk.init base) replies).2 with
     | RunEnd.finished cause => ∃ vb, cause = Except.ok vb ∧
         (vb.value = Value.EndOfMibView ∨ vb.oid.startsWith base = false)
     | RunEnd.failed cause e =>
         cause = Except.error e ∨
         ∃ vb p, cause = Except.ok vb ∧ e = SnmpError.NonIncreasingOid p vb.oid
     | RunEnd.exhausted => True) ∧
    (∀ v ∈ (bulkRun (Walk.init base) bulkReplies).1, v.oid.startsWith base = true) ∧
    List.Chain' (fun x y => Oid.lt x.oid y.oid = true)
      (bulkRun (Walk.init base) bulkReplies).1 ∧
    (match (bulkRun (Walk.init base) bulkReplies).2 with
     | BulkEnd.finished vb =>
         vb.value = Value.EndOfMibView ∨ vb.oid.startsWith base = false
     | BulkEnd.failed cause e =>
         cause = Except.error e ∨
         ∃ l p c, cause = Except.ok l ∧ e = SnmpError.NonIncreasingOid p c ∧
           ∃ vb ∈ l, c = vb.oid
     | BulkEnd.emptyResponse => True
     | BulkEnd.exhausted => True) := by
  obtain ⟨w1, _, w3, w4⟩ := walkRun_invariant replies (Walk.init base)
  obtain ⟨b1, _, b3, b4⟩ := bulkRun_invariant bulkReplies (Walk.init base)
  exact ⟨w1, w3, w4, b1, b3, b4⟩

/-! ## OidTable (src/handler/oid_table.rs) -/

/-- Result of Rust `slice::binary_search_by`: `Ok(index)` of a comparator-
equal element or `Err(insertion_point)`. -/
inductive SearchResult
  | found (i : Nat)
  | notFound (i : Nat)
deriving DecidableEq

/-- Shallow embedding of `slice::binary_search_by` with the comparator
`|(o, _)| o.cmp(&oid)` used throughout `OidTable`
(src/handler/oid_table.rs): compare at the midpoint and recurse into the
half that can contain the target.  On the sorted duplicate-free entry
vectors maintained by `OidTable::insert` this computes the Rust result:
the index of the equal key, or the insertion point. -/
def bsearch {V : Type} (l : List (Oid × V)) (target : Oid) : SearchResult :=
  if hl : l.length = 0 then SearchResult.notFound 0
  else
    have hmid : l.length / 2 < l.length :=
      Nat.div_lt_self (Nat.pos_of_ne_zero hl) (by omega)
    match arcsCmp (l.get ⟨l.length / 2, hmid⟩).1.arcs target.arcs with
    | Ordering.lt =>
      match bsearch (l.drop (l.length / 2 + 1)) target with
      | SearchResult.found j => SearchResult.found (l.length / 2 + 1 + j)
      | SearchResult.notFound j => SearchResult.notFound (l.length / 2 + 1 + j)
    | Ordering.gt => bsearch (l.take (l.length / 2)) target
    | Ordering.eq => SearchResult.found (l.length / 2)
termination_by l.length
decreasing_by
  · simp only [List.length_drop]
    omega
  · simp only [List.length_take]
    omega

/-- The `OidTable` entry-vector invariant: strictly sorted by OID. -/
def entriesSorted {V : Type} (l : List (Oid × V)) : Prop :=
  l.Pairwise (fun a b => arcsLt a.1.arcs b.1.arcs = true)

theorem sorted_get?_rel {V : Type} {l : List (Oid × V)} (hs : entriesSorted l)
    {i j : Nat} (hij : i < j) {p q : Oid × V}
    (hp : l.get? i = some p) (hq : l.get? j = some q) :
    arcsLt p.1.arcs q.1.arcs = true := by
  rcases List.get?_eq_some.1 hp with ⟨hi, hpi⟩
  rcases List.get?_eq_some.1 hq with ⟨hj, hqj⟩
  have h := (List.pairwise_iff_get.1 hs) ⟨i, hi⟩ ⟨j, hj⟩ hij
  rw [hpi, hqj] at h
  exact h

theorem Oid.eq_of_arcs_eq {x y : Oid} (h : x.arcs = y.arcs) : x = y := by
  cases x
  cases y
  simpa using h

theorem bsearch_spec {V : Type} :
    ∀ (n : Nat) (l : List (Oid × V)), l.length ≤ n →
      entriesSorted l → ∀ t : Oid,
      (match bsearch l t with
       | SearchResult.found i => ∃ v, l.get? i = some (t, v)
       | SearchResult.notFound i =>
         (∀ j < i, ∃ p, l.get? j = some p ∧ arcsLt p.1.arcs t.arcs = true) ∧
         (∀ j, i ≤ j → ∀ p, l.get? j = some p → arcsLt t.arcs p.1.arcs = true)) := by
  intro n
  induction n with
  | zero =>
    intro l hlen hs t
    have hnil : l = [] := List.length_eq_zero.1 (Nat.le_zero.1 hlen)
    subst hnil
    rw [show bsearch ([] : List (Oid × V)) t = SearchResult.notFound 0 from by
      unfold bsearch; rfl]
    exact ⟨fun j hj => absurd hj (Nat.not_lt_zero j), fun j _ p hp => by cases hp⟩
  | succ n ih =>
    intro l hlen hs t
    by_cases hl : l.length = 0
    · have hnil : l = [] := List.length_eq_zero.1 hl
      subst hnil
      rw [show bsearch ([] : List (Oid × V)) t = SearchResult.notFound 0 from by
        unfold bsearch; rfl]
      exact ⟨fun j hj => absurd hj (Nat.not_lt_zero j), fun j _ p hp => by cases hp⟩
    · have hmid : l.length / 2 < l.length :=
        Nat.div_lt_self (Nat.pos_of_ne_zero hl) (by omega)
      have hbs : bsearch l t =
          (match arcsCmp (l.get ⟨l.length / 2, hmid⟩).1.arcs t.arcs with
           | Ordering.lt =>
             match bsearch (l.drop (l.length / 2 + 1)) t with
             | SearchResult.found j => SearchResult.found (l.length / 2 + 1 + j)
             | SearchResult.notFound j => SearchResult.notFound (l.length / 2 + 1 + j)
           | Ordering.gt => bsearch (l.take (l.length / 2)) t
           | Ordering.eq => SearchResult.found (l.length / 2)) := by
        conv_lhs => unfold bsearch
        rw [dif_neg hl]
      have hpget : l.get? (l.length / 2) = some (l.get ⟨l.length / 2, hmid⟩) :=
        List.get?_eq_get hmid
      rcases hcmp : arcsCmp (l.get ⟨l.length / 2, hmid⟩).1.arcs t.arcs with _ | _ | _
      · -- midpoint key < target: recurse right
        have harc : arcsLt (l.get ⟨l.length / 2, hmid⟩).1.arcs t.arcs = true :=
          (arcsCmp_lt_iff _ _).1 hcmp
        have hsd : entriesSorted (l.drop (l.length / 2 + 1)) :=
          hs.sublist (List.drop_sublist _ _)
        have hld : (l.drop (l.length / 2 + 1)).length ≤ n := by
          simp only [List.length_drop]
          omega
        have ihres := ih (l.drop (l.length / 2 + 1)) hld hsd t
        rw [hbs, hcmp]
        rcases hbs' : bsearch (l.drop (l.length / 2 + 1)) t with j | j
        · rw [hbs'] at ihres
          obtain ⟨v, hv⟩ := ihres
          rw [List.get?_drop] at hv
          exact ⟨v, hv⟩
        · rw [hbs'] at ihres
          obtain ⟨ih1, ih2⟩ := ihres
          constructor
          · intro j' hj'
            by_cases hj'm : j' ≤ l.length / 2
            · have hj'len : j' < l.length := by omega
              refine ⟨l.get ⟨j', hj'len⟩, List.get?_eq_get hj'len, ?_⟩
              by_cases hj'eq : j' = l.length / 2
              · subst hj'eq
                exact harc
              · have hrel := sorted_get?_rel hs (show j' < l.length / 2 by omega)
                  (List.get?_eq_get hj'len) hpget
                exact arcsLt_trans hrel harc
            · have hj'i : j' - (l.length / 2 + 1) < j := by omega
              obtain ⟨q, hq, hqlt⟩ := ih1 _ hj'i
              rw [List.get?_drop] at hq
              refine ⟨q, ?_, hqlt⟩
              rw [show l.length / 2 + 1 + (j' - (l.length / 2 + 1)) = j' by omega] at hq
              exact hq
          · intro j' hj' q hq
            have hj'd : j ≤ j' - (l.length / 2 + 1) := by omega
            refine ih2 _ hj'd q ?_
            rw [List.get?_drop]
            rw [show l.length / 2 + 1 + (j' - (l.length / 2 + 1)) = j' by omega]
            exact hq
      · -- midpoint key = target
        have harc : (l.get ⟨l.length / 2, hmid⟩).1 = t :=
          Oid.eq_of_arcs_eq ((arcsCmp_eq_iff _ _).1 hcmp)
        rw [hbs, hcmp]
        refine ⟨(l.get ⟨l.length / 2, hmid⟩).2, ?_⟩
        rw [← harc]
        exact hpget
      · -- midpoint key > target: recurse left
        have harc : arcsLt t.arcs (l.get ⟨l.length / 2, hmid⟩).1.arcs = true :=
          (arcsCmp_gt_iff _ _).1 hcmp
        have hst : entriesSorted (l.take (l.length / 2)) :=
          hs.sublist (List.take_sublist _ _)
        have hlt : (l.take (l.length / 2)).length ≤ n := by
          simp only [List.length_take]
          omega
        have htlen : (l.take (l.length / 2)).length = l.length / 2 := by
          simp only [List.length_take]
          omega
        have ihres := ih (l.take (l.length / 2)) hlt hst t
        rw [hbs, hcmp]
        rcases hbs' : bsearch (l.take (l.length / 2)) t with j | j
        · rw [hbs'] at ihres
          obtain ⟨v, hv⟩ := ihres
          have hjlt : j < l.length / 2 := by
            rcases List.get?_eq_some.1 hv with ⟨hj, _⟩
            omega
          rw [List.get?_take hjlt] at hv
          exact ⟨v, hv⟩
        · rw [hbs'] at ihres
          obtain ⟨ih1, ih2⟩ := ihres
          have hjle : j ≤ l.length / 2 := by
            by_contra hgt
            obtain ⟨q, hq, _⟩ := ih1 (l.length / 2) (by omega)
            rcases List.get?_eq_some.1 hq with ⟨hcontra, _⟩
            omega
          constructor
          · intro j' hj'
            obtain ⟨q, hq, hqlt⟩ := ih1 j' hj'
            rw [List.get?_take (by omega)] at hq
            exact ⟨q, hq, hqlt⟩
          · intro j' hj' q hq
            by_cases hj'm : j' < l.length / 2
            · exact ih2 j' hj' q (by rw [List.get?_take hj'm]; exact hq)
            · by_cases hj'eq : j' = l.length / 2
              · subst hj'eq
                rw [hpget] at hq
                injection hq with hq
                subst hq
                exact harc
              · have hrel := sorted_get?_rel hs
                  (show l.length / 2 < j' by omega) hpget hq
                exact arcsLt_trans harc hrel

/-- Embedding of `OidTable<V>` from `src/handler/oid_table.rs`: a vector of
OID-value pairs kept sorted by OID. -/
structure OidTable (V : Type) where
  entries : List (Oid × V)

/-- Embedding of `OidTable::insert`: `binary_search_by` on the OID keys; on
`Ok(idx)` only the value at `idx` is replaced (`self.entries[idx].1 = value`),
on `Err(idx)` the pair is inserted at the insertion point (`Vec::insert`). -/
def OidTable.insert {V : Type} (t : OidTable V) (oid : Oid) (value : V) : OidTable V :=
  match bsearch t.entries oid with
  | SearchResult.found idx =>
    ⟨t.entries.set idx ((t.entries.getD idx (oid, value)).1, value)⟩
  | SearchResult.notFound idx =>
    ⟨t.entries.take idx ++ (oid, value) :: t.entries.drop idx⟩

/-- Embedding of `OidTable::get_next`: `binary_search_by`; on exact match the
entry after the match is returned, otherwise the entry at the insertion
point. -/
def OidTable.getNext {V : Type} (t : OidTable V) (oid : Oid) : Option (Oid × V) :=
  match bsearch t.entries oid with
  | SearchResult.found idx => t.entries.get? (idx + 1)
  | SearchResult.notFound idx => t.entries.get? idx

/-- A table populated solely through `insert`, starting from `OidTable::new`. -/
def buildTable {V : Type} (l : List (Oid × V)) : OidTable V :=
  l.foldl (fun t p => t.insert p.1 p.2) ⟨[]⟩

theorem insert_sorted {V : Type} (t : OidTable V) (hs : entriesSorted t.entries)
    (oid : Oid) (value : V) : entriesSorted (t.insert oid value).entries := by
  have hspec := bsearch_spec t.entries.length t.entries (Nat.le_refl _) hs oid
  rcases hbs : bsearch t.entries oid with idx | idx
  · -- exact match: only the value changes, the key list is untouched
    rw [hbs] at hspec
    obtain ⟨v, hv⟩ := hspec
    have hgetD : t.entries.getD idx (oid, value) = (oid, v) := by
      rw [List.getD_eq_get? t.entries idx, hv]
      rfl
    simp only [OidTable.insert, hbs, hgetD]
    have hmapeq : (t.entries.set idx (oid, value)).map Prod.fst =
        t.entries.map Prod.fst := by
      rw [List.map_set]
      apply List.ext_get?
      intro n
      rw [List.get?_set oid (t.entries.map Prod.fst)]
      by_cases hn : idx = n
      · subst hn
        have hv' : t.entries[idx]? = some (oid, v) := by
          rw [← List.get?_eq_getElem?]
          exact hv
        simp [hv']
      · rw [if_neg hn]
    have hs' : (t.entries.map Prod.fst).Pairwise
        (fun x y => arcsLt x.arcs y.arcs = true) := List.pairwise_map.2 hs
    rw [← hmapeq] at hs'
    exact List.pairwise_map.1 hs'
  · -- no match: insertion at the binary-search insertion point
    rw [hbs] at hspec
    obtain ⟨hlo, hhi⟩ := hspec
    simp only [OidTable.insert, hbs]
    rw [entriesSorted, List.pairwise_append]
    refine ⟨hs.sublist (List.take_sublist _ _), ?_, ?_⟩
    · rw [List.pairwise_cons]
      refine ⟨?_, hs.sublist (List.drop_sublist _ _)⟩
      intro b hb
      obtain ⟨n, hn⟩ := List.mem_iff_get?.1 hb
      rw [List.get?_drop] at hn
      exact hhi (idx + n) (by omega) b hn
    · intro a ha b hb
      obtain ⟨m, hm⟩ := List.mem_iff_get?.1 ha
      have hmlt : m < idx := by
        rcases List.get?_eq_some.1 hm with ⟨hmlen, _⟩
        have := t.entries.length_take idx
        omega
      rw [List.get?_take hmlt] at hm
      obtain ⟨_, _, halt⟩ := hlo m hmlt
      rcases List.mem_cons.1 hb with hb | hb
      · subst hb
        obtain ⟨p, hp, hplt⟩ := hlo m hmlt
        have : p = a := Option.some.inj (hp.symm.trans hm)
        subst this
        exact hplt
      · obtain ⟨n, hn⟩ := List.mem_iff_get?.1 hb
        rw [List.get?_drop] at hn
        exact sorted_get?_rel hs (show m < idx + n by omega) hm hn

theorem buildTable_sorted {V : Type} (l : List (Oid × V)) :
    entriesSorted (buildTable l).entries := by
  rw [buildTable]
  suffices h : ∀ (t : OidTable V), entriesSorted t.entries →
      entriesSorted (l.foldl (fun t p => t.insert p.1 p.2) t).entries from
    h ⟨[]⟩ List.Pairwise.nil
  induction l with
  | nil => intro t ht; exact ht
  | cons p rest ih =>
    intro t ht
    exact ih _ (insert_sorted t ht p.1 p.2)

theorem getNext_spec {V : Type} (t : OidTable V) (hs : entriesSorted t.entries)
    (o : Oid) :
    (∀ p, t.getNext o = some p →
      p ∈ t.entries ∧ arcsLt o.arcs p.1.arcs = true ∧
      ∀ q ∈ t.entries, arcsLt o.arcs q.1.arcs = true →
        arcsLt q.1.arcs p.1.arcs = false) ∧
    (t.getNext o = none ↔ ∀ q ∈ t.entries, arcsLt o.arcs q.1.arcs = false) := by
  have hspec := bsearch_spec t.entries.length t.entries (Nat.le_refl _) hs o
  have hsome : ∀ p, t.getNext o = some p →
      p ∈ t.entries ∧ arcsLt o.arcs p.1.arcs = true ∧
      ∀ q ∈ t.entries, arcsLt o.arcs q.1.arcs = true →
        arcsLt q.1.arcs p.1.arcs = false := by
    intro p hp
    rw [OidTable.getNext] at hp
    rcases hbs : bsearch t.entries o with idx | idx <;> rw [hbs] at hp hspec
    · -- exact match at idx: result is the successor entry
      obtain ⟨v, hv⟩ := hspec
      refine ⟨List.get?_mem hp, sorted_get?_rel hs (Nat.lt_succ_self idx) hv hp, ?_⟩
      intro q hq hoq
      obtain ⟨j, hj⟩ := List.mem_iff_get?.1 hq
      by_cases hjle : j ≤ idx
      · exfalso
        by_cases hje : j = idx
        · subst hje
          have : (o, v) = q := Option.some.inj (hv.symm.trans hj)
          rw [← this] at hoq
          exact absurd hoq (by simp [arcsLt_irrefl])
        · have := sorted_get?_rel hs (show j < idx by omega) hj hv
          exact absurd hoq (by simp [arcsLt_asymm this])
      · by_cases hje : j = idx + 1
        · subst hje
          have : p = q := Option.some.inj (hp.symm.trans hj)
          rw [← this]
          exact arcsLt_irrefl _
        · have := sorted_get?_rel hs (show idx + 1 < j by omega) hp hj
          exact arcsLt_asymm this
    · -- no exact match: result is the entry at the insertion point
      obtain ⟨hlo, hhi⟩ := hspec
      refine ⟨List.get?_mem hp, hhi idx (Nat.le_refl idx) p hp, ?_⟩
      intro q hq hoq
      obtain ⟨j, hj⟩ := List.mem_iff_get?.1 hq
      by_cases hjlt : j < idx
      · exfalso
        obtain ⟨r, hr, hrlt⟩ := hlo j hjlt
        have : r = q := Option.some.inj (hr.symm.trans hj)
        rw [this] at hrlt
        exact absurd hoq (by simp [arcsLt_asymm hrlt])
      · by_cases hje : j = idx
        · subst hje
          have : p = q := Option.some.inj (hp.symm.trans hj)
          rw [← this]
          exact arcsLt_irrefl _
        · have := sorted_get?_rel hs (show idx < j by omega) hp hj
          exact arcsLt_asymm this
  refine ⟨hsome, ?_, ?_⟩
  · intro hnone q hq
    cases hoq : arcsLt o.arcs q.1.arcs
    · rfl
    exfalso
    rw [OidTable.getNext] at hnone
    rcases hbs : bsearch t.entries o with idx | idx <;> rw [hbs] at hnone hspec
    · obtain ⟨v, hv⟩ := hspec
      have hnone' : t.entries.get? (idx + 1) = none := hnone
      have hlen : t.entries.length ≤ idx + 1 := by
        by_contra hgt
        rw [List.get?_eq_get (show idx + 1 < t.entries.length by omega)] at hnone'
        cases hnone'
      obtain ⟨j, hj⟩ := List.mem_iff_get?.1 hq
      rcases List.get?_eq_some.1 hj with ⟨hjlen, _⟩
      by_cases hje : j = idx
      · subst hje
        have : (o, v) = q := Option.some.inj (hv.symm.trans hj)
        rw [← this] at hoq
        rw [arcsLt_irrefl] at hoq
        cases hoq
      · have := sorted_get?_rel hs (show j < idx by omega) hj hv
        rw [arcsLt_asymm this] at hoq
        cases hoq
    · obtain ⟨hlo, _⟩ := hspec
      have hnone' : t.entries.get? idx = none := hnone
      have hlen : t.entries.length ≤ idx := by
        by_contra hgt
        rw [List.get?_eq_get (show idx < t.entries.length by omega)] at hnone'
        cases hnone'
      obtain ⟨j, hj⟩ := List.mem_iff_get?.1 hq
      rcases List.get?_eq_some.1 hj with ⟨hjlen, _⟩
      obtain ⟨r, hr, hrlt⟩ := hlo j (by omega)
      have : r = q := Option.some.inj (hr.symm.trans hj)
      rw [this] at hrlt
      rw [arcsLt_asymm hrlt] at hoq
      cases hoq
  · intro hall
    rcases hres : t.getNext o with _ | p
    · rfl
    · obtain ⟨hmem, hoq, _⟩ := hsome p hres
      rw [hall p hmem] at hoq
      cases hoq

/-- C9: For every `OidTable` built by `insert` (which keeps the entry vector
sorted by OID — strict sortedness also rules out duplicate OIDs) and every
query OID `o`, `get_next o` returns `some` of an entry of the table whose OID
is strictly greater than `o` and minimal among all entries strictly greater
than `o`, and returns `none` iff no entry's OID is strictly greater than `o`.
In particular a query equal to an existing entry's OID yields that entry's
successor, never the entry itself (its own OID is not strictly greater). -/
theorem C9_oid_table_get_next {V : Type} (l : List (Oid × V)) (o : Oid) :
    entriesSorted (buildTable l).entries ∧
    (∀ p, (buildTable l).getNext o = some p →
      p ∈ (buildTable l).entries ∧ arcsLt o.arcs p.1.arcs = true ∧
      ∀ q ∈ (buildTable l).entries, arcsLt o.arcs q.1.arcs = true →
        arcsLt q.1.arcs p.1.arcs = false) ∧
    ((buildTable l).getNext o = none ↔
      ∀ q ∈ (buildTable l).entries, arcsLt o.arcs q.1.arcs = false) := by
  have hs := buildTable_sorted l
  have := getNext_spec (buildTable l) hs o
  exact ⟨hs, this.1, this.2⟩

/-! ### Shared UDP transport receive loop (`src/transport/shared.rs`)

`SharedUdpTransport::start_recv_loop(inner: Arc<SharedUdpTransportInner>)`
moves a strong `Arc` into a spawned task running `loop { ... }`.  The loop
body matches on `recv_from` (`Ok`: optionally extract a request id, remove it
from the pending map and forward the packet; `Err`: log only), then retains
the pending entries whose deadline has not passed, and iterates again.  No
branch of the body contains `break` or `return`, the task never downgrades or
drops its `Arc`, and no other code aborts the task.  The embedding gives the
loop body an explicit loop-control result so that the control flow of every
source branch is visible. -/

/-- Loop control of one iteration of the receive loop: `cont` re-enters the
`loop`, `exit` would leave it (no source branch produces it). -/
inductive LoopControl where
  | cont : LoopControl
  | exit : LoopControl
deriving DecidableEq

/-- A `PendingRequest` entry: target address and deadline (`Instant` as
`Nat`); the oneshot sender is not modelled (its result is ignored by the
loop). -/
structure PendingReq where
  target : Nat
  deadline : Nat
deriving DecidableEq

/-- State visible to the receive loop: whether the task still holds its own
strong `Arc<SharedUdpTransportInner>` (set when `start_recv_loop` moves
`inner` into the spawned task), whether the UDP socket is still owned by the
inner (it lives exactly as long as some strong reference does), the count of
strong references held OUTSIDE the task (the `SharedUdpTransport` plus every
cloned `SharedUdpHandle`), and the pending-request map keyed by request id. -/
structure RecvLoopState where
  taskArcStrong : Bool
  socketHeld : Bool
  externalStrongRefs : Nat
  pending : List (Int × PendingReq)
deriving DecidableEq

/-- One `recv_from` outcome consumed by an iteration: `ok` carries the
request id extracted by `extract_request_id` (`none` when malformed) — the
payload bytes themselves do not influence control flow — and `err` is a
socket error (logged, loop continues). -/
inductive RecvEvent where
  | ok : Option Int → RecvEvent
  | err : RecvEvent
deriving DecidableEq

/-- One iteration of the loop body of `start_recv_loop`, faithful to every
branch: on `Ok`, if a request id is extracted it is removed from `pending`
(the packet is sent to the waiter, result ignored); on a missing id or on
`Err` only logging happens; finally expired pending entries are dropped
(`retain(|_, p| p.deadline > now)`).  Every branch falls through to the next
iteration: the returned control is always `cont`. -/
def recvLoopBody (s : RecvLoopState) (e : RecvEvent) (now : Nat) :
    RecvLoopState × LoopControl :=
  let s1 :=
    match e with
    | RecvEvent.ok (some id) =>
      { s with pending := s.pending.filter (fun kv => !(kv.1 == id)) }
    | RecvEvent.ok none => s
    | RecvEvent.err => s
  ({ s1 with pending := s1.pending.filter (fun kv => decide (now < kv.2.deadline)) },
   LoopControl.cont)

/-- Run the receive loop over a finite prefix of `recv_from` outcomes.  The
second component is `true` while the task is still running (waiting for the
next packet); it becomes `false` only if some iteration returns
`LoopControl.exit`. -/
def recvLoopRun (s : RecvLoopState) : List (RecvEvent × Nat) → RecvLoopState × Bool
  | [] => (s, true)
  | (e, now) :: rest =>
    match recvLoopBody s e now with
    | (s', LoopControl.cont) => recvLoopRun s' rest
    | (s', LoopControl.exit) => (s', false)

/-- The state at the failing input: the spawned task holds its strong `Arc`,
the socket is alive, and the `SharedUdpTransport` and every `SharedUdpHandle`
have been dropped (zero external strong references remain). -/
def allHandlesDroppedState : RecvLoopState :=
  { taskArcStrong := true
    socketHeld := true
    externalStrongRefs := 0
    pending := [] }

theorem recvLoopRun_never_stops (events : List (RecvEvent × Nat)) :
    ∀ s : RecvLoopState,
      (recvLoopRun s events).2 = true ∧
      (recvLoopRun s events).1.taskArcStrong = s.taskArcStrong ∧
      (recvLoopRun s events).1.socketHeld = s.socketHeld := by
  induction events with
  | nil => intro s; exact ⟨rfl, rfl, rfl⟩
  | cons p rest ih =>
    intro s
    obtain ⟨e, now⟩ := p
    have hbody : recvLoopBody s e now =
        ((recvLoopBody s e now).1, LoopControl.cont) := by
      rcases e with rid | _
      · rcases rid with _ | id <;> rfl
      · rfl
    have hrun : recvLoopRun s ((e, now) :: rest) =
        recvLoopRun (recvLoopBody s e now).1 rest := by
      rw [recvLoopRun]
      rw [hbody]
    have hpres : (recvLoopBody s e now).1.taskArcStrong = s.taskArcStrong ∧
        (recvLoopBody s e now).1.socketHeld = s.socketHeld := by
      rcases e with rid | _
      · rcases rid with _ | id <;> exact ⟨rfl, rfl⟩
      · exact ⟨rfl, rfl⟩
    obtain ⟨h1, h2, h3⟩ := ih (recvLoopBody s e now).1
    rw [hrun]
    exact ⟨h1, h2.trans hpres.1, h3.trans hpres.2⟩

/-- C8 (code bug): the claim — and the struct documentation of
`SharedUdpTransport` ("The task terminates when all references are dropped")
— says the background receive loop terminates once the transport and every
handle are dropped.  In the code the spawned task owns its own strong
`Arc<SharedUdpTransportInner>` and no branch of the loop body breaks or
returns, so even from the state in which all external references are gone
(`allHandlesDroppedState`) the loop is still running after any finite
sequence of socket events, still holds its strong reference, and the socket
is still held. -/
theorem C8_recv_loop_does_not_terminate :
    ∀ events : List (RecvEvent × Nat),
      allHandlesDroppedState.externalStrongRefs = 0 ∧
      (recvLoopRun allHandlesDroppedState events).2 = true ∧
      (recvLoopRun allHandlesDroppedState events).1.taskArcStrong = true ∧
      (recvLoopRun allHandlesDroppedState events).1.socketHeld = true := by
  intro events
  obtain ⟨h1, h2, h3⟩ := recvLoopRun_never_stops events allHandlesDroppedState
  exact ⟨rfl, h1, h2, h3⟩

/-! ### BER integer encodings (`src/ber/encode.rs`)

`encode_integer_stack`, `encode_unsigned32_stack` and `encode_integer64_stack`
return the big-endian bytes of the value with redundant leading bytes
stripped.  Bytes are `Nat`s below 256; `i32` is an `Int` in
`[-2^31, 2^31)` whose two's-complement bytes are those of `v mod 2^32`. -/

/-- Big-endian value of a byte list (`u8` digits, most significant first). -/
def fromBytesBE (l : List Nat) : Nat :=
  l.foldl (fun a b => a * 256 + b) 0

/-- Two's-complement value of a nonempty byte list: the big-endian value,
minus `256 ^ length` when the top bit of the first byte is set. -/
def twosValue (l : List Nat) : Int :=
  if 128 ≤ l.headD 0 then (fromBytesBE l : Int) - (256 : Int) ^ l.length
  else (fromBytesBE l : Int)

/-- The four big-endian bytes of `u < 2^32` (`u32::to_be_bytes`). -/
def beBytes32 (u : Nat) : List Nat :=
  [u / 2 ^ 24 % 256, u / 2 ^ 16 % 256, u / 2 ^ 8 % 256, u % 256]

/-- The eight big-endian bytes of `u < 2^64` (`u64::to_be_bytes`). -/
def beBytes64 (u : Nat) : List Nat :=
  [u / 2 ^ 56 % 256, u / 2 ^ 48 % 256, u / 2 ^ 40 % 256, u / 2 ^ 32 % 256,
   u / 2 ^ 24 % 256, u / 2 ^ 16 % 256, u / 2 ^ 8 % 256, u % 256]

/-- The `value >= 0` strip loop of `encode_integer_stack`: drop a leading
`0x00` while the following byte has its top bit clear (`start < 3` keeps at
least one byte). -/
def stripPos : List Nat → List Nat
  | b0 :: b1 :: rest =>
    if b0 = 0 ∧ b1 < 128 then stripPos (b1 :: rest) else b0 :: b1 :: rest
  | l => l

/-- The `value < 0` strip loop of `encode_integer_stack`: drop a leading
`0xFF` while the following byte has its top bit set. -/
def stripNeg : List Nat → List Nat
  | b0 :: b1 :: rest =>
    if b0 = 255 ∧ 128 ≤ b1 then stripNeg (b1 :: rest) else b0 :: b1 :: rest
  | l => l

/-- The leading-zero strip loop shared by `encode_unsigned32_stack` and
`encode_integer64_stack` (never strips the last byte). -/
def stripZeros : List Nat → List Nat
  | 0 :: b :: rest => stripZeros (b :: rest)
  | l => l

/-- Embedding of `encode_integer_stack(value: i32)`: the kept suffix
`bytes[start..]` of the valid bytes. -/
def encode_integer_bytes (v : Int) : List Nat :=
  if 0 ≤ v then stripPos (beBytes32 ((v % 2 ^ 32).toNat))
  else stripNeg (beBytes32 ((v % 2 ^ 32).toNat))

/-- Embedding of `encode_unsigned32_stack(value: u32)`: `[0]` for zero, else
the leading zeros are stripped and a single `0x00` is prepended when the
first significant byte has its top bit set. -/
def encode_unsigned32_bytes (u : Nat) : List Nat :=
  if u = 0 then [0]
  else if 128 ≤ (stripZeros (beBytes32 u)).headD 0 then
    0 :: stripZeros (beBytes32 u)
  else stripZeros (beBytes32 u)

/-- Embedding of `encode_integer64_stack(value: u64)`: as
`encode_unsigned32_stack` with eight bytes. -/
def encode_integer64_bytes (u : Nat) : List Nat :=
  if u = 0 then [0]
  else if 128 ≤ (stripZeros (beBytes64 u)).headD 0 then
    0 :: stripZeros (beBytes64 u)
  else stripZeros (beBytes64 u)

/-- A two's-complement byte string with no redundant leading sign byte: it
does not start with `0x00` followed by a clear top bit, nor with `0xFF`
followed by a set top bit. -/
def nonRedundant (l : List Nat) : Prop :=
  ∀ b0 b1 rest, l = b0 :: b1 :: rest →
    ¬(b0 = 0 ∧ b1 < 128) ∧ ¬(b0 = 255 ∧ 128 ≤ b1)

theorem fromBytesBE_foldl (l : List Nat) (a : Nat) :
    l.foldl (fun a b => a * 256 + b) a =
      a * 256 ^ l.length + l.foldl (fun a b => a * 256 + b) 0 := by
  induction l generalizing a with
  | nil => simp
  | cons c t ih =>
    simp only [List.foldl_cons, List.length_cons]
    rw [ih (a * 256 + c), ih (0 * 256 + c), pow_succ]
    ring

theorem fromBytesBE_cons (b : Nat) (l : List Nat) :
    fromBytesBE (b :: l) = b * 256 ^ l.length + fromBytesBE l := by
  simp only [fromBytesBE, List.foldl_cons]
  rw [fromBytesBE_foldl l (0 * 256 + b)]
  ring_nf

theorem fromBytesBE_lt {l : List Nat} (hb : ∀ b ∈ l, b < 256) :
    fromBytesBE l < 256 ^ l.length := by
  induction l with
  | nil => simp [fromBytesBE]
  | cons b t ih =>
    rw [fromBytesBE_cons, List.length_cons]
    have hbb : b < 256 := hb b (List.mem_cons_self _ _)
    have hf : fromBytesBE t < 256 ^ t.length :=
      ih (fun x hx => hb x (List.mem_cons_of_mem _ hx))
    calc b * 256 ^ t.length + fromBytesBE t
        < (b + 1) * 256 ^ t.length := by
          have := fromBytesBE t
          nlinarith [hf]
      _ ≤ 256 * 256 ^ t.length := Nat.mul_le_mul_right _ (by omega)
      _ = 256 ^ (t.length + 1) := by rw [pow_succ]; ring

theorem twosValue_cons (b : Nat) (l : List Nat) :
    twosValue (b :: l) =
      (if 128 ≤ b then (b : Int) - 256 else (b : Int)) * 256 ^ l.length +
        (fromBytesBE l : Int) := by
  rw [twosValue]
  simp only [List.headD_cons, List.length_cons, fromBytesBE_cons]
  split
  · push_cast
    rw [pow_succ]
    ring
  · push_cast
    ring

theorem twosValue_range {b : Nat} {l : List Nat} (hb : b < 256)
    (hl : ∀ x ∈ l, x < 256) :
    -(128 * (256 : Int) ^ l.length) ≤ twosValue (b :: l) ∧
      twosValue (b :: l) < 128 * (256 : Int) ^ l.length := by
  have hf : (fromBytesBE l : Int) < (256 : Int) ^ l.length := by
    exact_mod_cast fromBytesBE_lt hl
  have hf0 : (0 : Int) ≤ (fromBytesBE l : Int) := Int.ofNat_nonneg _
  have hp : (0 : Int) < (256 : Int) ^ l.length := pow_pos (by norm_num) _
  have hbz : (b : Int) < 256 := by exact_mod_cast hb
  rw [twosValue_cons]
  split
  · rename_i h
    have hbz' : (128 : Int) ≤ (b : Int) := by exact_mod_cast h
    constructor <;> nlinarith
  · rename_i h
    have hbz' : (b : Int) < 128 := by
      have : ¬(128 ≤ b) := h
      omega
    have hb0 : (0 : Int) ≤ (b : Int) := Int.ofNat_nonneg _
    constructor <;> nlinarith

theorem twosValue_neg_of_head {b : Nat} {l : List Nat} (hset : 128 ≤ b)
    (hb : b < 256) (hl : ∀ x ∈ l, x < 256) :
    twosValue (b :: l) < 0 := by
  have hf : (fromBytesBE l : Int) < (256 : Int) ^ l.length := by
    exact_mod_cast fromBytesBE_lt hl
  have hp : (0 : Int) < (256 : Int) ^ l.length := pow_pos (by norm_num) _
  have hbz : (b : Int) < 256 := by exact_mod_cast hb
  have hbz' : (128 : Int) ≤ (b : Int) := by exact_mod_cast hset
  rw [twosValue_cons, if_pos hset]
  nlinarith

theorem twosValue_nonneg_of_head {b : Nat} {l : List Nat} (hclear : b < 128) :
    0 ≤ twosValue (b :: l) := by
  have hf0 : (0 : Int) ≤ (fromBytesBE l : Int) := Int.ofNat_nonneg _
  have hp : (0 : Int) ≤ (256 : Int) ^ l.length := pow_nonneg (by norm_num) _
  have hb0 : (0 : Int) ≤ (b : Int) := Int.ofNat_nonneg _
  rw [twosValue_cons, if_neg (by omega)]
  nlinarith

theorem stripPos_twosValue {l : List Nat} (hb : ∀ b ∈ l, b < 256) :
    twosValue (stripPos l) = twosValue l := by
  induction l with
  | nil => rfl
  | cons b0 t ih =>
    cases t with
    | nil => rfl
    | cons b1 rest =>
      rw [stripPos]
      split
      · rename_i h
        obtain ⟨h0, h1⟩ := h
        subst h0
        rw [ih (fun x hx => hb x (List.mem_cons_of_mem _ hx))]
        rw [twosValue_cons, twosValue_cons, if_neg (by omega), if_neg (by omega),
          fromBytesBE_cons]
        push_cast
        ring
      · rfl

theorem stripNeg_twosValue {l : List Nat} (hb : ∀ b ∈ l, b < 256) :
    twosValue (stripNeg l) = twosValue l := by
  induction l with
  | nil => rfl
  | cons b0 t ih =>
    cases t with
    | nil => rfl
    | cons b1 rest =>
      rw [stripNeg]
      split
      · rename_i h
        obtain ⟨h0, h1⟩ := h
        subst h0
        rw [ih (fun x hx => hb x (List.mem_cons_of_mem _ hx))]
        rw [twosValue_cons, twosValue_cons, if_pos h1, if_pos (by omega),
          fromBytesBE_cons, List.length_cons]
        push_cast
        rw [pow_succ]
        ring
      · rfl

theorem stripPos_subset {l : List Nat} : ∀ b ∈ stripPos l, b ∈ l := by
  induction l with
  | nil => intro b hbm; exact hbm
  | cons b0 t ih =>
    cases t with
    | nil => intro b hbm; exact hbm
    | cons b1 rest =>
      rw [stripPos]
      split
      · intro b hbm
        exact List.mem_cons_of_mem _ (ih b hbm)
      · intro b hbm; exact hbm

theorem stripNeg_subset {l : List Nat} : ∀ b ∈ stripNeg l, b ∈ l := by
  induction l with
  | nil => intro b hbm; exact hbm
  | cons b0 t ih =>
    cases t with
    | nil => intro b hbm; exact hbm
    | cons b1 rest =>
      rw [stripNeg]
      split
      · intro b hbm
        exact List.mem_cons_of_mem _ (ih b hbm)
      · intro b hbm; exact hbm

theorem stripZeros_single (b0 : Nat) : stripZeros [b0] = [b0] := by
  rw [stripZeros.eq_def]
  split
  · rename_i hc
    exact absurd hc (by simp)
  · rfl

theorem stripZeros_cons_pos {b0 b1 : Nat} (rest : List Nat) (h : b0 ≠ 0) :
    stripZeros (b0 :: b1 :: rest) = b0 :: b1 :: rest := by
  rw [stripZeros.eq_def]
  split
  · rename_i hc
    injection hc with h1 _
    exact absurd h1 h
  · rfl

theorem stripZeros_cons_zero (b1 : Nat) (rest : List Nat) :
    stripZeros (0 :: b1 :: rest) = stripZeros (b1 :: rest) := by
  rw [stripZeros]

theorem stripZeros_subset {l : List Nat} : ∀ b ∈ stripZeros l, b ∈ l := by
  induction l with
  | nil => intro b hbm; exact hbm
  | cons b0 t ih =>
    cases t with
    | nil =>
      rw [stripZeros_single]
      intro b hbm; exact hbm
    | cons b1 rest =>
      rcases Nat.eq_zero_or_pos b0 with h0 | h0
      · subst h0
        rw [stripZeros_cons_zero]
        intro b hbm
        exact List.mem_cons_of_mem _ (ih b hbm)
      · rw [stripZeros_cons_pos rest (by omega)]
        intro b hbm; exact hbm

theorem stripPos_ne_nil {l : List Nat} (h : l ≠ []) : stripPos l ≠ [] := by
  induction l with
  | nil => exact absurd rfl h
  | cons b0 t ih =>
    cases t with
    | nil => exact fun hc => List.noConfusion hc
    | cons b1 rest =>
      rw [stripPos]
      split
      · exact ih (fun hc => List.noConfusion hc)
      · exact fun hc => List.noConfusion hc

theorem stripNeg_ne_nil {l : List Nat} (h : l ≠ []) : stripNeg l ≠ [] := by
  induction l with
  | nil => exact absurd rfl h
  | cons b0 t ih =>
    cases t with
    | nil => exact fun hc => List.noConfusion hc
    | cons b1 rest =>
      rw [stripNeg]
      split
      · exact ih (fun hc => List.noConfusion hc)
      · exact fun hc => List.noConfusion hc

theorem stripZeros_ne_nil {l : List Nat} (h : l ≠ []) : stripZeros l ≠ [] := by
  induction l with
  | nil => exact absurd rfl h
  | cons b0 t ih =>
    cases t with
    | nil =>
      rw [stripZeros_single]
      exact fun hc => List.noConfusion hc
    | cons b1 rest =>
      rcases Nat.eq_zero_or_pos b0 with h0 | h0
      · subst h0
        rw [stripZeros_cons_zero]
        exact ih (fun hc => List.noConfusion hc)
      · rw [stripZeros_cons_pos rest (by omega)]
        exact fun hc => List.noConfusion hc

theorem stripPos_stop {l : List Nat} :
    ∀ b0 b1 rest, stripPos l = b0 :: b1 :: rest → ¬(b0 = 0 ∧ b1 < 128) := by
  induction l with
  | nil => intro b0 b1 rest h; cases h
  | cons c0 t ih =>
    cases t with
    | nil =>
      intro b0 b1 rest h
      have h' : [c0] = b0 :: b1 :: rest := h
      injection h' with _ h2
      cases h2
    | cons c1 rest' =>
      intro b0 b1 rest h
      rw [stripPos] at h
      split at h
      · exact ih b0 b1 rest h
      · rename_i hcond
        injection h with h0 h'
        injection h' with h1 _
        subst h0
        subst h1
        exact hcond

theorem stripNeg_stop {l : List Nat} :
    ∀ b0 b1 rest, stripNeg l = b0 :: b1 :: rest → ¬(b0 = 255 ∧ 128 ≤ b1) := by
  induction l with
  | nil => intro b0 b1 rest h; cases h
  | cons c0 t ih =>
    cases t with
    | nil =>
      intro b0 b1 rest h
      have h' : [c0] = b0 :: b1 :: rest := h
      injection h' with _ h2
      cases h2
    | cons c1 rest' =>
      intro b0 b1 rest h
      rw [stripNeg] at h
      split at h
      · exact ih b0 b1 rest h
      · rename_i hcond
        injection h with h0 h'
        injection h' with h1 _
        subst h0
        subst h1
        exact hcond

theorem stripZeros_fromBytes {l : List Nat} :
    fromBytesBE (stripZeros l) = fromBytesBE l := by
  induction l with
  | nil => rfl
  | cons b0 t ih =>
    cases t with
    | nil => rw [stripZeros_single]
    | cons b1 rest =>
      rcases Nat.eq_zero_or_pos b0 with h0 | h0
      · subst h0
        rw [stripZeros_cons_zero, ih, fromBytesBE_cons 0 (b1 :: rest)]
        simp
      · rw [stripZeros_cons_pos rest (by omega)]

theorem stripZeros_stop {l : List Nat} :
    ∀ b0 b1 rest, stripZeros l = b0 :: b1 :: rest → b0 ≠ 0 := by
  induction l with
  | nil => intro b0 b1 rest h; cases h
  | cons c0 t ih =>
    cases t with
    | nil =>
      intro b0 b1 rest h
      rw [stripZeros_single] at h
      injection h with _ h2
      cases h2
    | cons c1 rest' =>
      intro b0 b1 rest h
      rcases Nat.eq_zero_or_pos c0 with h0 | h0
      · subst h0
        rw [stripZeros_cons_zero] at h
        exact ih b0 b1 rest h
      · rw [stripZeros_cons_pos rest' (by omega)] at h
        injection h with h0' _
        omega

theorem beBytes32_bytes (u : Nat) : ∀ b ∈ beBytes32 u, b < 256 := by
  intro b hb
  simp only [beBytes32, List.mem_cons, List.not_mem_nil, or_false] at hb
  rcases hb with h | h | h | h <;> subst h <;> omega

theorem beBytes64_bytes (u : Nat) : ∀ b ∈ beBytes64 u, b < 256 := by
  intro b hb
  simp only [beBytes64, List.mem_cons, List.not_mem_nil, or_false] at hb
  rcases hb with h | h | h | h | h | h | h | h <;> subst h <;> omega

theorem beBytes32_fromBytes {u : Nat} (hu : u < 2 ^ 32) :
    fromBytesBE (beBytes32 u) = u := by
  show (((0 * 256 + u / 2 ^ 24 % 256) * 256 + u / 2 ^ 16 % 256) * 256 +
      u / 2 ^ 8 % 256) * 256 + u % 256 = u
  omega

theorem beBytes64_fromBytes {u : Nat} (hu : u < 2 ^ 64) :
    fromBytesBE (beBytes64 u) = u := by
  show (((((((0 * 256 + u / 2 ^ 56 % 256) * 256 + u / 2 ^ 48 % 256) * 256 +
      u / 2 ^ 40 % 256) * 256 + u / 2 ^ 32 % 256) * 256 + u / 2 ^ 24 % 256) *
      256 + u / 2 ^ 16 % 256) * 256 + u / 2 ^ 8 % 256) * 256 + u % 256 = u
  omega

theorem nonRedundant_sharp {b0 b1 : Nat} {rest : List Nat}
    (hb : ∀ x ∈ b0 :: b1 :: rest, x < 256)
    (hnr1 : ¬(b0 = 0 ∧ b1 < 128)) (hnr2 : ¬(b0 = 255 ∧ 128 ≤ b1)) :
    twosValue (b0 :: b1 :: rest) < -(128 * (256 : Int) ^ rest.length) ∨
      128 * (256 : Int) ^ rest.length ≤ twosValue (b0 :: b1 :: rest) := by
  have hb0 : b0 < 256 := hb b0 (List.mem_cons_self _ _)
  have hb1 : b1 < 256 := hb b1 (List.mem_cons_of_mem _ (List.mem_cons_self _ _))
  have hrest : ∀ x ∈ rest, x < 256 := fun x hx =>
    hb x (List.mem_cons_of_mem _ (List.mem_cons_of_mem _ hx))
  have hf : (fromBytesBE rest : Int) < (256 : Int) ^ rest.length := by
    exact_mod_cast fromBytesBE_lt hrest
  have hf0 : (0 : Int) ≤ (fromBytesBE rest : Int) := Int.ofNat_nonneg _
  have hp : (0 : Int) < (256 : Int) ^ rest.length := pow_pos (by norm_num) _
  have hval : twosValue (b0 :: b1 :: rest) =
      (if 128 ≤ b0 then (b0 : Int) - 256 else (b0 : Int)) *
        ((256 : Int) ^ rest.length * 256) +
      ((b1 : Int) * (256 : Int) ^ rest.length + (fromBytesBE rest : Int)) := by
    rw [twosValue_cons, fromBytesBE_cons, List.length_cons, pow_succ]
    push_cast
    ring
  by_cases hs : 128 ≤ b0
  · rw [hval, if_pos hs]
    left
    by_cases h255 : b0 = 255
    · have hb1' : b1 < 128 := by
        rcases Nat.lt_or_ge b1 128 with h | h
        · exact h
        · exact absurd ⟨h255, h⟩ hnr2
      have hb1'' : (b1 : Int) < 128 := by exact_mod_cast hb1'
      have hz : (b0 : Int) = 255 := by exact_mod_cast h255
      rw [hz]
      nlinarith
    · have hle : (b0 : Int) ≤ 254 := by
        have : b0 ≤ 254 := by omega
        exact_mod_cast this
      have hb1'' : (b1 : Int) < 256 := by exact_mod_cast hb1
      nlinarith
  · rw [hval, if_neg hs]
    right
    by_cases h0 : b0 = 0
    · have hb1' : 128 ≤ b1 := by
        rcases Nat.lt_or_ge b1 128 with h | h
        · exact absurd ⟨h0, h⟩ hnr1
        · exact h
      have hb1'' : (128 : Int) ≤ (b1 : Int) := by exact_mod_cast hb1'
      have hz : (b0 : Int) = 0 := by exact_mod_cast h0
      rw [hz]
      nlinarith
    · have h1 : (1 : Int) ≤ (b0 : Int) := by
        have : 1 ≤ b0 := Nat.pos_of_ne_zero h0
        exact_mod_cast this
      nlinarith

theorem twosValue_shortest {e l : List Nat} (hbe : ∀ b ∈ e, b < 256)
    (hbl : ∀ b ∈ l, b < 256) (hene : e ≠ []) (hlne : l ≠ [])
    (hnr : nonRedundant e) (heq : twosValue l = twosValue e) :
    e.length ≤ l.length := by
  rcases e with _ | ⟨b0, t⟩
  · exact absurd rfl hene
  rcases t with _ | ⟨b1, rest⟩
  · rcases l with _ | ⟨c, s⟩
    · exact absurd rfl hlne
    · simp only [List.length_cons, List.length_nil]
      omega
  · by_contra hlt
    push_neg at hlt
    obtain ⟨hnr1, hnr2⟩ := hnr b0 b1 rest rfl
    have hsharp := nonRedundant_sharp hbe hnr1 hnr2
    rcases l with _ | ⟨c, s⟩
    · exact absurd rfl hlne
    have hc : c < 256 := hbl c (List.mem_cons_self _ _)
    have hrange := twosValue_range hc
      (fun x hx => hbl x (List.mem_cons_of_mem _ hx))
    have hsle : s.length ≤ rest.length := by
      simp only [List.length_cons] at hlt
      omega
    have hpow : (256 : Int) ^ s.length ≤ (256 : Int) ^ rest.length :=
      pow_le_pow_right (by norm_num) hsle
    rw [heq] at hrange
    rcases hsharp with h | h
    · have := hrange.1
      nlinarith
    · have := hrange.2
      nlinarith

theorem twosValue_beBytes32 {v : Int} (h1 : -(2 ^ 31) ≤ v) (h2 : v < 2 ^ 31) :
    twosValue (beBytes32 ((v % 2 ^ 32).toNat)) = v ∧
    (0 ≤ v → (beBytes32 ((v % 2 ^ 32).toNat)).headD 0 < 128) ∧
    (v < 0 → 128 ≤ (beBytes32 ((v % 2 ^ 32).toNat)).headD 0) := by
  have hnn : 0 ≤ v % 2 ^ 32 := Int.emod_nonneg v (by norm_num)
  have hcast : (((v % 2 ^ 32).toNat : Nat) : Int) = v % 2 ^ 32 :=
    Int.toNat_of_nonneg hnn
  have hhead : (beBytes32 ((v % 2 ^ 32).toNat)).headD 0 =
      (v % 2 ^ 32).toNat / 2 ^ 24 % 256 := rfl
  have hlen : (beBytes32 ((v % 2 ^ 32).toNat)).length = 4 := rfl
  by_cases hv : 0 ≤ v
  · have hmod : v % 2 ^ 32 = v :=
      Int.emod_eq_of_lt hv (lt_trans h2 (by norm_num))
    have hveq : (((v % 2 ^ 32).toNat : Nat) : Int) = v := by rw [hcast, hmod]
    have hult : (v % 2 ^ 32).toNat < 2 ^ 31 := by
      have : (((v % 2 ^ 32).toNat : Nat) : Int) < 2 ^ 31 := by rw [hveq]; exact h2
      exact_mod_cast this
    have hheadlt : (beBytes32 ((v % 2 ^ 32).toNat)).headD 0 < 128 := by
      rw [hhead]; omega
    refine ⟨?_, fun _ => hheadlt, fun hc => absurd hc (by omega)⟩
    rw [twosValue, if_neg (by omega), beBytes32_fromBytes (by omega), hveq]
  · push_neg at hv
    have hmod : v % 2 ^ 32 = v + 2 ^ 32 := by
      have ha : (0 : Int) ≤ v + 2 ^ 32 := by
        have : ((2 : Int) ^ 31) ≤ 2 ^ 32 := by norm_num
        linarith
      have hb : v + 2 ^ 32 < 2 ^ 32 := by linarith
      calc v % 2 ^ 32 = (v + 2 ^ 32 * 1) % 2 ^ 32 :=
            (Int.add_mul_emod_self_left v (2 ^ 32) 1).symm
        _ = (v + 2 ^ 32) % 2 ^ 32 := by ring_nf
        _ = v + 2 ^ 32 := Int.emod_eq_of_lt ha hb
    have hveq : (((v % 2 ^ 32).toNat : Nat) : Int) = v + 2 ^ 32 := by
      rw [hcast, hmod]
    have hge : 2 ^ 31 ≤ (v % 2 ^ 32).toNat := by
      have : ((2 : Int) ^ 31) ≤ (((v % 2 ^ 32).toNat : Nat) : Int) := by
        rw [hveq]
        have : ((2 : Int) ^ 32) - 2 ^ 31 = 2 ^ 31 := by norm_num
        linarith
      exact_mod_cast this
    have hlt32 : (v % 2 ^ 32).toNat < 2 ^ 32 := by
      have : (((v % 2 ^ 32).toNat : Nat) : Int) < 2 ^ 32 := by
        rw [hveq]; linarith
      exact_mod_cast this
    have hheadge : 128 ≤ (beBytes32 ((v % 2 ^ 32).toNat)).headD 0 := by
      rw [hhead]; omega
    refine ⟨?_, fun hc => absurd hc (by omega), fun _ => hheadge⟩
    rw [twosValue, if_pos hheadge, beBytes32_fromBytes hlt32, hlen, hveq]
    have : ((256 : Int) ^ 4) = 2 ^ 32 := by norm_num
    rw [this]
    ring

theorem encode_integer_correct (v : Int) (h1 : -(2 ^ 31) ≤ v) (h2 : v < 2 ^ 31) :
    twosValue (encode_integer_bytes v) = v ∧
    encode_integer_bytes v ≠ [] ∧
    (∀ b ∈ encode_integer_bytes v, b < 256) ∧
    nonRedundant (encode_integer_bytes v) := by
  obtain ⟨htv, hposh, hnegh⟩ := twosValue_beBytes32 h1 h2
  have hbytes := beBytes32_bytes ((v % 2 ^ 32).toNat)
  have hne : beBytes32 ((v % 2 ^ 32).toNat) ≠ [] :=
    fun hc => List.noConfusion hc
  by_cases hv : 0 ≤ v
  · have henc : encode_integer_bytes v =
        stripPos (beBytes32 ((v % 2 ^ 32).toNat)) := by
      rw [encode_integer_bytes, if_pos hv]
    have hsb : ∀ b ∈ stripPos (beBytes32 ((v % 2 ^ 32).toNat)), b < 256 :=
      fun b hbm => hbytes b (stripPos_subset b hbm)
    have hstv : twosValue (stripPos (beBytes32 ((v % 2 ^ 32).toNat))) = v := by
      rw [stripPos_twosValue hbytes]; exact htv
    rw [henc]
    refine ⟨hstv, stripPos_ne_nil hne, hsb, ?_⟩
    intro b0 b1 rest heq
    refine ⟨stripPos_stop b0 b1 rest heq, ?_⟩
    rintro ⟨h255, hb1⟩
    rw [heq] at hstv hsb
    have hneg := twosValue_neg_of_head (b := b0) (l := b1 :: rest)
      (by omega) (hsb b0 (List.mem_cons_self _ _))
      (fun x hx => hsb x (List.mem_cons_of_mem _ hx))
    rw [hstv] at hneg
    exact absurd hv (by omega)
  · push_neg at hv
    have henc : encode_integer_bytes v =
        stripNeg (beBytes32 ((v % 2 ^ 32).toNat)) := by
      rw [encode_integer_bytes, if_neg (by omega)]
    have hsb : ∀ b ∈ stripNeg (beBytes32 ((v % 2 ^ 32).toNat)), b < 256 :=
      fun b hbm => hbytes b (stripNeg_subset b hbm)
    have hstv : twosValue (stripNeg (beBytes32 ((v % 2 ^ 32).toNat))) = v := by
      rw [stripNeg_twosValue hbytes]; exact htv
    rw [henc]
    refine ⟨hstv, stripNeg_ne_nil hne, hsb, ?_⟩
    intro b0 b1 rest heq
    refine ⟨?_, stripNeg_stop b0 b1 rest heq⟩
    rintro ⟨h0, hb1⟩
    rw [heq] at hstv
    have hnn := twosValue_nonneg_of_head (b := b0) (l := b1 :: rest) (by omega)
    rw [hstv] at hnn
    exact absurd hnn (by omega)

theorem stripZeros_minimal {u : Nat} {bytes : List Nat}
    (hbytes : ∀ b ∈ bytes, b < 256) (hfrom : fromBytesBE bytes = u)
    (hne : bytes ≠ []) (hu0 : u ≠ 0) :
    stripZeros bytes ≠ [] ∧ (stripZeros bytes).headD 0 ≠ 0 ∧
    fromBytesBE (stripZeros bytes) = u ∧
    (∀ b ∈ stripZeros bytes, b < 256) ∧
    (∀ l : List Nat, (∀ b ∈ l, b < 256) → fromBytesBE l = u →
      (stripZeros bytes).length ≤ l.length) := by
  have hsne := stripZeros_ne_nil hne
  have hsfrom : fromBytesBE (stripZeros bytes) = u := by
    rw [stripZeros_fromBytes]; exact hfrom
  have hsb : ∀ b ∈ stripZeros bytes, b < 256 :=
    fun b hbm => hbytes b (stripZeros_subset b hbm)
  have hhead : (stripZeros bytes).headD 0 ≠ 0 := by
    rcases hs : stripZeros bytes with _ | ⟨h, t⟩
    · exact absurd hs hsne
    · rcases t with _ | ⟨b1, rest⟩
      · rw [hs] at hsfrom
        have : h = u := by
          simpa [fromBytesBE] using hsfrom
        simpa using this ▸ hu0
      · have := stripZeros_stop h b1 rest hs
        simpa using this
  refine ⟨hsne, hhead, hsfrom, hsb, ?_⟩
  intro l hbl hfl
  rcases hs : stripZeros bytes with _ | ⟨h, t⟩
  · exact absurd hs hsne
  have hh1 : 1 ≤ h := by
    rw [hs] at hhead
    simp only [List.headD_cons] at hhead
    omega
  have hlow : 256 ^ t.length ≤ u := by
    rw [hs, fromBytesBE_cons] at hsfrom
    calc 256 ^ t.length = 1 * 256 ^ t.length := (one_mul _).symm
      _ ≤ h * 256 ^ t.length := Nat.mul_le_mul_right _ hh1
      _ ≤ h * 256 ^ t.length + fromBytesBE t := Nat.le_add_right _ _
      _ = u := hsfrom
  have hup : u < 256 ^ l.length := hfl ▸ fromBytesBE_lt hbl
  have hlen : t.length < l.length := by
    by_contra hcon
    push_neg at hcon
    have : (256 : Nat) ^ l.length ≤ 256 ^ t.length :=
      Nat.pow_le_pow_right (by omega) hcon
    omega
  simp only [List.length_cons]
  omega

theorem encode_unsigned32_correct (u : Nat) (hu : u < 2 ^ 32) :
    fromBytesBE (encode_unsigned32_bytes u) = u ∧
    twosValue (encode_unsigned32_bytes u) = (u : Int) ∧
    (encode_unsigned32_bytes u).headD 0 < 128 ∧
    (∀ b ∈ encode_unsigned32_bytes u, b < 256) ∧
    (u = 0 → encode_unsigned32_bytes u = [0]) ∧
    (u ≠ 0 → ∃ s : List Nat, s ≠ [] ∧ s.headD 0 ≠ 0 ∧ fromBytesBE s = u ∧
      (∀ l : List Nat, (∀ b ∈ l, b < 256) → fromBytesBE l = u →
        s.length ≤ l.length) ∧
      encode_unsigned32_bytes u = if 128 ≤ s.headD 0 then 0 :: s else s) := by
  by_cases hu0 : u = 0
  · subst hu0
    refine ⟨rfl, rfl, by decide, ?_, fun _ => rfl, fun hc => absurd rfl hc⟩
    intro b hbm
    rw [show encode_unsigned32_bytes 0 = [0] from rfl] at hbm
    simp only [List.mem_singleton] at hbm
    omega
  · obtain ⟨hsne, hshead, hsfrom, hsb, hmin⟩ :=
      stripZeros_minimal (beBytes32_bytes u) (beBytes32_fromBytes hu)
        (fun hc => List.noConfusion hc) hu0
    have henc : encode_unsigned32_bytes u =
        if 128 ≤ (stripZeros (beBytes32 u)).headD 0 then
          0 :: stripZeros (beBytes32 u)
        else stripZeros (beBytes32 u) := by
      rw [encode_unsigned32_bytes, if_neg hu0]
    have hfromenc : fromBytesBE (encode_unsigned32_bytes u) = u := by
      rw [henc]
      split
      · rw [fromBytesBE_cons, hsfrom]
        ring_nf
      · exact hsfrom
    have hheadenc : (encode_unsigned32_bytes u).headD 0 < 128 := by
      rw [henc]
      split
      · simp
      · rename_i hcond
        rcases hs : stripZeros (beBytes32 u) with _ | ⟨h, t⟩
        · exact absurd hs hsne
        · rw [hs] at hcond
          simp only [List.headD_cons] at hcond ⊢
          omega
    have hbenc : ∀ b ∈ encode_unsigned32_bytes u, b < 256 := by
      rw [henc]
      split
      · intro b hbm
        rcases List.mem_cons.1 hbm with h | h
        · omega
        · exact hsb b h
      · exact hsb
    refine ⟨hfromenc, ?_, hheadenc, hbenc, fun hc => absurd hc hu0,
      fun _ => ⟨stripZeros (beBytes32 u), hsne, hshead, hsfrom, hmin, henc⟩⟩
    rw [twosValue, if_neg (by omega), hfromenc]

theorem encode_integer64_correct (u : Nat) (hu : u < 2 ^ 64) :
    fromBytesBE (encode_integer64_bytes u) = u ∧
    twosValue (encode_integer64_bytes u) = (u : Int) ∧
    (encode_integer64_bytes u).headD 0 < 128 ∧
    (∀ b ∈ encode_integer64_bytes u, b < 256) ∧
    (u = 0 → encode_integer64_bytes u = [0]) ∧
    (u ≠ 0 → ∃ s : List Nat, s ≠ [] ∧ s.headD 0 ≠ 0 ∧ fromBytesBE s = u ∧
      (∀ l : List Nat, (∀ b ∈ l, b < 256) → fromBytesBE l = u →
        s.length ≤ l.length) ∧
      encode_integer64_bytes u = if 128 ≤ s.headD 0 then 0 :: s else s) := by
  by_cases hu0 : u = 0
  · subst hu0
    refine ⟨rfl, rfl, by decide, ?_, fun _ => rfl, fun hc => absurd rfl hc⟩
    intro b hbm
    rw [show encode_integer64_bytes 0 = [0] from rfl] at hbm
    simp only [List.mem_singleton] at hbm
    omega
  · obtain ⟨hsne, hshead, hsfrom, hsb, hmin⟩ :=
      stripZeros_minimal (beBytes64_bytes u) (beBytes64_fromBytes hu)
        (fun hc => List.noConfusion hc) hu0
    have henc : encode_integer64_bytes u =
        if 128 ≤ (stripZeros (beBytes64 u)).headD 0 then
          0 :: stripZeros (beBytes64 u)
        else stripZeros (beBytes64 u) := by
      rw [encode_integer64_bytes, if_neg hu0]
    have hfromenc : fromBytesBE (encode_integer64_bytes u) = u := by
      rw [henc]
      split
      · rw [fromBytesBE_cons, hsfrom]
        ring_nf
      · exact hsfrom
    have hheadenc : (encode_integer64_bytes u).headD 0 < 128 := by
      rw [henc]
      split
      · simp
      · rename_i hcond
        rcases hs : stripZeros (beBytes64 u) with _ | ⟨h, t⟩
        · exact absurd hs hsne
        · rw [hs] at hcond
          simp only [List.headD_cons] at hcond ⊢
          omega
    have hbenc : ∀ b ∈ encode_integer64_bytes u, b < 256 := by
      rw [henc]
      split
      · intro b hbm
        rcases List.mem_cons.1 hbm with h | h
        · omega
        · exact hsb b h
      · exact hsb
    refine ⟨hfromenc, ?_, hheadenc, hbenc, fun hc => absurd hc hu0,
      fun _ => ⟨stripZeros (beBytes64 u), hsne, hshead, hsfrom, hmin, henc⟩⟩
    rw [twosValue, if_neg (by omega), hfromenc]

/-- C6: all BER integer encodings produced by the encoder are minimal.  For
every `i32` value `v`, `encode_integer_stack` yields a nonempty
two's-complement byte string that decodes to `v`, carries no redundant
leading `0x00`/`0xFF` sign byte, and is shortest among all two's-complement
representations of `v`; the claimed examples hold (`0 → [0x00]`,
`-1 → [0xFF]`, `127 → [0x7F]`, `-128 → [0x80]`, and `INT32_MIN`/`INT32_MAX`
use exactly 4 bytes).  For every `u32` value `u` and `u64` value `w`,
`encode_unsigned32_stack`/`encode_integer64_stack` encode the value (with a
top bit that stays clear), `0` encodes as the single byte `0x00`, and a
nonzero value is encoded as its shortest big-endian byte sequence (nonzero
first byte, minimal length among all byte sequences of the value) with a
single leading `0x00` prepended iff the most significant bit of the first
significant byte is set. -/
theorem C6_minimal_integer_encodings
    (v : Int) (hv1 : -(2 ^ 31) ≤ v) (hv2 : v < 2 ^ 31)
    (u : Nat) (hu : u < 2 ^ 32) (w : Nat) (hw : w < 2 ^ 64) :
    (twosValue (encode_integer_bytes v) = v ∧
     encode_integer_bytes v ≠ [] ∧
     nonRedundant (encode_integer_bytes v) ∧
     (∀ l : List Nat, (∀ b ∈ l, b < 256) → l ≠ [] → twosValue l = v →
       (encode_integer_bytes v).length ≤ l.length)) ∧
    (fromBytesBE (encode_unsigned32_bytes u) = u ∧
     twosValue (encode_unsigned32_bytes u) = (u : Int) ∧
     (encode_unsigned32_bytes u).headD 0 < 128 ∧
     (u = 0 → encode_unsigned32_bytes u = [0]) ∧
     (u ≠ 0 → ∃ s : List Nat, s ≠ [] ∧ s.headD 0 ≠ 0 ∧ fromBytesBE s = u ∧
       (∀ l : List Nat, (∀ b ∈ l, b < 256) → fromBytesBE l = u →
         s.length ≤ l.length) ∧
       encode_unsigned32_bytes u = if 128 ≤ s.headD 0 then 0 :: s else s)) ∧
    (fromBytesBE (encode_integer64_bytes w) = w ∧
     twosValue (encode_integer64_bytes w) = (w : Int) ∧
     (encode_integer64_bytes w).headD 0 < 128 ∧
     (w = 0 → encode_integer64_bytes w = [0]) ∧
     (w ≠ 0 → ∃ s : List Nat, s ≠ [] ∧ s.headD 0 ≠ 0 ∧ fromBytesBE s = w ∧
       (∀ l : List Nat, (∀ b ∈ l, b < 256) → fromBytesBE l = w →
         s.length ≤ l.length) ∧
       encode_integer64_bytes w = if 128 ≤ s.headD 0 then 0 :: s else s)) ∧
    (encode_integer_bytes 0 = [0] ∧ encode_integer_bytes (-1) = [255] ∧
     encode_integer_bytes 127 = [127] ∧ encode_integer_bytes (-128) = [128] ∧
     (encode_integer_bytes (-(2 ^ 31))).length = 4 ∧
     (encode_integer_bytes (2 ^ 31 - 1)).length = 4) := by
  obtain ⟨ha, hb, hbytes, hnr⟩ := encode_integer_correct v hv1 hv2
  obtain ⟨h32a, h32b, h32c, h32d, h32e, h32f⟩ := encode_unsigned32_correct u hu
  obtain ⟨h64a, h64b, h64c, h64d, h64e, h64f⟩ := encode_integer64_correct w hw
  refine ⟨⟨ha, hb, hnr, ?_⟩, ⟨h32a, h32b, h32c, h32e, h32f⟩,
    ⟨h64a, h64b, h64c, h64e, h64f⟩,
    by decide, by decide, by decide, by decide, by decide, by decide⟩
  intro l hbl hlne hlv
  exact twosValue_shortest hbytes hbl hb hlne hnr (hlv.trans ha.symm)

theorem C6_minimal_integer_encodings_witness :
    -(2 ^ 31) ≤ (-300 : Int) ∧ (-300 : Int) < 2 ^ 31 ∧ (128 : Nat) < 2 ^ 32 ∧
      (4294967296 : Nat) < 2 ^ 64 ∧
      twosValue (encode_integer_bytes (-300)) = -300 ∧
      fromBytesBE (encode_unsigned32_bytes 128) = 128 ∧
      fromBytesBE (encode_integer64_bytes 4294967296) = 4294967296 := by
  have h := C6_minimal_integer_encodings (-300) (by decide) (by decide)
    128 (by decide) 4294967296 (by decide)
  exact ⟨by decide, by decide, by decide, by decide, h.1.1, h.2.1.1, h.2.2.1.1⟩

/-! ### BER varbind codec (`src/varbind.rs`, `src/ber/*`)

The encoder (`src/ber/encode.rs`) is a reverse-growing buffer: content is
written, then the length and the tag are prepended, and `finish` reverses the
whole buffer.  Composed out, every `push_X` therefore contributes the forward
bytes `tag ++ length ++ content`; the embedding produces those forward bytes
directly.  `src/ber/decode.rs`, `src/ber/length.rs`, `src/oid.rs` and
`src/value.rs` are not among the provided sources and are modelled from the
spec (§4.1 decoder rules, §3 OID/Value).  Tags are the constants of
`src/ber/tag.rs`. -/

/-- Modelled from the spec: the base-128 big-endian digits of an OID
sub-identifier, fuelled (the value itself bounds the digit count; the zero
fuel case is unreachable for `fuel ≥ a`). -/
def arcDigitsGo : Nat → Nat → List Nat
  | 0, a => [a % 128]
  | fuel + 1, a =>
    if a < 128 then [a]
    else arcDigitsGo fuel (a / 128) ++ [a % 128]

/-- Modelled from the spec: the base-128 big-endian digits of an OID
sub-identifier (`src/oid.rs` is not among the provided sources; spec §3: every
arc is encoded base-128 big-endian). -/
def arcDigits (a : Nat) : List Nat :=
  arcDigitsGo a a

/-- Modelled from the spec: set the continuation bit (0x80) on every digit of
a sub-identifier except the last (spec §3: base-128 with continuation
bits). -/
def withCont : List Nat → List Nat
  | [] => []
  | [x] => [x]
  | x :: y :: rest => (x + 128) :: withCont (y :: rest)

/-- Modelled from the spec: the concatenated sub-identifier bytes of a list of
already-packed sub-identifier values. -/
def arcsBytes (l : List Nat) : List Nat :=
  l.foldr (fun arc acc => withCont (arcDigits arc) ++ acc) []

/-- Modelled from the spec: `Oid::to_ber_smallvec` (`src/oid.rs` is not among
the provided sources; spec §3: the first two arcs are packed as
`40·first + second`, every following arc is one sub-identifier). -/
def oidToBer (o : Oid) : List Nat :=
  match o.arcs with
  | a :: b :: rest => arcsBytes ((40 * a + b) :: rest)
  | _ => []

/-- Modelled from the spec: `encode_length` (`src/ber/length.rs` is not among
the provided sources; spec §4.1: short form < 128 in one byte; long form
`0x80 | n` followed by `n` big-endian bytes). -/
def encodeLength (n : Nat) : List Nat :=
  if n < 128 then [n]
  else (128 + (stripZeros (beBytes32 n)).length) :: stripZeros (beBytes32 n)

/-- One BER tag-length-value unit in forward byte order (what a `push_X` of
`EncodeBuf` contributes after `finish` reverses the buffer). -/
def tlv (t : Nat) (content : List Nat) : List Nat :=
  t :: (encodeLength content.length ++ content)

/-- Modelled from the spec: `Value::encode` (`src/value.rs` is not among the
provided sources; spec §3 lists the variants, §6 and `src/ber/tag.rs` give the
tags; the integer payloads are the stack encoders of `src/ber/encode.rs`, the
exception markers encode with empty content, `Unknown{tag, bytes}` re-emits
its tag and bytes). -/
def Value.encode : Value → List Nat
  | Value.Integer v => tlv 2 (encode_integer_bytes v)
  | Value.OctetString bytes => tlv 4 bytes
  | Value.Null => tlv 5 []
  | Value.ObjectIdentifier oid => tlv 6 (oidToBer oid)
  | Value.IpAddress b0 b1 b2 b3 => tlv 64 [b0, b1, b2, b3]
  | Value.Counter32 v => tlv 65 (encode_unsigned32_bytes v)
  | Value.Gauge32 v => tlv 66 (encode_unsigned32_bytes v)
  | Value.TimeTicks v => tlv 67 (encode_unsigned32_bytes v)
  | Value.Opaque bytes => tlv 68 bytes
  | Value.Counter64 v => tlv 70 (encode_integer64_bytes v)
  | Value.NoSuchObject => tlv 128 []
  | Value.NoSuchInstance => tlv 129 []
  | Value.EndOfMibView => tlv 130 []
  | Value.Unknown t bytes => tlv t bytes

/-- `VarBind::encode` (src/varbind.rs): a SEQUENCE whose content is the OID
then the value (written value-first into the reverse buffer). -/
def VarBind.encode (vb : VarBind) : List Nat :=
  tlv 48 (tlv 6 (oidToBer vb.oid) ++ vb.value.encode)

/-- The concatenated encodings of a varbind list (the SEQUENCE content of
`encode_varbind_list`, written in reverse order into the reverse buffer). -/
def varBindsBytes (vbs : List VarBind) : List Nat :=
  vbs.foldr (fun vb acc => vb.encode ++ acc) []

/-- `encode_varbind_list` (src/varbind.rs): a SEQUENCE of the per-varbind
SEQUENCEs. -/
def encode_varbind_list (vbs : List VarBind) : List Nat :=
  tlv 48 (varBindsBytes vbs)

/-- Modelled from the spec: the BER length reader (`src/ber/length.rs` /
`src/ber/decode.rs` are not among the provided sources; spec §4.1: short form;
long form `0x80 | n` with `1 ≤ n ≤ 4` big-endian bytes, indefinite length
rejected, total length ≤ 16 MiB enforced). -/
def readLen : List Nat → Option (Nat × List Nat)
  | [] => none
  | b :: rest =>
    if b < 128 then some (b, rest)
    else
      if b - 128 = 0 ∨ 4 < b - 128 then none
      else if b - 128 ≤ rest.length then
        if fromBytesBE (rest.take (b - 128)) ≤ 16777216 then
          some (fromBytesBE (rest.take (b - 128)), rest.drop (b - 128))
        else none
      else none

/-- Modelled from the spec: consume exactly `n` content bytes
(`TruncatedData` when fewer remain). -/
def readBytes (n : Nat) (input : List Nat) : Option (List Nat × List Nat) :=
  if n ≤ input.length then some (input.take n, input.drop n) else none

/-- Modelled from the spec: read one tag-length-value unit, returning the tag,
the content and the remaining bytes. -/
def readTlvAny (input : List Nat) : Option (Nat × List Nat × List Nat) :=
  match input with
  | [] => none
  | t :: rest =>
    match readLen rest with
    | none => none
    | some (n, rest2) =>
      match readBytes n rest2 with
      | none => none
      | some (content, rest3) => some (t, content, rest3)

/-- Modelled from the spec: read a tag-length-value unit with an expected tag
(`UnexpectedTag` otherwise). -/
def readTlvTag (t : Nat) (input : List Nat) : Option (List Nat × List Nat) :=
  match readTlvAny input with
  | none => none
  | some (t2, content, rest) =>
    if t2 = t then some (content, rest) else none

/-- Modelled from the spec: parse one base-128 sub-identifier, accumulating
while the continuation bit is set (spec §4.1: `read_oid` rejects an invalid
continuation, i.e. input ending inside a sub-identifier). -/
def parseArc (acc : Nat) : List Nat → Option (Nat × List Nat)
  | [] => none
  | b :: rest =>
    if b < 128 then some (acc * 128 + b, rest)
    else parseArc (acc * 128 + (b - 128)) rest

/-- Modelled from the spec: parse all sub-identifiers of an OID content
(fuelled by the content length; parsing consumes at least one byte per
sub-identifier). -/
def parseArcs : Nat → List Nat → Option (List Nat)
  | _, [] => some []
  | 0, _ :: _ => none
  | fuel + 1, b :: rest =>
    match parseArc 0 (b :: rest) with
    | none => none
    | some (a, rest2) =>
      match parseArcs fuel rest2 with
      | none => none
      | some arcs => some (a :: arcs)

/-- Modelled from the spec: undo the `40·first + second` packing of the first
sub-identifier (spec §4.1: `read_oid` enforces the split). -/
def splitFirstSubid (x : Nat) : Nat × Nat :=
  if x < 80 then (x / 40, x % 40) else (2, x - 80)

/-- Modelled from the spec: `read_oid` (spec §4.1: tag 0x06, base-128
sub-identifiers, the `40·a + b` split, at most 128 arcs). -/
def readOid (input : List Nat) : Option (Oid × List Nat) :=
  match readTlvTag 6 input with
  | none => none
  | some (content, rest) =>
    match parseArcs content.length content with
    | none => none
    | some [] => none
    | some (x :: arcs) =>
      if arcs.length + 2 ≤ 128 then
        some (⟨(splitFirstSubid x).1 :: (splitFirstSubid x).2 :: arcs⟩, rest)
      else none

/-- Modelled from the spec: `Value::decode` (`src/value.rs` is not among the
provided sources; spec §4.1 gives the readers: `read_integer` rejects zero
length and more than 5 bytes and folds the sign-extended form into an `i32`;
`read_unsigned32`/`read_counter64` accept up to 5 and 9 bytes; `read_null`
requires length 0; `read_ip_address` requires length exactly 4; unknown tags
are preserved as `Unknown{tag, bytes}`). -/
def decodeValue (input : List Nat) : Option (Value × List Nat) :=
  match readTlvAny input with
  | none => none
  | some (t, content, rest) =>
    if t = 2 then
      if content.length = 0 ∨ 5 < content.length then none
      else if -(2 ^ 31) ≤ twosValue content ∧ twosValue content < 2 ^ 31 then
        some (Value.Integer (twosValue content), rest)
      else none
    else if t = 4 then some (Value.OctetString content, rest)
    else if t = 5 then
      if content.length = 0 then some (Value.Null, rest) else none
    else if t = 6 then
      match parseArcs content.length content with
      | none => none
      | some [] => none
      | some (x :: arcs) =>
        if arcs.length + 2 ≤ 128 then
          some (Value.ObjectIdentifier
            ⟨(splitFirstSubid x).1 :: (splitFirstSubid x).2 :: arcs⟩, rest)
        else none
    else if t = 64 then
      match content with
      | [b0, b1, b2, b3] => some (Value.IpAddress b0 b1 b2 b3, rest)
      | _ => none
    else if t = 65 ∨ t = 66 ∨ t = 67 then
      if content.length = 0 ∨ 5 < content.length then none
      else if fromBytesBE content < 2 ^ 32 then
        some (if t = 65 then Value.Counter32 (fromBytesBE content)
          else if t = 66 then Value.Gauge32 (fromBytesBE content)
          else Value.TimeTicks (fromBytesBE content), rest)
      else none
    else if t = 68 then some (Value.Opaque content, rest)
    else if t = 70 then
      if content.length = 0 ∨ 9 < content.length then none
      else if fromBytesBE content < 2 ^ 64 then
        some (Value.Counter64 (fromBytesBE content), rest)
      else none
    else if t = 128 then some (Value.NoSuchObject, rest)
    else if t = 129 then some (Value.NoSuchInstance, rest)
    else if t = 130 then some (Value.EndOfMibView, rest)
    else some (Value.Unknown t content, rest)

/-- `VarBind::decode` (src/varbind.rs): read the outer SEQUENCE, then inside
its content read the OID and then the value; bytes left over inside the
sub-decoder are not an error, and decoding continues after the SEQUENCE. -/
def decodeVarBind (input : List Nat) : Option (VarBind × List Nat) :=
  match readTlvTag 48 input with
  | none => none
  | some (content, rest) =>
    match readOid content with
    | none => none
    | some (oid, content2) =>
      match decodeValue content2 with
      | none => none
      | some (value, _) => some (⟨oid, value⟩, rest)

/-- `decode_varbind_list`'s inner loop (src/varbind.rs): decode varbinds while
the sub-decoder is not empty (fuelled by the content length; each varbind
consumes at least one byte). -/
def decodeVarBinds : Nat → List Nat → Option (List VarBind)
  | _, [] => some []
  | 0, _ :: _ => none
  | fuel + 1, b :: rest =>
    match decodeVarBind (b :: rest) with
    | none => none
    | some (vb, rest2) =>
      match decodeVarBinds fuel rest2 with
      | none => none
      | some vbs => some (vb :: vbs)

/-- `decode_varbind_list` (src/varbind.rs): read the outer SEQUENCE and drain
its content. -/
def decode_varbind_list (input : List Nat) : Option (List VarBind) :=
  match readTlvTag 48 input with
  | none => none
  | some (content, _) => decodeVarBinds content.length content

/-- Well-formedness of a `Value` as the Rust type carries it: payloads are
bytes (`u8`), integers fit their Rust widths (`i32`/`u32`/`u64`), embedded
OIDs are valid, string payloads fit the 16 MiB BER length cap, and an
`Unknown` tag is a byte distinct from every handled tag. -/
def Value.wf : Value → Prop
  | Value.Integer v => -(2 ^ 31) ≤ v ∧ v < 2 ^ 31
  | Value.OctetString bytes => (∀ b ∈ bytes, b < 256) ∧ bytes.length ≤ 16777216
  | Value.Null => True
  | Value.ObjectIdentifier oid => oid.valid
  | Value.IpAddress b0 b1 b2 b3 => b0 < 256 ∧ b1 < 256 ∧ b2 < 256 ∧ b3 < 256
  | Value.Counter32 v => v < 2 ^ 32
  | Value.Gauge32 v => v < 2 ^ 32
  | Value.TimeTicks v => v < 2 ^ 32
  | Value.Opaque bytes => (∀ b ∈ bytes, b < 256) ∧ bytes.length ≤ 16777216
  | Value.Counter64 v => v < 2 ^ 64
  | Value.NoSuchObject => True
  | Value.NoSuchInstance => True
  | Value.EndOfMibView => True
  | Value.Unknown t bytes =>
      t < 256 ∧ t ∉ [2, 4, 5, 6, 64, 65, 66, 67, 68, 70, 128, 129, 130] ∧
      (∀ b ∈ bytes, b < 256) ∧ bytes.length ≤ 16777216

/-- Well-formedness of a `VarBind`: valid OID, well-formed value. -/
def VarBind.wf (vb : VarBind) : Prop :=
  vb.oid.valid ∧ vb.value.wf

theorem stripZeros_length_le (l : List Nat) : (stripZeros l).length ≤ l.length := by
  induction l with
  | nil => exact Nat.le_refl _
  | cons b0 t ih =>
    cases t with
    | nil => rw [stripZeros_single]
    | cons b1 rest =>
      rcases Nat.eq_zero_or_pos b0 with h0 | h0
      · subst h0
        rw [stripZeros_cons_zero]
        calc (stripZeros (b1 :: rest)).length ≤ (b1 :: rest).length := ih
          _ ≤ (0 :: b1 :: rest).length := by simp
      · rw [stripZeros_cons_pos rest (by omega)]

theorem stripPos_length_le (l : List Nat) : (stripPos l).length ≤ l.length := by
  induction l with
  | nil => exact Nat.le_refl _
  | cons b0 t ih =>
    cases t with
    | nil => exact Nat.le_refl _
    | cons b1 rest =>
      rw [stripPos]
      split
      · calc (stripPos (b1 :: rest)).length ≤ (b1 :: rest).length := ih
          _ ≤ (b0 :: b1 :: rest).length := by simp
      · exact Nat.le_refl _

theorem stripNeg_length_le (l : List Nat) : (stripNeg l).length ≤ l.length := by
  induction l with
  | nil => exact Nat.le_refl _
  | cons b0 t ih =>
    cases t with
    | nil => exact Nat.le_refl _
    | cons b1 rest =>
      rw [stripNeg]
      split
      · calc (stripNeg (b1 :: rest)).length ≤ (b1 :: rest).length := ih
          _ ≤ (b0 :: b1 :: rest).length := by simp
      · exact Nat.le_refl _

theorem readLen_encodeLength {n : Nat} (h : n ≤ 16777216) (rest : List Nat) :
    readLen (encodeLength n ++ rest) = some (n, rest) := by
  rw [encodeLength]
  split
  · rename_i hlt
    show readLen (n :: rest) = some (n, rest)
    rw [readLen, if_pos hlt]
  · rename_i hge
    have hne : stripZeros (beBytes32 n) ≠ [] :=
      stripZeros_ne_nil (fun hc => List.noConfusion hc)
    have h1 : 1 ≤ (stripZeros (beBytes32 n)).length := by
      rcases hs : stripZeros (beBytes32 n) with _ | ⟨x, xs⟩
      · exact absurd hs hne
      · simp
    have h4 : (stripZeros (beBytes32 n)).length ≤ 4 := stripZeros_length_le _
    show readLen ((128 + (stripZeros (beBytes32 n)).length) ::
      (stripZeros (beBytes32 n) ++ rest)) = some (n, rest)
    rw [readLen]
    rw [if_neg (by omega)]
    have hsub : 128 + (stripZeros (beBytes32 n)).length - 128 =
        (stripZeros (beBytes32 n)).length := by omega
    rw [hsub]
    rw [if_neg (by omega)]
    rw [if_pos (by simp [List.length_append])]
    rw [List.take_left, List.drop_left]
    have hfrom : fromBytesBE (stripZeros (beBytes32 n)) = n := by
      rw [stripZeros_fromBytes, beBytes32_fromBytes (by omega)]
    rw [hfrom, if_pos h]

theorem readTlvAny_tlv {t : Nat} {content : List Nat}
    (hcap : content.length ≤ 16777216) (rest : List Nat) :
    readTlvAny (tlv t content ++ rest) = some (t, content, rest) := by
  have hshape : tlv t content ++ rest =
      t :: (encodeLength content.length ++ (content ++ rest)) := by
    simp [tlv, List.append_assoc]
  rw [hshape, readTlvAny]
  rw [readLen_encodeLength hcap]
  simp only [readBytes]
  rw [if_pos (by simp [List.length_append])]
  rw [List.take_left, List.drop_left]

theorem readTlvTag_tlv {t : Nat} {content : List Nat}
    (hcap : content.length ≤ 16777216) (rest : List Nat) :
    readTlvTag t (tlv t content ++ rest) = some (content, rest) := by
  rw [readTlvTag, readTlvAny_tlv hcap rest]
  show (if t = t then some (content, rest) else none) = some (content, rest)
  rw [if_pos rfl]

theorem arcDigitsGo_ne_nil (fuel a : Nat) : arcDigitsGo fuel a ≠ [] := by
  cases fuel with
  | zero => exact fun hc => List.noConfusion hc
  | succ fuel =>
    rw [arcDigitsGo]
    split
    · exact fun hc => List.noConfusion hc
    · intro hc
      simp at hc

theorem arcDigitsGo_lt128 : ∀ fuel a, ∀ d ∈ arcDigitsGo fuel a, d < 128 := by
  intro fuel
  induction fuel with
  | zero =>
    intro a d hd
    simp only [arcDigitsGo, List.mem_singleton] at hd
    omega
  | succ fuel ih =>
    intro a d hd
    rw [arcDigitsGo] at hd
    split at hd
    · rename_i h
      simp only [List.mem_singleton] at hd
      omega
    · rcases List.mem_append.1 hd with hd | hd
      · exact ih (a / 128) d hd
      · simp only [List.mem_singleton] at hd
        omega

theorem arcDigitsGo_foldl : ∀ fuel a, a ≤ fuel → ∀ acc : Nat,
    (arcDigitsGo fuel a).foldl (fun x d => x * 128 + d) acc =
      acc * 128 ^ (arcDigitsGo fuel a).length + a := by
  intro fuel
  induction fuel with
  | zero =>
    intro a ha acc
    have : a = 0 := by omega
    subst this
    simp [arcDigitsGo]
  | succ fuel ih =>
    intro a ha acc
    rw [arcDigitsGo]
    split
    · simp only [List.foldl_cons, List.foldl_nil, List.length_cons,
        List.length_nil, Nat.zero_add, pow_one]
    · rename_i h
      rw [List.foldl_append]
      rw [ih (a / 128) (by omega) acc]
      simp only [List.foldl_cons, List.foldl_nil, List.length_append,
        List.length_cons, List.length_nil, Nat.zero_add]
      have hsplit : a / 128 * 128 + a % 128 = a := by omega
      calc (acc * 128 ^ (arcDigitsGo fuel (a / 128)).length + a / 128) * 128 +
            a % 128
          = acc * (128 ^ (arcDigitsGo fuel (a / 128)).length * 128) +
              (a / 128 * 128 + a % 128) := by ring
        _ = acc * 128 ^ ((arcDigitsGo fuel (a / 128)).length + 1) + a := by
              rw [hsplit, pow_succ]

theorem arcDigitsGo_length_le (k : Nat) : ∀ fuel a, a < 128 ^ k →
    (arcDigitsGo fuel a).length ≤ k + 1 := by
  induction k with
  | zero =>
    intro fuel a h
    have ha : a = 0 := by simpa using h
    subst ha
    cases fuel with
    | zero => simp [arcDigitsGo]
    | succ fuel =>
      rw [arcDigitsGo, if_pos (by omega)]
      simp
  | succ k ih =>
    intro fuel a h
    cases fuel with
    | zero => simp [arcDigitsGo]
    | succ fuel =>
      rw [arcDigitsGo]
      split
      · simp
      · rename_i hge
        simp only [List.length_append, List.length_cons, List.length_nil]
        have hdiv : a / 128 < 128 ^ k := by
          rw [pow_succ] at h
          omega
        have := ih fuel (a / 128) hdiv
        omega

theorem arcDigits_ne_nil (a : Nat) : arcDigits a ≠ [] :=
  arcDigitsGo_ne_nil a a

theorem arcDigits_lt128 (a : Nat) : ∀ d ∈ arcDigits a, d < 128 :=
  arcDigitsGo_lt128 a a

theorem arcDigits_foldl (a : Nat) : ∀ acc : Nat,
    (arcDigits a).foldl (fun x d => x * 128 + d) acc =
      acc * 128 ^ (arcDigits a).length + a :=
  arcDigitsGo_foldl a a (Nat.le_refl a)

theorem arcDigits_length_le (k : Nat) : ∀ a, a < 128 ^ k →
    (arcDigits a).length ≤ k + 1 :=
  fun a h => arcDigitsGo_length_le k a a h

theorem withCont_ne_nil {l : List Nat} (h : l ≠ []) : withCont l ≠ [] := by
  rcases l with _ | ⟨x, t⟩
  · exact absurd rfl h
  · rcases t with _ | ⟨y, r⟩
    · exact fun hc => List.noConfusion hc
    · exact fun hc => List.noConfusion hc

theorem withCont_length (l : List Nat) : (withCont l).length = l.length := by
  induction l with
  | nil => rfl
  | cons x t ih =>
    rcases t with _ | ⟨y, r⟩
    · rfl
    · show ((x + 128) :: withCont (y :: r)).length = (x :: y :: r).length
      simp only [List.length_cons, ih]

theorem parseArc_withCont (D : List Nat) (hne : D ≠ [])
    (hlt : ∀ d ∈ D, d < 128) :
    ∀ acc rest, parseArc acc (withCont D ++ rest) =
      some (D.foldl (fun x d => x * 128 + d) acc, rest) := by
  induction D with
  | nil => exact absurd rfl hne
  | cons d D2 ih =>
    intro acc rest
    rcases D2 with _ | ⟨e, E⟩
    · show parseArc acc (d :: rest) = _
      rw [parseArc, if_pos (hlt d (List.mem_cons_self _ _))]
      rfl
    · show parseArc acc ((d + 128) :: (withCont (e :: E) ++ rest)) = _
      rw [parseArc]
      rw [if_neg (by omega)]
      have hsub : acc * 128 + (d + 128 - 128) = acc * 128 + d := by omega
      rw [hsub]
      rw [ih (fun hc => List.noConfusion hc)
        (fun x hx => hlt x (List.mem_cons_of_mem _ hx))]
      rfl

theorem parseArc_subid (a : Nat) (rest : List Nat) :
    parseArc 0 (withCont (arcDigits a) ++ rest) = some (a, rest) := by
  rw [parseArc_withCont (arcDigits a) (arcDigits_ne_nil a) (arcDigits_lt128 a)]
  rw [arcDigits_foldl]
  simp

theorem arcsBytes_cons (a : Nat) (l : List Nat) :
    arcsBytes (a :: l) = withCont (arcDigits a) ++ arcsBytes l := rfl

theorem arcsBytes_length_le {l : List Nat} (h : ∀ x ∈ l, x < 2 ^ 33) :
    (arcsBytes l).length ≤ 6 * l.length := by
  induction l with
  | nil => simp [arcsBytes]
  | cons a t ih =>
    rw [arcsBytes_cons]
    simp only [List.length_append, List.length_cons]
    have h1 : (withCont (arcDigits a)).length ≤ 6 := by
      rw [withCont_length]
      have ha : a < 128 ^ 5 := by
        have := h a (List.mem_cons_self _ _)
        have hb : (2 : Nat) ^ 33 ≤ 128 ^ 5 := by norm_num
        omega
      have := arcDigits_length_le 5 a ha
      omega
    have h2 := ih (fun x hx => h x (List.mem_cons_of_mem _ hx))
    omega

theorem parseArcs_arcsBytes (l : List Nat) :
    ∀ fuel, (arcsBytes l).length ≤ fuel →
      parseArcs fuel (arcsBytes l) = some l := by
  induction l with
  | nil =>
    intro fuel _
    show parseArcs fuel [] = some []
    cases fuel <;> rfl
  | cons a l2 ih =>
    intro fuel hf
    have hwne : withCont (arcDigits a) ≠ [] :=
      withCont_ne_nil (arcDigits_ne_nil a)
    rcases hw : withCont (arcDigits a) with _ | ⟨c, cs⟩
    · exact absurd hw hwne
    have hshape : arcsBytes (a :: l2) = c :: (cs ++ arcsBytes l2) := by
      rw [arcsBytes_cons, hw]
      rfl
    cases fuel with
    | zero =>
      exfalso
      rw [hshape] at hf
      simp at hf
    | succ fuel2 =>
      have hparse : parseArc 0 (c :: (cs ++ arcsBytes l2)) =
          some (a, arcsBytes l2) := by
        have hp := parseArc_subid a (arcsBytes l2)
        rw [hw] at hp
        exact hp
      have hrest : (arcsBytes l2).length ≤ fuel2 := by
        rw [hshape] at hf
        simp only [List.length_cons, List.length_append] at hf
        omega
      rw [hshape]
      simp only [parseArcs, hparse, ih fuel2 hrest]

theorem splitFirstSubid_pack {a b : Nat} (ha : a ≤ 2)
    (hb : a ≤ 1 → b ≤ 39) : splitFirstSubid (40 * a + b) = (a, b) := by
  rw [splitFirstSubid]
  by_cases h2 : a ≤ 1
  · have hb' := hb h2
    rw [if_pos (by omega)]
    have h1 : (40 * a + b) / 40 = a := by omega
    have h2' : (40 * a + b) % 40 = b := by omega
    rw [h1, h2']
  · have ha2 : a = 2 := by omega
    subst ha2
    rw [if_neg (by omega)]
    have : 40 * 2 + b - 80 = b := by omega
    rw [this]

theorem oidToBer_cap {o : Oid} (hv : o.valid) :
    (oidToBer o).length ≤ 16777216 := by
  obtain ⟨hlen2, hlen128, harcs, hfirst, hsecond⟩ := hv
  rcases o with ⟨arcs⟩
  rcases arcs with _ | ⟨a, t⟩
  · simp at hlen2
  rcases t with _ | ⟨b, rest2⟩
  · simp at hlen2
  have hber : oidToBer ⟨a :: b :: rest2⟩ = arcsBytes ((40 * a + b) :: rest2) :=
    rfl
  have ha : a ≤ 2 := hfirst
  have hbound : ∀ x ∈ (40 * a + b) :: rest2, x < 2 ^ 33 := by
    intro x hx
    rcases List.mem_cons.1 hx with hx | hx
    · subst hx
      have hbb : b < 2 ^ 32 :=
        harcs b (List.mem_cons_of_mem _ (List.mem_cons_self _ _))
      omega
    · have := harcs x (List.mem_cons_of_mem _ (List.mem_cons_of_mem _ hx))
      omega
  have hlen : ((40 * a + b) :: rest2).length ≤ 127 := by
    have hl : (a :: b :: rest2).length ≤ 128 := hlen128
    simp only [List.length_cons] at hl ⊢
    omega
  rw [hber]
  have := arcsBytes_length_le hbound
  omega

theorem oid_parse_spec {o : Oid} (hv : o.valid) :
    ∃ x arcs, parseArcs (oidToBer o).length (oidToBer o) = some (x :: arcs) ∧
      arcs.length + 2 ≤ 128 ∧
      (⟨(splitFirstSubid x).1 :: (splitFirstSubid x).2 :: arcs⟩ : Oid) = o := by
  obtain ⟨hlen2, hlen128, harcs, hfirst, hsecond⟩ := hv
  rcases o with ⟨arcs⟩
  rcases arcs with _ | ⟨a, t⟩
  · simp at hlen2
  rcases t with _ | ⟨b, rest2⟩
  · simp at hlen2
  have hber : oidToBer ⟨a :: b :: rest2⟩ = arcsBytes ((40 * a + b) :: rest2) :=
    rfl
  have ha : a ≤ 2 := hfirst
  have hb : a ≤ 1 → b ≤ 39 := hsecond
  refine ⟨40 * a + b, rest2, ?_, ?_, ?_⟩
  · rw [hber, parseArcs_arcsBytes _ _ (Nat.le_refl _)]
  · have hl : (a :: b :: rest2).length ≤ 128 := hlen128
    simp only [List.length_cons] at hl
    omega
  · rw [splitFirstSubid_pack ha hb]

theorem readOid_tlv {o : Oid} (hv : o.valid) (rest : List Nat) :
    readOid (tlv 6 (oidToBer o) ++ rest) = some (o, rest) := by
  obtain ⟨x, arcs, hparse, hle, heq⟩ := oid_parse_spec hv
  simp only [readOid, readTlvTag_tlv (oidToBer_cap hv) rest, hparse]
  rw [if_pos hle, heq]

theorem encode_integer_length_le (v : Int) :
    (encode_integer_bytes v).length ≤ 4 := by
  rw [encode_integer_bytes]
  split
  · exact stripPos_length_le _
  · exact stripNeg_length_le _

theorem encode_unsigned32_ne_nil (u : Nat) : encode_unsigned32_bytes u ≠ [] := by
  rw [encode_unsigned32_bytes]
  split
  · exact fun hc => List.noConfusion hc
  · split
    · exact fun hc => List.noConfusion hc
    · exact stripZeros_ne_nil (fun hc => List.noConfusion hc)

theorem encode_unsigned32_length_le (u : Nat) :
    (encode_unsigned32_bytes u).length ≤ 5 := by
  rw [encode_unsigned32_bytes]
  split
  · simp
  · have h := stripZeros_length_le (beBytes32 u)
    have h4 : (beBytes32 u).length = 4 := rfl
    rw [h4] at h
    split
    · simp only [List.length_cons]
      omega
    · omega

theorem encode_integer64_ne_nil (u : Nat) : encode_integer64_bytes u ≠ [] := by
  rw [encode_integer64_bytes]
  split
  · exact fun hc => List.noConfusion hc
  · split
    · exact fun hc => List.noConfusion hc
    · exact stripZeros_ne_nil (fun hc => List.noConfusion hc)

theorem encode_integer64_length_le (u : Nat) :
    (encode_integer64_bytes u).length ≤ 9 := by
  rw [encode_integer64_bytes]
  split
  · simp
  · have h := stripZeros_length_le (beBytes64 u)
    have h8 : (beBytes64 u).length = 8 := rfl
    rw [h8] at h
    split
    · simp only [List.length_cons]
      omega
    · omega

theorem decodeValue_encode {v : Value} (hwf : v.wf) (rest : List Nat) :
    decodeValue (Value.encode v ++ rest) = some (v, rest) := by
  cases v with
  | Integer i =>
    obtain ⟨h1, h2⟩ := hwf
    obtain ⟨htv, hne, hbytes, hnr⟩ := encode_integer_correct i h1 h2
    have hlen : (encode_integer_bytes i).length ≤ 4 := encode_integer_length_le i
    have hlen0 : (encode_integer_bytes i).length ≠ 0 := by
      intro hz
      exact hne (List.length_eq_zero.1 hz)
    simp only [Value.encode, decodeValue,
      readTlvAny_tlv (show (encode_integer_bytes i).length ≤ 16777216 by omega)
        rest]
    rw [if_true, if_neg (by omega), if_pos (by rw [htv]; exact ⟨h1, h2⟩), htv]
  | OctetString bytes =>
    obtain ⟨hb, hlen⟩ := hwf
    simp only [Value.encode, decodeValue, readTlvAny_tlv hlen rest]
    rw [if_neg (by decide), if_true]
  | Null =>
    simp only [Value.encode, decodeValue,
      readTlvAny_tlv (show ([] : List Nat).length ≤ 16777216 by decide) rest]
    rw [if_neg (by decide), if_neg (by decide), if_true,
      if_pos (show ([] : List Nat).length = 0 from rfl)]
  | ObjectIdentifier oid =>
    have hv : oid.valid := hwf
    obtain ⟨x, arcs, hparse, hle, heq⟩ := oid_parse_spec hv
    simp only [Value.encode, decodeValue, readTlvAny_tlv (oidToBer_cap hv) rest]
    rw [if_neg (by decide), if_neg (by decide), if_neg (by decide), if_true]
    simp only [hparse]
    rw [if_pos hle, heq]
  | IpAddress b0 b1 b2 b3 =>
    simp only [Value.encode, decodeValue,
      readTlvAny_tlv (show ([b0, b1, b2, b3] : List Nat).length ≤ 16777216 by
        simp) rest]
    rw [if_neg (by decide), if_neg (by decide), if_neg (by decide),
      if_neg (by decide), if_true]
  | Counter32 u =>
    have hu : u < 2 ^ 32 := hwf
    obtain ⟨h32a, _, _, _, _, _⟩ := encode_unsigned32_correct u hu
    have hlen : (encode_unsigned32_bytes u).length ≤ 5 :=
      encode_unsigned32_length_le u
    have hlen0 : (encode_unsigned32_bytes u).length ≠ 0 := by
      intro hz
      exact encode_unsigned32_ne_nil u (List.length_eq_zero.1 hz)
    simp only [Value.encode, decodeValue,
      readTlvAny_tlv
        (show (encode_unsigned32_bytes u).length ≤ 16777216 by omega) rest]
    rw [if_neg (by decide), if_neg (by decide), if_neg (by decide),
      if_neg (by decide), if_neg (by decide), if_pos (Or.inl trivial),
      if_neg (by omega), if_pos (by rw [h32a]; exact hu), if_true, h32a]
  | Gauge32 u =>
    have hu : u < 2 ^ 32 := hwf
    obtain ⟨h32a, _, _, _, _, _⟩ := encode_unsigned32_correct u hu
    have hlen : (encode_unsigned32_bytes u).length ≤ 5 :=
      encode_unsigned32_length_le u
    have hlen0 : (encode_unsigned32_bytes u).length ≠ 0 := by
      intro hz
      exact encode_unsigned32_ne_nil u (List.length_eq_zero.1 hz)
    simp only [Value.encode, decodeValue,
      readTlvAny_tlv
        (show (encode_unsigned32_bytes u).length ≤ 16777216 by omega) rest]
    rw [if_neg (by decide), if_neg (by decide), if_neg (by decide),
      if_neg (by decide), if_neg (by decide),
      if_pos (Or.inr (Or.inl trivial)), if_neg (by omega),
      if_pos (by rw [h32a]; exact hu), if_neg (by decide), if_true, h32a]
  | TimeTicks u =>
    have hu : u < 2 ^ 32 := hwf
    obtain ⟨h32a, _, _, _, _, _⟩ := encode_unsigned32_correct u hu
    have hlen : (encode_unsigned32_bytes u).length ≤ 5 :=
      encode_unsigned32_length_le u
    have hlen0 : (encode_unsigned32_bytes u).length ≠ 0 := by
      intro hz
      exact encode_unsigned32_ne_nil u (List.length_eq_zero.1 hz)
    simp only [Value.encode, decodeValue,
      readTlvAny_tlv
        (show (encode_unsigned32_bytes u).length ≤ 16777216 by omega) rest]
    rw [if_neg (by decide), if_neg (by decide), if_neg (by decide),
      if_neg (by decide), if_neg (by decide),
      if_pos (Or.inr (Or.inr trivial)), if_neg (by omega),
      if_pos (by rw [h32a]; exact hu), if_neg (by decide),
      if_neg (by decide), h32a]
  | Opaque bytes =>
    obtain ⟨hb, hlen⟩ := hwf
    simp only [Value.encode, decodeValue, readTlvAny_tlv hlen rest]
    rw [if_neg (by decide), if_neg (by decide), if_neg (by decide),
      if_neg (by decide), if_neg (by decide), if_neg (by decide), if_true]
  | Counter64 u =>
    have hu : u < 2 ^ 64 := hwf
    obtain ⟨h64a, _, _, _, _, _⟩ := encode_integer64_correct u hu
    have hlen : (encode_integer64_bytes u).length ≤ 9 :=
      encode_integer64_length_le u
    have hlen0 : (encode_integer64_bytes u).length ≠ 0 := by
      intro hz
      exact encode_integer64_ne_nil u (List.length_eq_zero.1 hz)
    simp only [Value.encode, decodeValue,
      readTlvAny_tlv
        (show (encode_integer64_bytes u).length ≤ 16777216 by omega) rest]
    rw [if_neg (by decide), if_neg (by decide), if_neg (by decide),
      if_neg (by decide), if_neg (by decide), if_neg (by decide),
      if_neg (by decide), if_true, if_neg (by omega),
      if_pos (by rw [h64a]; exact hu), h64a]
  | NoSuchObject =>
    simp only [Value.encode, decodeValue,
      readTlvAny_tlv (show ([] : List Nat).length ≤ 16777216 by decide) rest]
    rw [if_neg (by decide), if_neg (by decide), if_neg (by decide),
      if_neg (by decide), if_neg (by decide), if_neg (by decide),
      if_neg (by decide), if_neg (by decide), if_true]
  | NoSuchInstance =>
    simp only [Value.encode, decodeValue,
      readTlvAny_tlv (show ([] : List Nat).length ≤ 16777216 by decide) rest]
    rw [if_neg (by decide), if_neg (by decide), if_neg (by decide),
      if_neg (by decide), if_neg (by decide), if_neg (by decide),
      if_neg (by decide), if_neg (by decide), if_neg (by decide), if_true]
  | EndOfMibView =>
    simp only [Value.encode, decodeValue,
      readTlvAny_tlv (show ([] : List Nat).length ≤ 16777216 by decide) rest]
    rw [if_neg (by decide), if_neg (by decide), if_neg (by decide),
      if_neg (by decide), if_neg (by decide), if_neg (by decide),
      if_neg (by decide), if_neg (by decide), if_neg (by decide),
      if_neg (by decide), if_true]
  | Unknown t bytes =>
    obtain ⟨ht256, hnotin, hb, hlen⟩ := hwf
    simp only [List.mem_cons, List.not_mem_nil, or_false] at hnotin
    push_neg at hnotin
    obtain ⟨h2, h4, h5, h6, h64, h65, h66, h67, h68, h70, h128, h129, h130⟩ :=
      hnotin
    simp only [Value.encode, decodeValue, readTlvAny_tlv hlen rest]
    rw [if_neg h2, if_neg h4, if_neg h5, if_neg h6, if_neg h64,
      if_neg (by rintro (h | h | h) <;> [exact h65 h; exact h66 h; exact h67 h]),
      if_neg h68, if_neg h70, if_neg h128, if_neg h129, if_neg h130]

theorem encodeLength_length_pos (n : Nat) : 1 ≤ (encodeLength n).length := by
  rw [encodeLength]
  split
  · simp
  · simp

theorem tlv_length (t : Nat) (content : List Nat) :
    (tlv t content).length =
      1 + (encodeLength content.length).length + content.length := by
  simp [tlv, List.length_append]
  omega

theorem decodeVarBind_encode {vb : VarBind} (hwf : vb.wf)
    (hcap : (tlv 6 (oidToBer vb.oid) ++ Value.encode vb.value).length ≤
      16777216) (rest : List Nat) :
    decodeVarBind (vb.encode ++ rest) = some (vb, rest) := by
  obtain ⟨hov, hvv⟩ := hwf
  simp only [VarBind.encode, decodeVarBind, readTlvTag_tlv hcap rest]
  simp only [readOid_tlv hov (Value.encode vb.value)]
  have hval : decodeValue (Value.encode vb.value) = some (vb.value, []) := by
    have := decodeValue_encode hvv []
    rwa [List.append_nil] at this
  simp only [hval]

theorem decodeVarBinds_bytes (vbs : List VarBind)
    (hwf : ∀ vb ∈ vbs, vb.wf)
    (hcap : (varBindsBytes vbs).length ≤ 16777216) :
    ∀ fuel, (varBindsBytes vbs).length ≤ fuel →
      decodeVarBinds fuel (varBindsBytes vbs) = some vbs := by
  induction vbs with
  | nil =>
    intro fuel _
    show decodeVarBinds fuel [] = some []
    cases fuel <;> rfl
  | cons vb rest ih =>
    intro fuel hf
    have hshape : varBindsBytes (vb :: rest) =
        vb.encode ++ varBindsBytes rest := rfl
    have hvbcap : (tlv 6 (oidToBer vb.oid) ++ Value.encode vb.value).length ≤
        16777216 := by
      have henc : vb.encode.length =
          1 + (encodeLength
            (tlv 6 (oidToBer vb.oid) ++ Value.encode vb.value).length).length +
          (tlv 6 (oidToBer vb.oid) ++ Value.encode vb.value).length :=
        tlv_length 48 _
      have hpos := encodeLength_length_pos
        (tlv 6 (oidToBer vb.oid) ++ Value.encode vb.value).length
      have htot : vb.encode.length + (varBindsBytes rest).length =
          (varBindsBytes (vb :: rest)).length := by
        rw [hshape, List.length_append]
      omega
    have hvb := decodeVarBind_encode (hwf vb (List.mem_cons_self _ _))
      hvbcap (varBindsBytes rest)
    have hencpos : 1 ≤ vb.encode.length := by
      rw [VarBind.encode, tlv_length]
      omega
    rcases he : vb.encode with _ | ⟨c, cs⟩
    · rw [he] at hencpos
      simp at hencpos
    have hshape2 : varBindsBytes (vb :: rest) =
        c :: (cs ++ varBindsBytes rest) := by
      rw [hshape, he]
      rfl
    cases fuel with
    | zero =>
      exfalso
      rw [hshape2] at hf
      simp at hf
    | succ fuel2 =>
      have hvb2 : decodeVarBind (c :: (cs ++ varBindsBytes rest)) =
          some (vb, varBindsBytes rest) := by
        rw [← List.cons_append, ← he]
        exact hvb
      have hrestcap : (varBindsBytes rest).length ≤ 16777216 := by
        have : (varBindsBytes (vb :: rest)).length =
            vb.encode.length + (varBindsBytes rest).length := by
          rw [hshape, List.length_append]
        omega
      have hrestfuel : (varBindsBytes rest).length ≤ fuel2 := by
        have h1 : (varBindsBytes (vb :: rest)).length =
            vb.encode.length + (varBindsBytes rest).length := by
          rw [hshape, List.length_append]
        omega
      rw [hshape2]
      simp only [decodeVarBinds, hvb2, ih (fun x hx =>
        hwf x (List.mem_cons_of_mem _ hx)) hrestcap fuel2 hrestfuel]

theorem decode_varbind_list_encode (vbs : List VarBind)
    (hwf : ∀ vb ∈ vbs, vb.wf)
    (hcap : (varBindsBytes vbs).length ≤ 16777216) :
    decode_varbind_list (encode_varbind_list vbs) = some vbs := by
  have h2 : readTlvTag 48 (tlv 48 (varBindsBytes vbs)) =
      some (varBindsBytes vbs, []) := by
    have := readTlvTag_tlv (t := 48) hcap []
    rwa [List.append_nil] at this
  simp only [decode_varbind_list, encode_varbind_list, h2]
  exact decodeVarBinds_bytes vbs hwf hcap _ (Nat.le_refl _)

/-- C7: BER round-trip of variable bindings.  For every well-formed `VarBind`
whose encoding fits the 16 MiB BER length cap the decoder enforces, decoding
the bytes of `VarBind::encode` yields the same varbind (consuming the whole
input); for every list of well-formed varbinds whose concatenated encodings
fit the cap — including the empty list — `decode_varbind_list` applied to the
output of `encode_varbind_list` yields the original list; and the list is
serialized as a SEQUENCE (tag 0x30) wrapping the per-varbind SEQUENCEs. -/
theorem C7_varbind_roundtrip
    (vb : VarBind) (hwf : vb.wf)
    (hcap : (tlv 6 (oidToBer vb.oid) ++ Value.encode vb.value).length ≤
      16777216)
    (vbs : List VarBind) (hwfs : ∀ x ∈ vbs, x.wf)
    (hcaps : (varBindsBytes vbs).length ≤ 16777216) :
    decodeVarBind (VarBind.encode vb) = some (vb, []) ∧
    decode_varbind_list (encode_varbind_list vbs) = some vbs ∧
    decode_varbind_list (encode_varbind_list []) = some [] ∧
    encode_varbind_list vbs = tlv 48 (varBindsBytes vbs) ∧
    (∀ x ∈ vbs, x.encode = tlv 48 (tlv 6 (oidToBer x.oid) ++ x.value.encode)) := by
  refine ⟨?_, decode_varbind_list_encode vbs hwfs hcaps, by decide, rfl,
    fun x _ => rfl⟩
  have := decodeVarBind_encode hwf hcap []
  rwa [List.append_nil] at this

theorem C7_varbind_roundtrip_witness :
    decodeVarBind (VarBind.encode ⟨⟨[1, 3, 6, 1]⟩, Value.Integer 42⟩) =
      some (⟨⟨[1, 3, 6, 1]⟩, Value.Integer 42⟩, []) ∧
    decode_varbind_list (encode_varbind_list
      [⟨⟨[1, 3, 6, 1]⟩, Value.Integer 1⟩, ⟨⟨[1, 3, 6, 2]⟩, Value.Integer 2⟩]) =
      some [⟨⟨[1, 3, 6, 1]⟩, Value.Integer 1⟩,
        ⟨⟨[1, 3, 6, 2]⟩, Value.Integer 2⟩] := by
  have h := C7_varbind_roundtrip ⟨⟨[1, 3, 6, 1]⟩, Value.Integer 42⟩
    ⟨⟨by decide, by decide, by decide, by decide, by decide⟩,
      by decide, by decide⟩
    (by decide)
    [⟨⟨[1, 3, 6, 1]⟩, Value.Integer 1⟩, ⟨⟨[1, 3, 6, 2]⟩, Value.Integer 2⟩]
    (by
      intro x hx
      rcases List.mem_cons.1 hx with h | hx
      · subst h
        exact ⟨⟨by decide, by decide, by decide, by decide, by decide⟩,
          by decide, by decide⟩
      rcases List.mem_cons.1 hx with h | hx
      · subst h
        exact ⟨⟨by decide, by decide, by decide, by decide, by decide⟩,
          by decide, by decide⟩
      · cases hx)
    (by decide)
  exact ⟨h.1, h.2.1⟩

end AsyncSnmp
